import Mathlib

/-!
# Verification of the content-filter data-path queueing engine

A shallow embedding of the per-flow queueing and verdict machinery of
`bsd/net/content_filter.c` (the socket content-filter subsystem), together
with proofs of the specification's testable properties.

Modelling conventions:

* Machine integers (`uint64_t` offsets, `uint32_t` counters) are modelled as
  `Nat`.  The C code's unsigned arithmetic can only be distinguished from
  ideal arithmetic at a subtraction that underflows or an addition that
  overflows; byte counters cannot reach `2^64` in any execution the spec
  considers, so additions are exact, and every subtraction in the source is
  either (a) guarded so that it cannot underflow (modelled with `Nat`
  subtraction, which agrees with `uint64_t` there) or (b) the unguarded
  subtraction in `cfil_queue_drain`, which genuinely underflows and is
  modelled with an explicit `% 2^64` (`sub64`).
* An mbuf chain is modelled by the three quantities the engine ever reads
  from it: its byte length and the two mbuf counters returned by
  `cfil_data_length` (`Span`).
* Fallible external collaborators (the kernel-control transport
  `ctl_enqueuembuf`/`ctl_enqueuedata`, message allocation, and
  `sosend_reinject`) are modelled by an oracle: a list of `errno` results
  consumed one per external attempt (an empty oracle means success).
* Error codes are `Int` because `EJUSTRETURN` is negative.
* The single flow under consideration is always present (`cfil_info` is
  never `NULL`), locks always succeed, and debug-only `VERIFY`/logging
  statements are omitted (they are semantics-free in production builds).
-/

namespace Cfil

/-- `EPIPE` (BSD errno 32). -/
def EPIPE : Int := 32

/-- `ENOMEM` (BSD errno 12). -/
def ENOMEM : Int := 12

/-- `EBUSY` (BSD errno 16). -/
def EBUSY : Int := 16

/-- `ENOBUFS` (BSD errno 55). -/
def ENOBUFS : Int := 55

/-- `EJUSTRETURN` (BSD internal pseudo-errno -2). -/
def EJUSTRETURN : Int := -2

/-- `2^64`, the modulus of `uint64_t` arithmetic. -/
def two64 : Nat := 2 ^ 64

/-- `uint64_t` subtraction `a - b` (two's-complement wraparound), for
`a, b < 2^64`.  Used only where the source's subtraction is unguarded. -/
def sub64 (a b : Nat) : Nat := (a + (two64 - b % two64)) % two64

/-- `MAX_CONTENT_FILTER`: size of the content-filter registry and of the
per-flow entry table (source line 361). -/
def MAX_CONTENT_FILTER : Nat := 8

/-- Modelled from the spec: `CFM_MAX_OFFSET`, the sentinel "pass-all"
offset, is defined in the header `net/content_filter.h`, which is not part
of this source tree; the spec calls it "the sentinel pass-all offset" set
"when the pass offset is set to CFM_MAX_OFFSET" to make the flow
unrestricted, i.e. the largest representable `uint64_t` offset. -/
def CFM_MAX_OFFSET : Nat := two64 - 1

/-- The three quantities `cfil_data_length` extracts from an mbuf chain:
the byte count (`pktlen`), and the `mbcnt`/`mbnum` mbuf-accounting
counters.  A queued span is never split, so this is all the engine ever
reads from a buffered chain. -/
structure Span where
  len : Nat
  mbcnt : Nat
  mbnum : Nat
deriving DecidableEq, Repr

/-- `struct cfil_queue`: an ordered mbuf queue together with the absolute
stream offsets of its first (`q_start`) and one-past-last (`q_end`)
buffered byte. -/
structure CfilQueue where
  q_start : Nat
  q_end : Nat
  q_mq : List Span
deriving DecidableEq, Repr

/-- `cfil_queue_init`. -/
def cfil_queue_init : CfilQueue :=
  { q_start := 0, q_end := 0, q_mq := [] }

/-- `cfil_queue_drain`: returns the `drained` value computed by the source
(`cfq->q_start - cfq->q_end`, an unguarded `uint64_t` subtraction) and the
emptied queue. -/
def cfil_queue_drain (cfq : CfilQueue) : Nat × CfilQueue :=
  (sub64 cfq.q_start cfq.q_end, { q_start := 0, q_end := 0, q_mq := [] })

/-- `cfil_queue_empty` (`MBUFQ_EMPTY`). -/
def cfil_queue_empty (cfq : CfilQueue) : Bool :=
  cfq.q_mq.isEmpty

/-- `cfil_queue_offset_first`. -/
def cfil_queue_offset_first (cfq : CfilQueue) : Nat :=
  cfq.q_start

/-- `cfil_queue_offset_last`. -/
def cfil_queue_offset_last (cfq : CfilQueue) : Nat :=
  cfq.q_end

/-- `cfil_queue_len` (`q_end - q_start`; guarded by the `q_start ≤ q_end`
invariant in the source). -/
def cfil_queue_len (cfq : CfilQueue) : Nat :=
  cfq.q_end - cfq.q_start

/-- `cfil_queue_enqueue`: append a span, advance `q_end` by its length. -/
def cfil_queue_enqueue (cfq : CfilQueue) (m : Span) : CfilQueue :=
  { cfq with q_mq := cfq.q_mq ++ [m], q_end := cfq.q_end + m.len }

/-- `cfil_queue_remove` specialised to its only use pattern: every call
site removes the oldest span (`cfil_queue_first`), whose length is `len`;
`q_start` advances by `len`. -/
def cfil_queue_remove_head (cfq : CfilQueue) (len : Nat) : CfilQueue :=
  { cfq with q_mq := cfq.q_mq.tail, q_start := cfq.q_start + len }

/-- `cfil_queue_first`. -/
def cfil_queue_first (cfq : CfilQueue) : Option Span :=
  cfq.q_mq.head?

/-- Total bytes buffered in a queue, reconstructed from the span list (the
quantity `cfil_queue_verify` checks against `q_end - q_start`). -/
def qBytes (cfq : CfilQueue) : Nat :=
  (cfq.q_mq.map Span.len).sum

/-- The queue well-formedness facts `cfil_queue_verify` asserts: offsets
are ordered and the cursor difference equals the buffered byte count. -/
def QWF (cfq : CfilQueue) : Prop :=
  cfq.q_start ≤ cfq.q_end ∧ cfq.q_start + qBytes cfq = cfq.q_end

instance (cfq : CfilQueue) : Decidable (QWF cfq) := by
  unfold QWF; infer_instance

/-- `struct cfe_buf`: one direction of a filter entry. -/
structure CfeBuf where
  cfe_pending_q : CfilQueue
  cfe_ctl_q : CfilQueue
  cfe_pass_offset : Nat
  cfe_peek_offset : Nat
  cfe_peeked : Nat
deriving DecidableEq, Repr

/-- A zero-initialised `cfe_buf` (as set up by `cfil_info_alloc`). -/
def CfeBuf.init : CfeBuf :=
  { cfe_pending_q := cfil_queue_init
    cfe_ctl_q := cfil_queue_init
    cfe_pass_offset := 0
    cfe_peek_offset := 0
    cfe_peeked := 0 }

/-- `struct cfil_entry`: one per (flow, content filter) pair.  The flag
bits of `cfe_flags` that the data path reads are modelled as named
booleans; `cfe_filter` records whether the entry is attached to a filter
(`cfe_filter != NULL`). -/
structure CfilEntry where
  cfe_filter : Bool
  cfe_sent_sock_attached : Bool
  cfe_data_start : Bool
  cfe_flow_controlled : Bool
  cfe_sent_disconnect_out : Bool
  cfe_sent_disconnect_in : Bool
  cfe_detached : Bool
  cfe_snd : CfeBuf
  cfe_rcv : CfeBuf
deriving DecidableEq, Repr

/-- Select the direction buffer, as the ubiquitous
`entrybuf = outgoing ? &entry->cfe_snd : &entry->cfe_rcv`. -/
def CfilEntry.buf (e : CfilEntry) (outgoing : Bool) : CfeBuf :=
  if outgoing then e.cfe_snd else e.cfe_rcv

/-- Write back the direction buffer. -/
def CfilEntry.setBuf (e : CfilEntry) (outgoing : Bool) (b : CfeBuf) : CfilEntry :=
  if outgoing then { e with cfe_snd := b } else { e with cfe_rcv := b }

/-- `struct cfi_buf`: one direction of the per-flow aggregate state. -/
structure CfiBuf where
  cfi_pending_first : Nat
  cfi_pending_last : Nat
  cfi_pending_mbcnt : Nat
  cfi_pending_mbnum : Nat
  cfi_tail_drop_cnt : Nat
  cfi_pass_offset : Nat
  cfi_inject_q : CfilQueue
deriving DecidableEq, Repr

/-- A zero-initialised `cfi_buf`. -/
def CfiBuf.init : CfiBuf :=
  { cfi_pending_first := 0
    cfi_pending_last := 0
    cfi_pending_mbcnt := 0
    cfi_pending_mbnum := 0
    cfi_tail_drop_cnt := 0
    cfi_pass_offset := 0
    cfi_inject_q := cfil_queue_init }

/-- The state of one flow (`struct cfil_info`) together with the pieces of
its environment the data path touches: the per-unit registry flow-control
flags (`content_filters[u]->cf_flags & CFF_FLOW_CONTROLLED`), the socket's
defunct bit, the external-outcome oracle, and a count of
`wakeup(cfil_info)` calls (observable close-wait wakeups). -/
structure CfilState where
  cfi_drop : Bool
  cfi_close_wait : Bool
  cfi_shut_wr : Bool
  cfi_shut_rd : Bool
  cfi_retry_inject_out : Bool
  cfi_retry_inject_in : Bool
  cfi_byte_inbound_count : Nat
  cfi_byte_outbound_count : Nat
  cfi_snd : CfiBuf
  cfi_rcv : CfiBuf
  cfi_entries : Fin 8 → CfilEntry
  cf_flow_controlled : Fin 8 → Bool
  so_defunct : Bool
  oracle : List Int
  wakeup_count : Nat

/-- The per-direction aggregate buffer, as
`cfi_buf = outgoing ? &cfil_info->cfi_snd : &cfil_info->cfi_rcv`. -/
def CfilState.dirBuf (s : CfilState) (outgoing : Bool) : CfiBuf :=
  if outgoing then s.cfi_snd else s.cfi_rcv

/-- Update the per-direction aggregate buffer. -/
def CfilState.modifyDirBuf (s : CfilState) (outgoing : Bool) (f : CfiBuf → CfiBuf) :
    CfilState :=
  if outgoing then { s with cfi_snd := f s.cfi_snd } else { s with cfi_rcv := f s.cfi_rcv }

/-- Update one entry. -/
def CfilState.setEntry (s : CfilState) (i : Fin 8) (e : CfilEntry) : CfilState :=
  { s with cfi_entries := Function.update s.cfi_entries i e }

/-- Update one entry's direction buffer. -/
def CfilState.modifyEntryBuf (s : CfilState) (i : Fin 8) (outgoing : Bool)
    (f : CfeBuf → CfeBuf) : CfilState :=
  s.setEntry i ((s.cfi_entries i).setBuf outgoing (f ((s.cfi_entries i).buf outgoing)))

/-- Static configuration of the modelled flow: whether the socket is
datagram-flow-tracked (`NEED_DGRAM_FLOW_TRACKING`), the datagram
garbage-collection thresholds (`cfil_udp_gc_mbuf_num_max` /
`cfil_udp_gc_mbuf_cnt_max`), and the fixed attachment order
`cfi_ordered_entries` (the SLIST of attached entries in priority order,
which none of the modelled operations mutates). -/
structure Config where
  needDgramTracking : Bool
  gc_mbuf_num_max : Nat
  gc_mbuf_cnt_max : Nat
  ordered : List (Fin 8)

/-- The chain suffix after entry `i`: the `SLIST_NEXT(entry, cfe_order_link)`
walk of `cfi_ordered_entries` starting past `i`. -/
def chainAfter (ordered : List (Fin 8)) (i : Fin 8) : List (Fin 8) :=
  (ordered.dropWhile (fun j => decide (j ≠ i))).tail

/-- Consume one external outcome from the oracle (empty oracle = success). -/
def popOracle (s : CfilState) : Int × CfilState :=
  match s.oracle with
  | [] => (0, s)
  | e :: rest => (e, { s with oracle := rest })

/-- Set or clear an entry's `CFEF_FLOW_CONTROLLED` bit. -/
def CfilState.setEntryFlowControlled (s : CfilState) (i : Fin 8) (b : Bool) : CfilState :=
  s.setEntry i { s.cfi_entries i with cfe_flow_controlled := b }

/-- Set or clear a registered filter's `CFF_FLOW_CONTROLLED` bit. -/
def CfilState.setCfFlowControlled (s : CfilState) (i : Fin 8) (b : Bool) : CfilState :=
  { s with cf_flow_controlled := Function.update s.cf_flow_controlled i b }

/-- `cfil_dispatch_data_event`: build and send one `DATA_OUT`/`DATA_IN`
event covering `copylen` bytes.  The message construction is pure copying;
what the flow state observes is: nothing is attempted while the filter is
flow-controlled (`ENOBUFS`), otherwise the combined outcome of the
allocations and `ctl_enqueuembuf` comes from the oracle; success clears the
entry's flow-control bit, `ENOBUFS` raises both the entry's and the
registry's flow-control bits. -/
def cfil_dispatch_data_event (s : CfilState) (i : Fin 8) : Int × CfilState :=
  if ¬ (s.cfi_entries i).cfe_filter then
    (0, s)
  else if s.cf_flow_controlled i then
    (ENOBUFS, (s.setEntryFlowControlled i true).setCfFlowControlled i true)
  else
    -- `popOracle` is pure, so the repeated expression below is the one
    -- outcome consumed for this attempt
    if (popOracle s).1 = 0 then
      (0, (popOracle s).2.setEntryFlowControlled i false)
    else if (popOracle s).1 = ENOBUFS then
      (ENOBUFS, ((popOracle s).2.setEntryFlowControlled i true).setCfFlowControlled i true)
    else
      popOracle s

/-- `cfil_dispatch_attach_event`: send the one-time `SOCKET_ATTACHED`
event.  Success records `CFEF_SENT_SOCK_ATTACHED`; `ENOBUFS` raises the
flow-control bits. -/
def cfil_dispatch_attach_event (s : CfilState) (i : Fin 8) : Int × CfilState :=
  if ¬ (s.cfi_entries i).cfe_filter then
    (0, s)
  else if (s.cfi_entries i).cfe_sent_sock_attached then
    (0, s)
  else if s.cf_flow_controlled i then
    (ENOBUFS, (s.setEntryFlowControlled i true).setCfFlowControlled i true)
  else
    if (popOracle s).1 = 0 then
      (0, (popOracle s).2.setEntry i
        { (popOracle s).2.cfi_entries i with cfe_sent_sock_attached := true })
    else if (popOracle s).1 = ENOBUFS then
      (ENOBUFS, ((popOracle s).2.setEntryFlowControlled i true).setCfFlowControlled i true)
    else
      popOracle s

/-- `cfil_dispatch_disconnect_event`: send the one-time
`DISCONNECT_OUT`/`DISCONNECT_IN` event.  Not sent twice; not sent while
outgoing data is still waiting in the control queue (`EBUSY`); `ENOBUFS`
raises the flow-control bits; success records the sent bit. -/
def cfil_dispatch_disconnect_event (s : CfilState) (i : Fin 8) (outgoing : Bool) :
    Int × CfilState :=
  if ¬ (s.cfi_entries i).cfe_filter then
    (0, s)
  else if (outgoing ∧ (s.cfi_entries i).cfe_sent_disconnect_out) ∨
      (¬ outgoing ∧ (s.cfi_entries i).cfe_sent_disconnect_in) then
    (0, s)
  else if outgoing ∧ ¬ cfil_queue_empty ((s.cfi_entries i).buf true).cfe_ctl_q then
    (EBUSY, s)
  else if s.cf_flow_controlled i then
    (ENOBUFS, (s.setEntryFlowControlled i true).setCfFlowControlled i true)
  else
    if (popOracle s).1 = 0 then
      (0, if outgoing then
            (popOracle s).2.setEntry i
              { (popOracle s).2.cfi_entries i with cfe_sent_disconnect_out := true }
          else
            (popOracle s).2.setEntry i
              { (popOracle s).2.cfi_entries i with cfe_sent_disconnect_in := true })
    else if (popOracle s).1 = ENOBUFS then
      (ENOBUFS, ((popOracle s).2.setEntryFlowControlled i true).setCfFlowControlled i true)
    else
      popOracle s

/-- One iteration step of the "move all data that can pass" loop of
`cfil_data_service_ctl_q` (source lines 4125-4183), on one direction
buffer.  `go` is the loop with explicit fuel; the loop removes one span
per iteration, so fuel `= |ctl_q|` makes `go` the exact `while` loop. -/
def ctlQMoveGo (fuel : Nat) (buf : CfeBuf) : CfeBuf :=
  match fuel with
  | 0 => buf
  | fuel + 1 =>
    match buf.cfe_ctl_q.q_mq.head? with
    | none => buf
    | some data =>
      if buf.cfe_ctl_q.q_start < buf.cfe_pass_offset then
        let datalen := data.len
        let copylen :=
          if buf.cfe_ctl_q.q_start + datalen ≤ buf.cfe_pass_offset then
            -- the first mbuf can fully pass
            datalen
          else
            -- the first mbuf can partially pass
            buf.cfe_pass_offset - buf.cfe_ctl_q.q_start
        -- data that passes has been peeked at explicitly or implicitly
        let buf :=
          if buf.cfe_ctl_q.q_start + copylen > buf.cfe_peeked then
            { buf with cfe_peeked := buf.cfe_ctl_q.q_start + copylen }
          else buf
        -- stop on partial pass
        if copylen < datalen then
          buf
        else
          -- move full data from ctl queue to pending queue
          ctlQMoveGo fuel
            { buf with
              cfe_ctl_q := cfil_queue_remove_head buf.cfe_ctl_q datalen
              cfe_pending_q := cfil_queue_enqueue buf.cfe_pending_q data }
      else buf

/-- The "move all data that can pass" loop of `cfil_data_service_ctl_q`. -/
def ctlQMoveLoop (buf : CfeBuf) : CfeBuf :=
  ctlQMoveGo buf.cfe_ctl_q.q_mq.length buf

/-- The "deal with remaining data the filter wants to peek at" loop of
`cfil_data_service_ctl_q` (source lines 4198-4268): walk the control-queue
spans from `currentoffset`, dispatching a data event for each not-yet-peeked
portion below `cfe_peek_offset`, advancing `cfe_peeked`; on a dispatch
failure the data is left in the control queue.  The loop's `error` is dead
after the loop (the source immediately overwrites it), so only the state is
returned. -/
def ctlQPeekLoop (s : CfilState) (i : Fin 8) (outgoing : Bool)
    (spans : List Span) (currentoffset : Nat) : CfilState :=
  match spans with
  | [] => s
  | data :: rest =>
    let entrybuf := (s.cfi_entries i).buf outgoing
    if currentoffset < entrybuf.cfe_peek_offset then
      let datalen := data.len
      -- we have already peeked at this mbuf
      if currentoffset + datalen ≤ entrybuf.cfe_peeked then
        ctlQPeekLoop s i outgoing rest (currentoffset + datalen)
      else
        -- the data in the first mbuf may have been partially peeked at
        let copyoffset := entrybuf.cfe_peeked - currentoffset
        let copylen0 := datalen - copyoffset
        -- do not copy more than needed
        let copylen :=
          if currentoffset + copyoffset + copylen0 > entrybuf.cfe_peek_offset then
            entrybuf.cfe_peek_offset - (currentoffset + copyoffset)
          else copylen0
        -- stop if there is nothing more to peek at
        if copylen = 0 then
          s
        else
          let (error, s1) := cfil_dispatch_data_event s i
          if error ≠ 0 then
            -- on error, leave data in ctl_q
            s1
          else
            let s2 := s1.modifyEntryBuf i outgoing
              (fun b => { b with cfe_peeked := b.cfe_peeked + copylen })
            -- stop when data could not be fully peeked at
            if copylen + copyoffset < datalen then
              s2
            else
              ctlQPeekLoop s2 i outgoing rest (currentoffset + datalen)
    else s

/-!
## The queue-servicing engine

`cfil_data_service_ctl_q`, `cfil_service_pending_queue` and
`cfil_data_filter` are mutually recursive in the source via the
`SLIST_NEXT(entry, cfe_order_link)` chain walk; every recursive call moves
strictly further down the (finite, immutable) ordered-entry chain.  The
embedding makes that chain suffix an explicit argument `after` (the entries
past the current one), so the recursion is well-founded on `after.length`.
The `while` loop over the pending queue carries explicit fuel, initialised
to the pending-queue length: the loop removes one span per iteration and
the chain walk only touches entries strictly after the current one, so this
fuel makes it the exact source loop.
-/

mutual

/-- `cfil_data_service_ctl_q`: service one entry's control queue for one
direction.  `after` is the chain of entries past entry `i`. -/
def cfil_data_service_ctl_q (cfg : Config) (s : CfilState) (i : Fin 8)
    (after : List (Fin 8)) (outgoing : Bool) : Int × CfilState :=
  let entry := s.cfi_entries i
  -- send attached message if not yet done
  if ¬ entry.cfe_sent_sock_attached then
    let (error, s1) := cfil_dispatch_attach_event s i
    if error ≠ 0 then
      -- we can recover from flow control
      (if error = ENOBUFS ∨ error = ENOMEM then 0 else error, s1)
    else
      serviceCtlQMain cfg s1 i after outgoing
  else if ¬ entry.cfe_data_start then
    (0, s)
  else
    serviceCtlQMain cfg s i after outgoing
termination_by (after.length, 5, 0)

/-- Body of `cfil_data_service_ctl_q` past the attach-event gating: the
move loop, the peek loop, pending-queue servicing, and the deferred
disconnect-event dispatch. -/
def serviceCtlQMain (cfg : Config) (s : CfilState) (i : Fin 8)
    (after : List (Fin 8)) (outgoing : Bool) : Int × CfilState :=
  -- move all data that can pass
  let s := s.modifyEntryBuf i outgoing ctlQMoveLoop
  -- now deal with remaining data the filter wants to peek at
  let entrybuf := (s.cfi_entries i).buf outgoing
  let s := ctlQPeekLoop s i outgoing entrybuf.cfe_ctl_q.q_mq entrybuf.cfe_ctl_q.q_start
  -- process data that has passed the filter
  let (error, s) := cfil_service_pending_queue cfg s i after outgoing
  if error ≠ 0 then
    (error, s)
  else
    -- dispatch disconnect events that could not be sent
    if outgoing then
      if s.cfi_shut_wr ∧ ¬ (s.cfi_entries i).cfe_sent_disconnect_out then
        (0, (cfil_dispatch_disconnect_event s i true).2)
      else (0, s)
    else
      if s.cfi_shut_rd ∧ ¬ (s.cfi_entries i).cfe_sent_disconnect_in then
        (0, (cfil_dispatch_disconnect_event s i false).2)
      else (0, s)
termination_by (after.length, 4, 0)

/-- `cfil_service_pending_queue`: hand fully-passed pending-queue spans to
the rest of the chain (or the inject queue), or, when the pending queue is
empty, walk the subsequent entries once to propagate pass decisions. -/
def cfil_service_pending_queue (cfg : Config) (s : CfilState) (i : Fin 8)
    (after : List (Fin 8)) (outgoing : Bool) : Int × CfilState :=
  let entrybuf := (s.cfi_entries i).buf outgoing
  let passlen := entrybuf.cfe_pass_offset - entrybuf.cfe_pending_q.q_start
  if cfil_queue_empty entrybuf.cfe_pending_q then
    pendingEmptyWalk cfg s after outgoing
  else
    pendingServiceLoop cfg s i after outgoing passlen 0 0
      entrybuf.cfe_pending_q.q_mq.length
termination_by (after.length, 3, 0)

/-- The `SLIST_NEXT` walk `cfil_service_pending_queue` performs when the
pending queue is empty: service every subsequent entry's control queue,
stopping at the first nonzero error. -/
def pendingEmptyWalk (cfg : Config) (s : CfilState) (after : List (Fin 8))
    (outgoing : Bool) : Int × CfilState :=
  match after with
  | [] => (0, s)
  | j :: rest =>
    let (error, s1) := cfil_data_service_ctl_q cfg s j rest outgoing
    -- 0 means passed so we can continue
    if error ≠ 0 then (error, s1)
    else pendingEmptyWalk cfg s1 rest outgoing
termination_by (after.length, 1, 0)

/-- The `while` loop of `cfil_service_pending_queue` (source lines
4625-4670): move the chunks of data that fit within `passlen` (whole spans
only) out of the pending queue, hand each to the chain, and append it to
the flow's inject queue when no subsequent filter claims it.  `err` is the
running `error` variable; `fuel` starts at the pending-queue length. -/
def pendingServiceLoop (cfg : Config) (s : CfilState) (i : Fin 8)
    (after : List (Fin 8)) (outgoing : Bool) (passlen curlen : Nat) (err : Int)
    (fuel : Nat) : Int × CfilState :=
  match fuel with
  | 0 => (err, s)
  | fuel + 1 =>
    match ((s.cfi_entries i).buf outgoing).cfe_pending_q.q_mq.head? with
    | none => (err, s)
    | some data =>
      let datalen := data.len
      if curlen + datalen > passlen then
        (err, s)
      else
        let s := s.modifyEntryBuf i outgoing
          (fun b => { b with cfe_pending_q := cfil_queue_remove_head b.cfe_pending_q datalen })
        let curlen := curlen + datalen
        let (error, s) := dataFilterChain cfg s after outgoing data
        -- when data has passed all filters, re-inject
        let s :=
          if error = 0 then
            s.modifyDirBuf outgoing
              (fun cb => { cb with cfi_inject_q := cfil_queue_enqueue cb.cfi_inject_q data })
          else s
        pendingServiceLoop cfg s i after outgoing passlen curlen error fuel
termination_by (after.length, 2, fuel)

/-- The `for` walk over the subsequent entries inside the pending-queue
loop: hand `data` to each entry of `after` in turn until one claims it
(nonzero error). -/
def dataFilterChain (cfg : Config) (s : CfilState) (after : List (Fin 8))
    (outgoing : Bool) (data : Span) : Int × CfilState :=
  match after with
  | [] => (0, s)
  | j :: rest =>
    let (error, s1) := cfil_data_filter cfg s j rest outgoing data
    -- 0 means passed so we can continue
    if error ≠ 0 then (error, s1)
    else dataFilterChain cfg s1 rest outgoing data
termination_by (after.length, 1, 0)

/-- `cfil_data_filter`: enqueue `data` on entry `i`'s control queue and
service it; always reports `EJUSTRETURN` when attached (the data is now
owned by this entry's queues), `0` when the entry is not attached. -/
def cfil_data_filter (cfg : Config) (s : CfilState) (i : Fin 8)
    (after : List (Fin 8)) (outgoing : Bool) (data : Span) : Int × CfilState :=
  let entry := s.cfi_entries i
  -- are we attached to the filter?
  if ¬ entry.cfe_filter then
    (0, s)
  else
    -- dispatch to filters
    let s := s.modifyEntryBuf i outgoing
      (fun b => { b with cfe_ctl_q := cfil_queue_enqueue b.cfe_ctl_q data })
    let s := (cfil_data_service_ctl_q cfg s i after outgoing).2
    -- we have to return EJUSTRETURN in all cases to avoid double free
    (EJUSTRETURN, s)
termination_by (after.length, 6, 0)

end

/-!
## Submission, verdicts and flow teardown
-/

/-- The per-entry bookkeeping `cfil_update_entry_offsets` performs on one
direction buffer of one attached entry (source lines 5115-5127). -/
def updateEntryBufOffsets (datalen : Nat) (b : CfeBuf) : CfeBuf :=
  let ctl_q_start := b.cfe_ctl_q.q_start + datalen
  let pass :=
    if b.cfe_pass_offset < ctl_q_start then ctl_q_start else b.cfe_pass_offset
  let peek := if b.cfe_peek_offset < pass then pass else b.cfe_peek_offset
  { b with
    cfe_ctl_q := { b.cfe_ctl_q with
      q_start := ctl_q_start
      q_end := b.cfe_ctl_q.q_end + datalen }
    cfe_pass_offset := pass
    cfe_peeked := ctl_q_start
    cfe_peek_offset := peek
    cfe_pending_q := { b.cfe_pending_q with
      q_start := b.cfe_pending_q.q_start + datalen
      q_end := b.cfe_pending_q.q_end + datalen } }

/-- `cfil_update_entry_offsets`: the fast-path bookkeeping, applied to
every attached entry (the source's loop over the units touches each entry
independently, so it is a pointwise update). -/
def cfil_update_entry_offsets (s : CfilState) (outgoing : Bool) (datalen : Nat) :
    CfilState :=
  { s with cfi_entries := fun i =>
      -- are we attached to the filter?
      if (s.cfi_entries i).cfe_filter then
        ((s.cfi_entries i).setBuf outgoing
          (updateEntryBufOffsets datalen ((s.cfi_entries i).buf outgoing)))
      else s.cfi_entries i }

/-- The `SLIST_FOREACH` walk of `cfil_data_common`'s slow path: hand the
submitted span to each attached entry of the chain until one claims it.
`chained` records whether the datagram address/control chain has already
been built (`chain != NULL`); building it consumes one oracle outcome
(`sbconcat_mbufs` allocation) and a failure aborts with `ENOBUFS`. -/
def submitChainLoop (cfg : Config) (s : CfilState) (after : List (Fin 8))
    (outgoing : Bool) (data : Span) (chained : Bool) : Int × CfilState :=
  match after with
  | [] => (0, s)
  | j :: rest =>
    -- is cfil attached to this filter?
    if (s.cfi_entries j).cfe_filter then
      if cfg.needDgramTracking ∧ ¬ chained then
        let (e, s1) := popOracle s
        if e ≠ 0 then
          (ENOBUFS, s1)
        else
          let (error, s2) := cfil_data_filter cfg s1 j rest outgoing data
          if error ≠ 0 then (error, s2)
          else submitChainLoop cfg s2 rest outgoing data true
      else
        let (error, s2) := cfil_data_filter cfg s j rest outgoing data
        if error ≠ 0 then (error, s2)
        else submitChainLoop cfg s2 rest outgoing data chained
    else
      -- 0 means passed so continue with next filter
      submitChainLoop cfg s rest outgoing data chained

/-- `cfil_data_common`: the submit path shared by `cfil_sock_data_out` and
`cfil_sock_data_in` (source lines 5133-5251). -/
def cfil_data_common (cfg : Config) (s : CfilState) (outgoing : Bool) (data : Span) :
    Int × CfilState :=
  if s.cfi_drop then
    (EPIPE, s)
  else
    let datalen := data.len
    if datalen = 0 then
      (0, s)
    else
      let s :=
        if outgoing then
          { s with cfi_byte_outbound_count := s.cfi_byte_outbound_count + datalen }
        else
          { s with cfi_byte_inbound_count := s.cfi_byte_inbound_count + datalen }
      let s := s.modifyDirBuf outgoing (fun cb =>
        { cb with
          cfi_pending_last := cb.cfi_pending_last + datalen
          cfi_pending_mbcnt := cb.cfi_pending_mbcnt + data.mbcnt
          cfi_pending_mbnum := cb.cfi_pending_mbnum + data.mbnum })
      if cfg.needDgramTracking ∧
          ((s.dirBuf outgoing).cfi_pending_mbnum > cfg.gc_mbuf_num_max ∨
           (s.dirBuf outgoing).cfi_pending_mbcnt > cfg.gc_mbuf_cnt_max) then
        (EPIPE, s.modifyDirBuf outgoing (fun cb =>
          { cb with
            cfi_tail_drop_cnt := cb.cfi_tail_drop_cnt + 1
            cfi_pending_mbcnt := cb.cfi_pending_mbcnt - data.mbcnt
            cfi_pending_mbnum := cb.cfi_pending_mbnum - data.mbnum }))
      else
        -- fast path when below pass offset
        if (s.dirBuf outgoing).cfi_pending_last ≤ (s.dirBuf outgoing).cfi_pass_offset then
          let s := cfil_update_entry_offsets s outgoing datalen
          -- (incoming datagram IP-header stripping affects only mbuf layout)
          (0, s.modifyDirBuf outgoing (fun cb =>
            { cb with
              cfi_pending_first := cb.cfi_pending_first + datalen
              cfi_pending_mbcnt := cb.cfi_pending_mbcnt - data.mbcnt
              cfi_pending_mbnum := cb.cfi_pending_mbnum - data.mbnum }))
        else
          let (error, s) := submitChainLoop cfg s cfg.ordered outgoing data false
          -- move cursor if no filter claimed the data
          if error = 0 then
            (0, s.modifyDirBuf outgoing (fun cb =>
              { cb with
                cfi_pending_first := cb.cfi_pending_first + datalen
                cfi_pending_mbcnt := cb.cfi_pending_mbcnt - data.mbcnt
                cfi_pending_mbnum := cb.cfi_pending_mbnum - data.mbnum }))
          else
            (error, s)

/-- `cfil_filters_attached` (TCP variant): is some entry still attached,
introduced to the filter, and not yet detached? -/
def cfil_filters_attached (s : CfilState) : Bool :=
  (List.finRange 8).any (fun i =>
    let entry := s.cfi_entries i
    entry.cfe_filter ∧ entry.cfe_sent_sock_attached ∧ ¬ entry.cfe_detached)

/-- The offset-recording step of `cfil_update_data_offsets` (source lines
4710-4727), on one direction buffer: returns the new buffer and the
`updated` flag. -/
def applyVerdictOffsets (entrybuf : CfeBuf) (pass_offset peek_offset : Nat) :
    CfeBuf × Bool :=
  -- record updated offsets for this content filter
  let (entrybuf, updated) :=
    if pass_offset > entrybuf.cfe_pass_offset then
      let entrybuf := { entrybuf with cfe_pass_offset := pass_offset }
      let entrybuf :=
        if entrybuf.cfe_peek_offset < entrybuf.cfe_pass_offset then
          { entrybuf with cfe_peek_offset := entrybuf.cfe_pass_offset }
        else entrybuf
      (entrybuf, true)
    else (entrybuf, false)
  -- filter does not want or need to see data that is allowed to pass
  if peek_offset > entrybuf.cfe_pass_offset ∧
      peek_offset > entrybuf.cfe_peek_offset then
    ({ entrybuf with cfe_peek_offset := peek_offset }, true)
  else (entrybuf, updated)

/-- The recurring close-wait wakeup idiom: when the flow is in close-wait
and `cfil_filters_attached` reports no remaining filter, `wakeup(cfil_info)`
is called (counted in `wakeup_count`). -/
def wakeupIfNoneAttached (s : CfilState) : CfilState :=
  if s.cfi_close_wait ∧ ¬ cfil_filters_attached s then
    { s with wakeup_count := s.wakeup_count + 1 }
  else s

/-- The `done` block of `cfil_update_data_offsets` (source lines
4743-4777): mark the entry effectively detached when both sides passed
everything, or when the socket is in close-wait and the entry's control
queues are empty; wake close-wait waiters once no filter remains
attached. -/
def updateDataOffsetsDone (s : CfilState) (i : Fin 8) (error : Int) :
    Int × CfilState :=
  if ((s.cfi_entries i).cfe_snd.cfe_pass_offset = CFM_MAX_OFFSET ∧
      (s.cfi_entries i).cfe_rcv.cfe_pass_offset = CFM_MAX_OFFSET) ∨
      (s.cfi_close_wait ∧
       cfil_queue_empty (s.cfi_entries i).cfe_snd.cfe_ctl_q ∧
       cfil_queue_empty (s.cfi_entries i).cfe_rcv.cfe_ctl_q) then
    (error,
      wakeupIfNoneAttached (s.setEntry i { s.cfi_entries i with cfe_detached := true }))
  else (error, s)

/-- `cfil_update_data_offsets`: apply one `DATA_UPDATE` verdict to entry
`i` (source lines 4678-4778), including the effective-detach check of its
`done` block. -/
def cfil_update_data_offsets (cfg : Config) (s : CfilState) (i : Fin 8)
    (outgoing : Bool) (pass_offset peek_offset : Nat) : Int × CfilState :=
  if s.cfi_drop then
    (EPIPE, s)
  else
    let (entrybuf, updated) :=
      applyVerdictOffsets ((s.cfi_entries i).buf outgoing) pass_offset peek_offset
    let s := s.modifyEntryBuf i outgoing (fun _ => entrybuf)
    let (error, s) :=
      if ¬ updated then
        -- nothing to do
        (0, s)
      else
        -- move data held in control queue to pending queue if needed
        let (error, s) := cfil_data_service_ctl_q cfg s i (chainAfter cfg.ordered i) outgoing
        if error ≠ 0 then (error, s) else (EJUSTRETURN, s)
    -- the filter is effectively detached when pass all from both sides or
    -- when the socket is closed and no more data is waiting
    updateDataOffsetsDone s i error

/-- `cfil_set_socket_pass_offset`: when no data is pending for the
direction, cache the smallest `cfe_pass_offset` among attached entries in
`cfi_pass_offset`. -/
def cfil_set_socket_pass_offset (s : CfilState) (outgoing : Bool) : CfilState :=
  let cfi_buf := s.dirBuf outgoing
  if cfi_buf.cfi_pending_last - cfi_buf.cfi_pending_first = 0 then
    let acc := (List.finRange 8).foldl
      (fun (acc : Nat × Bool) i =>
        -- are we attached to a filter?
        if ¬ (s.cfi_entries i).cfe_filter then acc
        else
          let entrybuf := (s.cfi_entries i).buf outgoing
          -- keep track of the smallest pass_offset among filters
          if acc.2 ∨ entrybuf.cfe_pass_offset < acc.1 then
            (entrybuf.cfe_pass_offset, false)
          else acc)
      (0, true)
    s.modifyDirBuf outgoing (fun cb => { cb with cfi_pass_offset := acc.1 })
  else s

/-- The re-injection `while` loop of `cfil_service_inject_queue`: remove
each span, advance the released window, and hand it back to the socket
layer (`sosend_reinject` outcome from the oracle for the outgoing side;
the incoming `sbappend` path always consumes the data). -/
def injectLoop (s : CfilState) (outgoing : Bool) (fuel : Nat) : Int × CfilState :=
  match fuel with
  | 0 => (0, s)
  | fuel + 1 =>
    match (s.dirBuf outgoing).cfi_inject_q.q_mq.head? with
    | none => (0, s)
    | some data =>
      -- remove data from queue and adjust stats
      let s := s.modifyDirBuf outgoing (fun cb =>
        { cb with
          cfi_inject_q := cfil_queue_remove_head cb.cfi_inject_q data.len
          cfi_pending_first := cb.cfi_pending_first + data.len
          cfi_pending_mbcnt := cb.cfi_pending_mbcnt - data.mbcnt
          cfi_pending_mbnum := cb.cfi_pending_mbnum - data.mbnum })
      if outgoing then
        let (error, s) := popOracle s
        if error ≠ 0 then (error, s) else injectLoop s outgoing fuel
      else
        injectLoop s outgoing fuel

/-- `cfil_service_inject_queue`: re-inject data that passed the content
filters (source lines 4412-4578). -/
def cfil_service_inject_queue (s : CfilState) (outgoing : Bool) : Int × CfilState :=
  if s.so_defunct then
    (0, s)
  else
    let s :=
      if outgoing then { s with cfi_retry_inject_out := false }
      else { s with cfi_retry_inject_in := false }
    if cfil_queue_empty (s.dirBuf outgoing).cfi_inject_q then
      (0, s)
    else
      let (error, s) := injectLoop s outgoing (s.dirBuf outgoing).cfi_inject_q.q_mq.length
      let s :=
        if error ≠ 0 then
          if outgoing then { s with cfi_retry_inject_out := true }
          else { s with cfi_retry_inject_in := true }
        else s
      -- (shutdown notification touches only the socket layer)
      (error, wakeupIfNoneAttached s)

/-- `cfil_action_data_pass`: the verdict entry point — apply the offsets,
service the inject queue, refresh the cached socket pass offset.  (The
`cfil_acquire_sockbuf` lock acquisition is modelled as always
succeeding.) -/
def cfil_action_data_pass (cfg : Config) (s : CfilState) (i : Fin 8)
    (outgoing : Bool) (pass_offset peek_offset : Nat) : Int × CfilState :=
  let (error, s) := cfil_update_data_offsets cfg s i outgoing pass_offset peek_offset
  let s := (cfil_service_inject_queue s outgoing).2
  let s := cfil_set_socket_pass_offset s outgoing
  (error, s)

/-- One direction buffer after `cfil_flush_queues` drained its control and
pending queues. -/
def flushEntryBuf (b : CfeBuf) : CfeBuf :=
  { b with
    cfe_ctl_q := (cfil_queue_drain b.cfe_ctl_q).2
    cfe_pending_q := (cfil_queue_drain b.cfe_pending_q).2 }

/-- `cfil_flush_queues`: drain every control and pending queue of every
entry and the inject queue, for both directions (each queue is drained
independently, so the source's two per-direction loops are a pointwise
update).  The summed `drained` byte counts only feed statistics counters
in the source. -/
def cfil_flush_queues (s : CfilState) : CfilState :=
  { s with
    cfi_entries := fun i =>
      { s.cfi_entries i with
        cfe_snd := flushEntryBuf (s.cfi_entries i).cfe_snd
        cfe_rcv := flushEntryBuf (s.cfi_entries i).cfe_rcv }
    cfi_snd := { s.cfi_snd with cfi_inject_q := (cfil_queue_drain s.cfi_snd.cfi_inject_q).2 }
    cfi_rcv := { s.cfi_rcv with cfi_inject_q := (cfil_queue_drain s.cfi_rcv.cfi_inject_q).2 } }

/-- `cfil_action_drop`: apply a `DROP` verdict from filter `i` (source
lines 4952-5014).  The `sosetdefunct`/`sodefunct` socket-layer pair is
modelled as one external outcome; on success the socket becomes defunct. -/
def cfil_action_drop (cfg : Config) (s : CfilState) (i : Fin 8) : Int × CfilState :=
  -- are we attached to the filter?
  if ¬ (s.cfi_entries i).cfe_filter then
    (0, s)
  else
    let s := { s with cfi_drop := true }
    -- force the socket to be marked defunct (TCP sockets only)
    let (error, s) :=
      if ¬ cfg.needDgramTracking then
        let (e, s) := popOracle s
        (e, if e = 0 then { s with so_defunct := true } else s)
      else (0, s)
    -- the filter is done, mark as detached
    let s := s.setEntry i { s.cfi_entries i with cfe_detached := true }
    -- pending data needs to go
    let s := cfil_flush_queues s
    (error, wakeupIfNoneAttached s)

/-- `cfil_info_buffer_threshold_exceeded`: a flow whose tail-drop counter
is nonzero in either direction has exceeded its queue thresholds. -/
def cfil_info_buffer_threshold_exceeded (s : CfilState) : Bool :=
  s.cfi_snd.cfi_tail_drop_cnt ≠ 0 ∨ s.cfi_rcv.cfi_tail_drop_cnt ≠ 0

/-- `cfil_dgram_gc_needed`: the reaper tears a datagram flow down when the
action timeout has expired (an external clock fact, passed in) or the
buffer thresholds were exceeded. -/
def cfil_dgram_gc_needed (actionTimedOut : Bool) (s : CfilState) : Bool :=
  actionTimedOut || cfil_info_buffer_threshold_exceeded s

/-- The entry list `cfc->cf_sock_entries` of filter `i`, restricted to the
single modelled flow: the flow's entry for unit `i` when attached. -/
def cfSockEntries (s : CfilState) (i : Fin 8) : List (Fin 8) :=
  if (s.cfi_entries i).cfe_filter then [i] else []

/-- The `TAILQ_FOREACH` search loop of `cfil_ctl_rcvd` (source lines
4438-4446), embedded statement for statement.  Each arm of the body is a
`continue`; the body contains **no** `break`, so falling off the end of the
body also just advances the iteration, and the loop always runs to
completion, leaving the iteration variable `NULL` (`none`).  (The
`cfe_cfil_info == NULL || cfi_so == NULL` guard is vacuously false for the
modelled live flow.) -/
def ctlRcvdFindLoop (s : CfilState) (l : List (Fin 8)) : Option (Fin 8) :=
  match l with
  | [] => none
  | e :: rest =>
    if ¬ (s.cfi_entries e).cfe_flow_controlled then
      -- continue
      ctlRcvdFindLoop s rest
    else
      -- end of the loop body: no break in the source, so the TAILQ_FOREACH
      -- advances to the next element
      ctlRcvdFindLoop s rest

/-- `cfil_ctl_rcvd`: the transport's resume notification for filter `i`.
Clears the registry flow-control flag, then enters the flow-control-lift
`while` loop; its search for a flow-controlled entry is `ctlRcvdFindLoop`.
When the search yields `none` the loop breaks immediately.  (The search
never succeeds — see `ctlRcvdFindLoop_eq_none` — so the service body below
it is unreachable and later `while` iterations need not be modelled.) -/
def cfil_ctl_rcvd (cfg : Config) (s : CfilState) (i : Fin 8) : CfilState :=
  -- assume the flow control is lifted
  let s :=
    if s.cf_flow_controlled i then s.setCfFlowControlled i false else s
  match ctlRcvdFindLoop s (cfSockEntries s i) with
  | none => s
  | some _e =>
    -- (unreachable) service the found entry's queues in both directions
    let (e1, s) := cfil_data_service_ctl_q cfg s i (chainAfter cfg.ordered i) true
    if e1 ≠ 0 then s
    else (cfil_data_service_ctl_q cfg s i (chainAfter cfg.ordered i) false).2

/-!
## The flow as a transition system

The calls the socket layer and the verdict thread can make on one flow.
A `dataPass`/`drop` verdict arrives through `cfil_ctl_send`, whose prelude
rejects messages for dropped or never-introduced flows and records
`CFEF_DATA_START` (the filter has spoken, data events may flow) before
dispatching the action.
-/

/-- One externally-triggered operation on the flow. -/
inductive CfilStep where
  | submit (outgoing : Bool) (data : Span)
  | dataPass (i : Fin 8) (outgoing : Bool) (pass_offset peek_offset : Nat)
  | serviceCtl (i : Fin 8) (outgoing : Bool)
  | drop (i : Fin 8)
  | ctlRcvd (i : Fin 8)
deriving DecidableEq, Repr

/-- The `cfil_ctl_send` prelude shared by verdict messages: reject (leave
the flow untouched) when the flow is drop-latched, the entry is not
attached, or the attached event was never delivered; otherwise set
`CFEF_DATA_START`. -/
def verdictPrelude (s : CfilState) (i : Fin 8) : Option CfilState :=
  if s.cfi_drop then none
  else if ¬ (s.cfi_entries i).cfe_filter then none
  else if ¬ (s.cfi_entries i).cfe_sent_sock_attached then none
  else some (s.setEntry i { s.cfi_entries i with cfe_data_start := true })

/-- Apply one step to the flow state (discarding the errno, which each
claim's theorem recovers from the underlying operation). -/
def applyStep (cfg : Config) (s : CfilState) : CfilStep → CfilState
  | .submit outgoing data => (cfil_data_common cfg s outgoing data).2
  | .dataPass i outgoing pass_offset peek_offset =>
    match verdictPrelude s i with
    | none => s
    | some s => (cfil_action_data_pass cfg s i outgoing pass_offset peek_offset).2
  | .serviceCtl i outgoing =>
    if (s.cfi_entries i).cfe_filter then
      (cfil_data_service_ctl_q cfg s i (chainAfter cfg.ordered i) outgoing).2
    else s
  | .drop i =>
    match verdictPrelude s i with
    | none => s
    | some s => (cfil_action_drop cfg s i).2
  | .ctlRcvd i => cfil_ctl_rcvd cfg s i

/-- Run a sequence of steps. -/
def runSteps (cfg : Config) (s : CfilState) (steps : List CfilStep) : CfilState :=
  steps.foldl (applyStep cfg) s

/-- A freshly initialised entry (`cfil_info_alloc`): everything zero, with
the attachment bit as configured. -/
def initEntry (attached : Bool) : CfilEntry :=
  { cfe_filter := attached
    cfe_sent_sock_attached := false
    cfe_data_start := false
    cfe_flow_controlled := false
    cfe_sent_disconnect_out := false
    cfe_sent_disconnect_in := false
    cfe_detached := false
    cfe_snd := CfeBuf.init
    cfe_rcv := CfeBuf.init }

/-- The freshly attached flow: zeroed counters and queues, the entries of
`cfg.ordered` attached, nothing flow-controlled, and a given oracle of
external outcomes. -/
def initState (cfg : Config) (oracle : List Int) : CfilState :=
  { cfi_drop := false
    cfi_close_wait := false
    cfi_shut_wr := false
    cfi_shut_rd := false
    cfi_retry_inject_out := false
    cfi_retry_inject_in := false
    cfi_byte_inbound_count := 0
    cfi_byte_outbound_count := 0
    cfi_snd := CfiBuf.init
    cfi_rcv := CfiBuf.init
    cfi_entries := fun i => initEntry (decide (i ∈ cfg.ordered))
    cf_flow_controlled := fun _ => false
    so_defunct := false
    oracle := oracle
    wakeup_count := 0 }

/-- The pass/peek offset pair of one entry direction. -/
def entryPP (s : CfilState) (j : Fin 8) (d : Bool) : Nat × Nat :=
  (((s.cfi_entries j).buf d).cfe_pass_offset, ((s.cfi_entries j).buf d).cfe_peek_offset)

/-- Total bytes buffered in the direction's queues: every entry's control
and pending queue plus the flow's inject queue (by span contents). -/
def bufBytes (s : CfilState) (d : Bool) : Nat :=
  (∑ j : Fin 8, (qBytes ((s.cfi_entries j).buf d).cfe_ctl_q +
                 qBytes ((s.cfi_entries j).buf d).cfe_pending_q)) +
    qBytes (s.dirBuf d).cfi_inject_q

/-- Well-formedness of every queue of the flow. -/
def QWFAll (s : CfilState) : Prop :=
  (∀ j d, QWF ((s.cfi_entries j).buf d).cfe_ctl_q ∧
          QWF ((s.cfi_entries j).buf d).cfe_pending_q) ∧
  (∀ d, QWF (s.dirBuf d).cfi_inject_q)

/-- All `cfi_buf` fields other than the inject queue agree. -/
def sameButInject (c c' : CfiBuf) : Prop :=
  c'.cfi_pending_first = c.cfi_pending_first ∧
  c'.cfi_pending_last = c.cfi_pending_last ∧
  c'.cfi_pending_mbcnt = c.cfi_pending_mbcnt ∧
  c'.cfi_pending_mbnum = c.cfi_pending_mbnum ∧
  c'.cfi_tail_drop_cnt = c.cfi_tail_drop_cnt ∧
  c'.cfi_pass_offset = c.cfi_pass_offset

/-- The flow-level flags, socket state, byte counters and wakeup count
agree. -/
def flagsFrame (s t : CfilState) : Prop :=
  t.cfi_drop = s.cfi_drop ∧
  t.cfi_close_wait = s.cfi_close_wait ∧
  t.cfi_shut_wr = s.cfi_shut_wr ∧
  t.cfi_shut_rd = s.cfi_shut_rd ∧
  t.cfi_retry_inject_out = s.cfi_retry_inject_out ∧
  t.cfi_retry_inject_in = s.cfi_retry_inject_in ∧
  t.so_defunct = s.so_defunct ∧
  t.wakeup_count = s.wakeup_count ∧
  t.cfi_byte_inbound_count = s.cfi_byte_inbound_count ∧
  t.cfi_byte_outbound_count = s.cfi_byte_outbound_count

/-- What a cascade call leaves untouched. -/
def CascadeFrame (d : Bool) (s t : CfilState) : Prop :=
  (∀ j d', entryPP t j d' = entryPP s j d') ∧
  (∀ j, (t.cfi_entries j).buf (!d) = (s.cfi_entries j).buf (!d)) ∧
  t.dirBuf (!d) = s.dirBuf (!d) ∧
  sameButInject (s.dirBuf d) (t.dirBuf d) ∧
  flagsFrame s t

/-- Full postcondition of a cascade call that placed `placed` in-flight
bytes into the direction-`d` queues. -/
def CascadeOut (d : Bool) (placed : Nat) (s t : CfilState) : Prop :=
  CascadeFrame d s t ∧
  bufBytes t d = bufBytes s d + placed ∧
  (QWFAll s → QWFAll t)


/-- Componentwise order on one entry direction's offsets, with the
peek-dominates-pass invariant carried along. -/
def ppLe (s t : CfilState) (j : Fin 8) (d : Bool) : Prop :=
  (entryPP s j d).1 ≤ (entryPP t j d).1 ∧
  (entryPP s j d).2 ≤ (entryPP t j d).2 ∧
  ((entryPP s j d).1 ≤ (entryPP s j d).2 →
    (entryPP t j d).1 ≤ (entryPP t j d).2)

/-- A sequence of `DATA_UPDATE` verdicts `(unit, direction, pass, peek)`
applied through `cfil_update_data_offsets`. -/
def applyVerdicts (cfg : Config) (s : CfilState)
    (vs : List (Fin 8 × Bool × Nat × Nat)) : CfilState :=
  vs.foldl (fun s v => (cfil_update_data_offsets cfg s v.1 v.2.1 v.2.2.1 v.2.2.2).2) s

/-- The bytes a step submits in direction `d`. -/
def stepLen (d : Bool) : CfilStep → Nat
  | .submit d2 data => if d2 = d then data.len else 0
  | _ => 0

/-- Is the step a drop verdict? -/
def isDropStep : CfilStep → Bool
  | .drop _ => true
  | _ => false

/-- Total bytes submitted in direction `d` by a step sequence. -/
def submittedBytes (d : Bool) (steps : List CfilStep) : Nat :=
  (steps.map (stepLen d)).sum

/-- Direction-`d` byte conservation between two states: the drop flag is
unchanged and the buffered-plus-released window grew by exactly `add`
bytes on both ends. -/
def Conserve (d : Bool) (add : Nat) (s t : CfilState) : Prop :=
  t.cfi_drop = s.cfi_drop ∧
  bufBytes t d + (t.dirBuf d).cfi_pending_first =
    bufBytes s d + (s.dirBuf d).cfi_pending_first + add ∧
  (t.dirBuf d).cfi_pending_last = (s.dirBuf d).cfi_pending_last + add

/-- The chaining invariant of one direction of a flow (for a configured
entry order): exactly the configured entries are attached; every queue is
well-formed; each entry's pending and control queues are contiguous
(`pending.q_end = ctl.q_start`); each entry's control queue never extends
past its predecessor's pending-queue read cursor; the inject queue never
extends past the last entry's pending-queue read cursor; and every entry's
pending-queue read cursor is covered by its pass offset. -/
def chainInv (cfg : Config) (d : Bool) (s : CfilState) : Prop :=
  (∀ j : Fin 8, (s.cfi_entries j).cfe_filter = decide (j ∈ cfg.ordered)) ∧
  QWFAll s ∧
  (∀ j ∈ cfg.ordered,
    ((s.cfi_entries j).buf d).cfe_pending_q.q_end =
      ((s.cfi_entries j).buf d).cfe_ctl_q.q_start) ∧
  cfg.ordered.Chain' (fun e e2 =>
    ((s.cfi_entries e2).buf d).cfe_ctl_q.q_end ≤
      ((s.cfi_entries e).buf d).cfe_pending_q.q_start) ∧
  (∀ e, cfg.ordered.getLast? = some e →
    (s.dirBuf d).cfi_inject_q.q_end ≤
      ((s.cfi_entries e).buf d).cfe_pending_q.q_start) ∧
  (∀ j ∈ cfg.ordered,
    ((s.cfi_entries j).buf d).cfe_pending_q.q_start ≤
      ((s.cfi_entries j).buf d).cfe_pass_offset)

/-- A state change invisible to the chaining invariant: every entry's
attachment bit, control queue, pending queue and pass offset are
unchanged (both directions), and so is each direction's inject queue. -/
def QFrame (s t : CfilState) : Prop :=
  (∀ j : Fin 8, (t.cfi_entries j).cfe_filter = (s.cfi_entries j).cfe_filter) ∧
  (∀ (j : Fin 8) (d2 : Bool),
    ((t.cfi_entries j).buf d2).cfe_ctl_q = ((s.cfi_entries j).buf d2).cfe_ctl_q ∧
    ((t.cfi_entries j).buf d2).cfe_pending_q =
      ((s.cfi_entries j).buf d2).cfe_pending_q ∧
    ((t.cfi_entries j).buf d2).cfe_pass_offset =
      ((s.cfi_entries j).buf d2).cfe_pass_offset) ∧
  (∀ d2 : Bool, (t.dirBuf d2).cfi_inject_q = (s.dirBuf d2).cfi_inject_q)

/-!
## Basic lemmas about the state accessors
-/

@[simp]
theorem buf_setBuf_same (e : CfilEntry) (d : Bool) (b : CfeBuf) :
    (e.setBuf d b).buf d = b := by
  cases d <;> simp [CfilEntry.buf, CfilEntry.setBuf]

@[simp]
theorem buf_setBuf_other (e : CfilEntry) (d d' : Bool) (b : CfeBuf) (h : d ≠ d') :
    (e.setBuf d b).buf d' = e.buf d' := by
  cases d <;> cases d' <;> simp_all [CfilEntry.buf, CfilEntry.setBuf]

@[simp]
theorem setBuf_self (e : CfilEntry) (d : Bool) : e.setBuf d (e.buf d) = e := by
  cases d <;> simp [CfilEntry.buf, CfilEntry.setBuf]

@[simp]
theorem setBuf_filter (e : CfilEntry) (d : Bool) (b : CfeBuf) :
    (e.setBuf d b).cfe_filter = e.cfe_filter := by
  cases d <;> simp [CfilEntry.setBuf]

@[simp]
theorem setBuf_sent_sock_attached (e : CfilEntry) (d : Bool) (b : CfeBuf) :
    (e.setBuf d b).cfe_sent_sock_attached = e.cfe_sent_sock_attached := by
  cases d <;> simp [CfilEntry.setBuf]

@[simp]
theorem setBuf_data_start (e : CfilEntry) (d : Bool) (b : CfeBuf) :
    (e.setBuf d b).cfe_data_start = e.cfe_data_start := by
  cases d <;> simp [CfilEntry.setBuf]

@[simp]
theorem setBuf_detached (e : CfilEntry) (d : Bool) (b : CfeBuf) :
    (e.setBuf d b).cfe_detached = e.cfe_detached := by
  cases d <;> simp [CfilEntry.setBuf]

@[simp]
theorem entries_setEntry_same (s : CfilState) (i : Fin 8) (e : CfilEntry) :
    (s.setEntry i e).cfi_entries i = e := by
  simp [CfilState.setEntry]

@[simp]
theorem entries_setEntry_other (s : CfilState) (i j : Fin 8) (e : CfilEntry)
    (h : j ≠ i) : (s.setEntry i e).cfi_entries j = s.cfi_entries j := by
  simp [CfilState.setEntry, Function.update_noteq h]

@[simp]
theorem entries_modifyEntryBuf_same (s : CfilState) (i : Fin 8) (d : Bool)
    (f : CfeBuf → CfeBuf) :
    (s.modifyEntryBuf i d f).cfi_entries i =
      (s.cfi_entries i).setBuf d (f ((s.cfi_entries i).buf d)) := by
  simp [CfilState.modifyEntryBuf]

@[simp]
theorem entries_modifyEntryBuf_other (s : CfilState) (i j : Fin 8) (d : Bool)
    (f : CfeBuf → CfeBuf) (h : j ≠ i) :
    (s.modifyEntryBuf i d f).cfi_entries j = s.cfi_entries j := by
  simp [CfilState.modifyEntryBuf, Function.update_noteq h, CfilState.setEntry]

@[simp]
theorem dirBuf_modifyDirBuf_same (s : CfilState) (d : Bool) (f : CfiBuf → CfiBuf) :
    (s.modifyDirBuf d f).dirBuf d = f (s.dirBuf d) := by
  cases d <;> simp [CfilState.dirBuf, CfilState.modifyDirBuf]

@[simp]
theorem dirBuf_modifyDirBuf_other (s : CfilState) (d d' : Bool) (f : CfiBuf → CfiBuf)
    (h : d ≠ d') : (s.modifyDirBuf d f).dirBuf d' = s.dirBuf d' := by
  cases d <;> cases d' <;> simp_all [CfilState.dirBuf, CfilState.modifyDirBuf]

@[simp]
theorem entries_modifyDirBuf (s : CfilState) (d : Bool) (f : CfiBuf → CfiBuf) :
    (s.modifyDirBuf d f).cfi_entries = s.cfi_entries := by
  cases d <;> simp [CfilState.modifyDirBuf]

@[simp]
theorem dirBuf_setEntry (s : CfilState) (i : Fin 8) (e : CfilEntry) (d : Bool) :
    (s.setEntry i e).dirBuf d = s.dirBuf d := by
  cases d <;> simp [CfilState.setEntry, CfilState.dirBuf]

@[simp]
theorem dirBuf_modifyEntryBuf (s : CfilState) (i : Fin 8) (d d' : Bool)
    (f : CfeBuf → CfeBuf) : (s.modifyEntryBuf i d f).dirBuf d' = s.dirBuf d' := by
  simp [CfilState.modifyEntryBuf]

@[simp]
theorem oracle_setEntry (s : CfilState) (i : Fin 8) (e : CfilEntry) :
    (s.setEntry i e).oracle = s.oracle := by
  simp [CfilState.setEntry]

@[simp]
theorem oracle_modifyEntryBuf (s : CfilState) (i : Fin 8) (d : Bool)
    (f : CfeBuf → CfeBuf) : (s.modifyEntryBuf i d f).oracle = s.oracle := by
  simp [CfilState.modifyEntryBuf]

@[simp]
theorem oracle_modifyDirBuf (s : CfilState) (d : Bool) (f : CfiBuf → CfiBuf) :
    (s.modifyDirBuf d f).oracle = s.oracle := by
  cases d <;> simp [CfilState.modifyDirBuf]

@[simp]
theorem oracle_setEntryFlowControlled (s : CfilState) (i : Fin 8) (b : Bool) :
    (s.setEntryFlowControlled i b).oracle = s.oracle := by
  simp [CfilState.setEntryFlowControlled]

@[simp]
theorem oracle_setCfFlowControlled (s : CfilState) (i : Fin 8) (b : Bool) :
    (s.setCfFlowControlled i b).oracle = s.oracle := by
  simp [CfilState.setCfFlowControlled]

@[simp]
theorem setEntry_self (s : CfilState) (i : Fin 8) :
    s.setEntry i (s.cfi_entries i) = s := by
  simp [CfilState.setEntry]

/-!
## C7: what `cfil_queue_drain` returns
-/

/-- **C7** (code bug).  The claim: drain leaves the queue empty with both
cursors reset and returns the byte count that was buffered
(`q_end - q_start`).  The code does empty the queue and reset both
cursors, but its `drained = cfq->q_start - cfq->q_end` is the `uint64_t`
subtraction the wrong way around: on a queue buffering 100 bytes at
offsets `[0, 100)` it returns `2^64 - 100`, not `100`. -/
theorem C7_drain_returns_wrapped_negation :
    (cfil_queue_drain { q_start := 0, q_end := 100, q_mq := [⟨100, 1, 1⟩] }).2 =
        cfil_queue_init ∧
    (cfil_queue_drain { q_start := 0, q_end := 100, q_mq := [⟨100, 1, 1⟩] }).1 =
        two64 - 100 ∧
    (cfil_queue_drain { q_start := 0, q_end := 100, q_mq := [⟨100, 1, 1⟩] }).1 ≠
        cfil_queue_len { q_start := 0, q_end := 100, q_mq := [⟨100, 1, 1⟩] } := by
  refine ⟨rfl, ?_, ?_⟩ <;>
    simp [cfil_queue_drain, cfil_queue_len, sub64, two64]

/-!
## C6: the flow-control-lift walk of `cfil_ctl_rcvd`
-/

/-- The search loop of `cfil_ctl_rcvd` never finds anything: its body
consists only of `continue` paths (there is no `break` after the
flow-controlled test), so the `TAILQ_FOREACH` always runs to completion
and its iteration variable is `NULL` afterwards. -/
theorem ctlRcvdFindLoop_eq_none (s : CfilState) (l : List (Fin 8)) :
    ctlRcvdFindLoop s l = none := by
  induction l with
  | nil => rfl
  | cons e rest ih => by_cases h : (s.cfi_entries e).cfe_flow_controlled <;>
      simp [ctlRcvdFindLoop, h, ih]

/-- **C6** (code bug).  The claim: a resume notification clears the
agent's flow-controlled flag **and** re-walks the flow-controlled entries,
re-attempting delivery at least once when such an entry holds undelivered
data.  In the code the `TAILQ_FOREACH` that should find a flow-controlled
entry has no `break`, so `entry` is always `NULL` after it and the `while`
loop exits before any re-delivery: `cfil_ctl_rcvd` only clears the flag,
for every state — in particular for a state with a flow-controlled
attached entry whose control queue holds undelivered data. -/
theorem C6_ctl_rcvd_only_clears_flag (cfg : Config) (s : CfilState) (i : Fin 8) :
    cfil_ctl_rcvd cfg s i =
      (if s.cf_flow_controlled i then s.setCfFlowControlled i false else s) := by
  unfold cfil_ctl_rcvd
  simp only [ctlRcvdFindLoop_eq_none]

/-!
## C10: datagram tail drop at the garbage-collection thresholds
-/

/-- **C10** (confirmed).  For a datagram-tracked flow, a submit whose span
pushes the direction's pending mbuf-segment (`mbnum`) or mbuf-byte
(`mbcnt`) count above the GC thresholds fails with `EPIPE`: no span is
enqueued to any control, pending or inject queue, the two mbuf counters
are rolled back, the direction's tail-drop counter is incremented, and the
oracle is untouched (no filter saw an event); afterwards the reaper's
buffer-threshold check — and hence its GC test, for any timeout verdict —
returns true. -/
theorem C10_dgram_tail_drop (cfg : Config) (s : CfilState) (d : Bool) (data : Span)
    (hdg : cfg.needDgramTracking = true)
    (hdrop : s.cfi_drop = false)
    (hlen : data.len ≠ 0)
    (hover : (s.dirBuf d).cfi_pending_mbnum + data.mbnum > cfg.gc_mbuf_num_max ∨
             (s.dirBuf d).cfi_pending_mbcnt + data.mbcnt > cfg.gc_mbuf_cnt_max) :
    (cfil_data_common cfg s d data).1 = EPIPE ∧
    (∀ j d', ((cfil_data_common cfg s d data).2.cfi_entries j).buf d' =
             ((s.cfi_entries j).buf d')) ∧
    (∀ d', ((cfil_data_common cfg s d data).2.dirBuf d').cfi_inject_q =
           (s.dirBuf d').cfi_inject_q) ∧
    ((cfil_data_common cfg s d data).2.dirBuf d).cfi_pending_mbcnt =
      (s.dirBuf d).cfi_pending_mbcnt ∧
    ((cfil_data_common cfg s d data).2.dirBuf d).cfi_pending_mbnum =
      (s.dirBuf d).cfi_pending_mbnum ∧
    ((cfil_data_common cfg s d data).2.dirBuf d).cfi_tail_drop_cnt =
      (s.dirBuf d).cfi_tail_drop_cnt + 1 ∧
    (cfil_data_common cfg s d data).2.oracle = s.oracle ∧
    cfil_info_buffer_threshold_exceeded (cfil_data_common cfg s d data).2 = true ∧
    (∀ t, cfil_dgram_gc_needed t (cfil_data_common cfg s d data).2 = true) := by
  rcases hover with h | h <;> cases d <;>
    (unfold cfil_data_common
     refine ⟨?_, ?_, ?_, ?_, ?_, ?_, ?_, ?_, ?_⟩ <;>
       simp_all [CfilState.dirBuf, CfilState.modifyDirBuf,
         cfil_info_buffer_threshold_exceeded, cfil_dgram_gc_needed])

/-- Witness for C10 at a concrete input: one span of 10 bytes in 3 mbufs
overflowing a segment threshold of 2. -/
theorem C10_dgram_tail_drop_witness :
    (cfil_data_common
      { needDgramTracking := true, gc_mbuf_num_max := 2, gc_mbuf_cnt_max := 1000,
        ordered := [0] }
      (initState
        { needDgramTracking := true, gc_mbuf_num_max := 2, gc_mbuf_cnt_max := 1000,
          ordered := [0] } [])
      true ⟨10, 256, 3⟩).1 = EPIPE ∧
    ((cfil_data_common
      { needDgramTracking := true, gc_mbuf_num_max := 2, gc_mbuf_cnt_max := 1000,
        ordered := [0] }
      (initState
        { needDgramTracking := true, gc_mbuf_num_max := 2, gc_mbuf_cnt_max := 1000,
          ordered := [0] } [])
      true ⟨10, 256, 3⟩).2.dirBuf true).cfi_tail_drop_cnt = 1 := by
  have h := C10_dgram_tail_drop
    { needDgramTracking := true, gc_mbuf_num_max := 2, gc_mbuf_cnt_max := 1000,
      ordered := [0] }
    (initState
      { needDgramTracking := true, gc_mbuf_num_max := 2, gc_mbuf_cnt_max := 1000,
        ordered := [0] } [])
    true ⟨10, 256, 3⟩ rfl rfl (by decide) (by left; decide)
  exact ⟨h.1, by rw [h.2.2.2.2.2.1]; rfl⟩

/-!
## C5: stale verdicts are no-ops
-/

/-- A stale verdict (componentwise at most the current offsets) fails both
update conditions of `cfil_update_data_offsets`: nothing is recorded and
`updated` stays 0. -/
theorem applyVerdictOffsets_stale (e : CfeBuf) (pass_offset peek_offset : Nat)
    (hpass : pass_offset ≤ e.cfe_pass_offset)
    (hpeek : peek_offset ≤ e.cfe_peek_offset) :
    applyVerdictOffsets e pass_offset peek_offset = (e, false) := by
  have h1 : ¬ pass_offset > e.cfe_pass_offset := by omega
  have h2 : ¬ (peek_offset > e.cfe_pass_offset ∧ peek_offset > e.cfe_peek_offset) :=
    fun h => absurd h.2 (by omega)
  unfold applyVerdictOffsets
  simp only [if_neg h1, if_neg h2]

/-- The `done` block of `cfil_update_data_offsets` can set the detached
flag and wake waiters, but never touches any direction buffer, the
aggregate state, the oracle, or the returned error. -/
theorem updateDataOffsetsDone_frame (s : CfilState) (i : Fin 8) (error : Int) :
    (∀ j, ((updateDataOffsetsDone s i error).2.cfi_entries j).cfe_snd =
            (s.cfi_entries j).cfe_snd ∧
          ((updateDataOffsetsDone s i error).2.cfi_entries j).cfe_rcv =
            (s.cfi_entries j).cfe_rcv) ∧
    (updateDataOffsetsDone s i error).2.cfi_snd = s.cfi_snd ∧
    (updateDataOffsetsDone s i error).2.cfi_rcv = s.cfi_rcv ∧
    (updateDataOffsetsDone s i error).2.oracle = s.oracle ∧
    (updateDataOffsetsDone s i error).1 = error := by
  unfold updateDataOffsetsDone wakeupIfNoneAttached
  split_ifs with h1 h2 <;>
    refine ⟨fun j => ?_, by simp [CfilState.setEntry], by simp [CfilState.setEntry],
      by simp [CfilState.setEntry], rfl⟩
  · by_cases hj : j = i
    · subst hj; simp
    · simp [entries_setEntry_other _ _ _ _ hj]
  · by_cases hj : j = i
    · subst hj; simp
    · simp [entries_setEntry_other _ _ _ _ hj]
  · exact ⟨rfl, rfl⟩

/-- **C5** (confirmed).  Applying a `(pass_offset, peek_offset)` pair that
is componentwise at most the currently recorded offsets (identical or
stale) leaves every entry's direction buffers — queue contents, queue
cursors, `peeked`, and both offsets — and the per-direction aggregate
state exactly as they were, and consumes no external outcome: the verdict
is recognised as `updated == 0` and queue servicing is not invoked. -/
theorem C5_stale_verdict_noop (cfg : Config) (s : CfilState) (i : Fin 8) (d : Bool)
    (pass_offset peek_offset : Nat)
    (hpass : pass_offset ≤ ((s.cfi_entries i).buf d).cfe_pass_offset)
    (hpeek : peek_offset ≤ ((s.cfi_entries i).buf d).cfe_peek_offset) :
    (∀ j,
      ((cfil_update_data_offsets cfg s i d pass_offset peek_offset).2.cfi_entries j).cfe_snd =
        (s.cfi_entries j).cfe_snd ∧
      ((cfil_update_data_offsets cfg s i d pass_offset peek_offset).2.cfi_entries j).cfe_rcv =
        (s.cfi_entries j).cfe_rcv) ∧
    (cfil_update_data_offsets cfg s i d pass_offset peek_offset).2.cfi_snd = s.cfi_snd ∧
    (cfil_update_data_offsets cfg s i d pass_offset peek_offset).2.cfi_rcv = s.cfi_rcv ∧
    (cfil_update_data_offsets cfg s i d pass_offset peek_offset).2.oracle = s.oracle := by
  unfold cfil_update_data_offsets
  by_cases hd : s.cfi_drop = true
  · simp [hd]
  · have hnoop : (s.modifyEntryBuf i d fun _ => (s.cfi_entries i).buf d) = s := by
      simp [CfilState.modifyEntryBuf]
    rw [applyVerdictOffsets_stale _ _ _ hpass hpeek]
    simp only [hd, Bool.false_eq_true, if_false, Bool.not_false, if_true, ite_true,
      ite_false, hnoop]
    exact ⟨(updateDataOffsetsDone_frame s i 0).1,
      (updateDataOffsetsDone_frame s i 0).2.1,
      (updateDataOffsetsDone_frame s i 0).2.2.1,
      (updateDataOffsetsDone_frame s i 0).2.2.2.1⟩

/-!
## C9: the submit fast path
-/

@[simp]
theorem updateEntryBufOffsets_ctl_mq (len : Nat) (b : CfeBuf) :
    (updateEntryBufOffsets len b).cfe_ctl_q.q_mq = b.cfe_ctl_q.q_mq := rfl

@[simp]
theorem updateEntryBufOffsets_pending_mq (len : Nat) (b : CfeBuf) :
    (updateEntryBufOffsets len b).cfe_pending_q.q_mq = b.cfe_pending_q.q_mq := rfl

@[simp]
theorem update_entry_offsets_entries (s : CfilState) (d : Bool) (len : Nat)
    (i : Fin 8) :
    (cfil_update_entry_offsets s d len).cfi_entries i =
      (if (s.cfi_entries i).cfe_filter then
        ((s.cfi_entries i).setBuf d (updateEntryBufOffsets len ((s.cfi_entries i).buf d)))
      else s.cfi_entries i) := rfl

@[simp]
theorem update_entry_offsets_dirBuf (s : CfilState) (d d' : Bool) (len : Nat) :
    (cfil_update_entry_offsets s d len).dirBuf d' = s.dirBuf d' := by
  cases d' <;> rfl

@[simp]
theorem update_entry_offsets_oracle (s : CfilState) (d : Bool) (len : Nat) :
    (cfil_update_entry_offsets s d len).oracle = s.oracle := rfl

@[simp]
theorem update_entry_offsets_cfi_snd (s : CfilState) (d : Bool) (len : Nat) :
    (cfil_update_entry_offsets s d len).cfi_snd = s.cfi_snd := rfl

@[simp]
theorem update_entry_offsets_cfi_rcv (s : CfilState) (d : Bool) (len : Nat) :
    (cfil_update_entry_offsets s d len).cfi_rcv = s.cfi_rcv := rfl

/-- The fast path of `cfil_data_common` reduced to its bookkeeping. -/
theorem cfil_data_common_fast_eq (cfg : Config) (s : CfilState) (d : Bool)
    (data : Span)
    (hdrop : s.cfi_drop = false)
    (hlen : data.len ≠ 0)
    (hthr : ¬ (cfg.needDgramTracking = true ∧
        ((s.dirBuf d).cfi_pending_mbnum + data.mbnum > cfg.gc_mbuf_num_max ∨
         (s.dirBuf d).cfi_pending_mbcnt + data.mbcnt > cfg.gc_mbuf_cnt_max)))
    (hfast : (s.dirBuf d).cfi_pending_last + data.len ≤ (s.dirBuf d).cfi_pass_offset) :
    cfil_data_common cfg s d data =
      (0, (cfil_update_entry_offsets
            ((if d then
                { s with cfi_byte_outbound_count := s.cfi_byte_outbound_count + data.len }
              else
                { s with cfi_byte_inbound_count := s.cfi_byte_inbound_count + data.len
                }).modifyDirBuf d (fun cb =>
                { cb with
                  cfi_pending_last := cb.cfi_pending_last + data.len
                  cfi_pending_mbcnt := cb.cfi_pending_mbcnt + data.mbcnt
                  cfi_pending_mbnum := cb.cfi_pending_mbnum + data.mbnum }))
            d data.len).modifyDirBuf d (fun cb =>
            { cb with
              cfi_pending_first := cb.cfi_pending_first + data.len
              cfi_pending_mbcnt := cb.cfi_pending_mbcnt - data.mbcnt
              cfi_pending_mbnum := cb.cfi_pending_mbnum - data.mbnum })) := by
  cases d
  case false =>
    simp only [CfilState.dirBuf, if_false, Bool.false_eq_true, ite_false] at hthr hfast
    unfold cfil_data_common
    simp only [hdrop, Bool.false_eq_true, if_false, hlen, ite_false,
      CfilState.modifyDirBuf, CfilState.dirBuf]
    rw [if_neg, if_pos]
    · exact hfast
    · exact hthr
  case true =>
    simp only [CfilState.dirBuf, if_true] at hthr hfast
    unfold cfil_data_common
    simp only [hdrop, Bool.false_eq_true, if_false, hlen, ite_false,
      CfilState.modifyDirBuf, CfilState.dirBuf, if_true, ite_true]
    rw [if_neg, if_pos]
    · exact hfast
    · exact hthr

/-- **C9** (corrected: see `C9_fast_path_counterexample`).  When the
extended aggregate `pending_last` stays at or below the flow's cached
lowest cross-agent pass offset (and the datagram thresholds, if
applicable, are not tripped), `cfil_data_common` takes the fast path: it
returns success immediately, consumes no external outcome (no agent is
sent a data event), enqueues nothing into any control or pending queue,
and for each attached entry advances the direction's queue cursors by the
span's length, sets the peeked mark to the new control-queue start, and
raises `pass_offset`/`peek_offset` only as needed (`pass` to at least the
new control-queue start, `peek` to at least `pass`); the aggregate window
advances past the span on both ends. -/
theorem C9_fast_path (cfg : Config) (s : CfilState) (d : Bool) (data : Span)
    (hdrop : s.cfi_drop = false)
    (hlen : data.len ≠ 0)
    (hthr : ¬ (cfg.needDgramTracking = true ∧
        ((s.dirBuf d).cfi_pending_mbnum + data.mbnum > cfg.gc_mbuf_num_max ∨
         (s.dirBuf d).cfi_pending_mbcnt + data.mbcnt > cfg.gc_mbuf_cnt_max)))
    (hfast : (s.dirBuf d).cfi_pending_last + data.len ≤ (s.dirBuf d).cfi_pass_offset) :
    (cfil_data_common cfg s d data).1 = 0 ∧
    (cfil_data_common cfg s d data).2.oracle = s.oracle ∧
    (∀ j, (s.cfi_entries j).cfe_filter →
      ((cfil_data_common cfg s d data).2.cfi_entries j).buf d =
        updateEntryBufOffsets data.len ((s.cfi_entries j).buf d)) ∧
    (∀ j, ¬ (s.cfi_entries j).cfe_filter →
      ((cfil_data_common cfg s d data).2.cfi_entries j).buf d =
        (s.cfi_entries j).buf d) ∧
    (∀ j d', d' ≠ d →
      ((cfil_data_common cfg s d data).2.cfi_entries j).buf d' =
        (s.cfi_entries j).buf d') ∧
    (∀ j d',
      (((cfil_data_common cfg s d data).2.cfi_entries j).buf d').cfe_ctl_q.q_mq =
        ((s.cfi_entries j).buf d').cfe_ctl_q.q_mq ∧
      (((cfil_data_common cfg s d data).2.cfi_entries j).buf d').cfe_pending_q.q_mq =
        ((s.cfi_entries j).buf d').cfe_pending_q.q_mq) ∧
    ((cfil_data_common cfg s d data).2.dirBuf d).cfi_pending_first =
      (s.dirBuf d).cfi_pending_first + data.len ∧
    ((cfil_data_common cfg s d data).2.dirBuf d).cfi_pending_last =
      (s.dirBuf d).cfi_pending_last + data.len ∧
    ((cfil_data_common cfg s d data).2.dirBuf d).cfi_inject_q =
      (s.dirBuf d).cfi_inject_q := by
  rw [cfil_data_common_fast_eq cfg s d data hdrop hlen hthr hfast]
  refine ⟨rfl, ?_, fun j hj => ?_, fun j hj => ?_, fun j d' hd' => ?_,
    fun j d' => ?_, ?_, ?_, ?_⟩
  · cases d <;> simp
  · cases d <;> simp [hj]
  · cases d <;> simp [hj]
  · cases d <;> cases d' <;> simp_all <;> split <;> simp
  · by_cases hj : (s.cfi_entries j).cfe_filter = true
    · cases d <;> cases d' <;> simp [hj]
    · cases d <;> cases d' <;> simp [hj]
  · cases d <;> simp [CfilState.dirBuf, CfilState.modifyDirBuf]
  · cases d <;> simp [CfilState.dirBuf, CfilState.modifyDirBuf]
  · cases d <;> simp [CfilState.dirBuf, CfilState.modifyDirBuf]

/-- Counterexample to C9 as stated: on the fast path the pass/peek offsets
are **not** advanced by the span's length.  One attached entry with
`pass = peek = 100` and empty queues at cursor 0; submitting 10 bytes with
the cached flow pass offset at 100 takes the fast path, but the entry's
pass offset remains 100 (it is not 110). -/
theorem C9_fast_path_counterexample :
    (((cfil_data_common
      { needDgramTracking := false, gc_mbuf_num_max := 0, gc_mbuf_cnt_max := 0,
        ordered := [0] }
      (((initState
        { needDgramTracking := false, gc_mbuf_num_max := 0, gc_mbuf_cnt_max := 0,
          ordered := [0] } []).modifyEntryBuf 0 true
        (fun b => { b with cfe_pass_offset := 100, cfe_peek_offset := 100,
                           cfe_peeked := 100 })).modifyDirBuf true
        (fun cb => { cb with cfi_pass_offset := 100 }))
      true ⟨10, 1, 1⟩).2.cfi_entries 0).cfe_snd.cfe_pass_offset = 100) ∧
    ¬ (((cfil_data_common
      { needDgramTracking := false, gc_mbuf_num_max := 0, gc_mbuf_cnt_max := 0,
        ordered := [0] }
      (((initState
        { needDgramTracking := false, gc_mbuf_num_max := 0, gc_mbuf_cnt_max := 0,
          ordered := [0] } []).modifyEntryBuf 0 true
        (fun b => { b with cfe_pass_offset := 100, cfe_peek_offset := 100,
                           cfe_peeked := 100 })).modifyDirBuf true
        (fun cb => { cb with cfi_pass_offset := 100 }))
      true ⟨10, 1, 1⟩).2.cfi_entries 0).cfe_snd.cfe_pass_offset = 100 + 10) := by
  constructor
  · decide
  · decide

/-!
## The queue-servicing cascade: frame and byte-conservation properties

`cfil_data_service_ctl_q` and its callees only ever move whole spans
between the queues of one direction (control → pending → a later entry's
control → the inject queue), touch `cfe_peeked` and the flow-control /
sent-event flags, and consume oracle outcomes.  `CascadeOut d placed s t`
captures everything the later proofs need about a cascade call that
carried `placed` in-flight bytes into the direction-`d` queues: every
entry's pass/peek offsets are untouched, the opposite direction is
untouched, the aggregate window and flags are untouched, the direction's
total buffered bytes grow by exactly `placed`, and queue well-formedness
is preserved.
-/

theorem CascadeFrame.reflFrame (d : Bool) (s : CfilState) : CascadeFrame d s s :=
  ⟨fun _ _ => rfl, fun _ => rfl, rfl,
    ⟨rfl, rfl, rfl, rfl, rfl, rfl⟩,
    ⟨rfl, rfl, rfl, rfl, rfl, rfl,
     rfl, rfl, rfl, rfl⟩⟩

theorem CascadeFrame.transFrame {d : Bool} {s t u : CfilState}
    (h1 : CascadeFrame d s t) (h2 : CascadeFrame d t u) : CascadeFrame d s u := by
  obtain ⟨a1, b1, c1, d1, e1⟩ := h1
  obtain ⟨a2, b2, c2, d2, e2⟩ := h2
  refine ⟨fun j d' => (a2 j d').trans (a1 j d'), fun j => (b2 j).trans (b1 j),
    c2.trans c1, ?_, ?_⟩
  · unfold sameButInject at *
    omega
  · unfold flagsFrame at *
    obtain ⟨p1, p2, p3, p4, p5, p6, p7, p8, p9, p10⟩ := e1
    obtain ⟨q1, q2, q3, q4, q5, q6, q7, q8, q9, q10⟩ := e2
    exact ⟨q1.trans p1, q2.trans p2, q3.trans p3, q4.trans p4, q5.trans p5,
      q6.trans p6, q7.trans p7, q8.trans p8, q9.trans p9, q10.trans p10⟩

theorem CascadeOut.reflOut (d : Bool) (s : CfilState) : CascadeOut d 0 s s :=
  ⟨CascadeFrame.reflFrame d s, by omega, id⟩

theorem CascadeOut.transOut {d : Bool} {p q : Nat} {s t u : CfilState}
    (h1 : CascadeOut d p s t) (h2 : CascadeOut d q t u) :
    CascadeOut d (p + q) s u :=
  ⟨h1.1.transFrame h2.1, by have := h1.2.1; have := h2.2.1; omega,
    fun h => h2.2.2 (h1.2.2 h)⟩

theorem CascadeOut.zeroThen {d : Bool} {q : Nat} {s t u : CfilState}
    (h1 : CascadeOut d 0 s t) (h2 : CascadeOut d q t u) :
    CascadeOut d q s u := by
  have := h1.transOut h2
  simpa using this

/-- Summation over `Fin 8` after updating one index, in subtraction-free
form: the new sum plus the old value equals the old sum plus the new
value. -/
theorem sum_update_fin8 (f : Fin 8 → Nat) (i : Fin 8) (v : Nat) :
    (∑ j : Fin 8, Function.update f i v j) + f i = (∑ j : Fin 8, f j) + v := by
  rw [Finset.sum_update_of_mem (Finset.mem_univ i)]
  have h : ∑ j ∈ Finset.univ \ {i}, f j + f i = ∑ j : Fin 8, f j := by
    rw [Finset.sdiff_singleton_eq_erase]
    exact Finset.sum_erase_add _ _ (Finset.mem_univ i)
  omega

/-- The same through a projection `g` of the entries. -/
theorem sum_comp_update_fin8 {α : Type} (ent : Fin 8 → α) (g : α → Nat) (i : Fin 8)
    (e' : α) :
    (∑ j : Fin 8, g (Function.update ent i e' j)) + g (ent i) =
      (∑ j : Fin 8, g (ent j)) + g e' := by
  have h : ∀ j, g (Function.update ent i e' j) =
      Function.update (fun k => g (ent k)) i (g e') j := by
    intro j
    by_cases hj : j = i <;> simp [Function.update_apply, hj]
  rw [Finset.sum_congr rfl (fun j _ => h j)]
  exact sum_update_fin8 (fun k => g (ent k)) i (g e')

@[simp]
theorem qBytes_enqueue (q : CfilQueue) (m : Span) :
    qBytes (cfil_queue_enqueue q m) = qBytes q + m.len := by
  simp [qBytes, cfil_queue_enqueue]

theorem qBytes_remove_head {q : CfilQueue} {m : Span}
    (h : q.q_mq.head? = some m) :
    qBytes q = m.len + qBytes (cfil_queue_remove_head q m.len) := by
  cases hq : q.q_mq with
  | nil => simp [hq] at h
  | cons a rest =>
    rw [hq] at h
    simp only [List.head?_cons, Option.some_inj] at h
    subst h
    simp [qBytes, cfil_queue_remove_head, hq]

theorem QWF_enqueue {q : CfilQueue} (h : QWF q) (m : Span) :
    QWF (cfil_queue_enqueue q m) := by
  obtain ⟨h1, h2⟩ := h
  simp only [QWF, cfil_queue_enqueue, qBytes, List.map_append, List.sum_append,
    List.map_cons, List.sum_cons, List.map_nil, List.sum_nil] at *
  omega

theorem QWF_remove_head {q : CfilQueue} {m : Span} (h : QWF q)
    (hm : q.q_mq.head? = some m) :
    QWF (cfil_queue_remove_head q m.len) := by
  obtain ⟨h1, h2⟩ := h
  have hb := qBytes_remove_head hm
  simp only [QWF, cfil_queue_remove_head, qBytes] at *
  omega

theorem QWF_drained (q : CfilQueue) : QWF (cfil_queue_drain q).2 := by
  refine ⟨by simp [cfil_queue_drain], by simp [cfil_queue_drain, qBytes]⟩

/-- A `Bool` differs from its negation (both orders). -/
theorem bool_ne_not (d : Bool) : (!d) ≠ d := by
  cases d <;> simp

/-- `bufBytes` through a one-entry update, subtraction-free. -/
theorem bufBytes_modifyEntryBuf (s : CfilState) (i : Fin 8) (d : Bool)
    (f : CfeBuf → CfeBuf) :
    bufBytes (s.modifyEntryBuf i d f) d +
      (qBytes ((s.cfi_entries i).buf d).cfe_ctl_q +
       qBytes ((s.cfi_entries i).buf d).cfe_pending_q) =
    bufBytes s d +
      (qBytes (f ((s.cfi_entries i).buf d)).cfe_ctl_q +
       qBytes (f ((s.cfi_entries i).buf d)).cfe_pending_q) := by
  unfold bufBytes
  have hsum := sum_comp_update_fin8 s.cfi_entries
    (fun e => qBytes (e.buf d).cfe_ctl_q + qBytes (e.buf d).cfe_pending_q) i
    ((s.cfi_entries i).setBuf d (f ((s.cfi_entries i).buf d)))
  simp only [CfilState.modifyEntryBuf, CfilState.setEntry] at *
  simp only [buf_setBuf_same] at hsum
  have hdb : (CfilState.dirBuf { s with cfi_entries := (Function.update s.cfi_entries i ((s.cfi_entries i).setBuf d (f ((s.cfi_entries i).buf d)))) } d) = s.dirBuf d := by
    cases d <;> rfl
  rw [hdb]
  omega

/-- Frame part of a `modifyEntryBuf` on the serviced direction whose
update function preserves the pass and peek offsets. -/
theorem cascadeFrame_modifyEntryBuf (s : CfilState) (i : Fin 8) (d : Bool)
    (f : CfeBuf → CfeBuf)
    (hpass : ∀ b, (f b).cfe_pass_offset = b.cfe_pass_offset)
    (hpeek : ∀ b, (f b).cfe_peek_offset = b.cfe_peek_offset) :
    CascadeFrame d s (s.modifyEntryBuf i d f) := by
  refine ⟨?_, ?_, by simp, ?_, ?_⟩
  · intro j d'
    by_cases hj : j = i
    · subst hj
      by_cases hd : d' = d
      · subst hd
        simp [entryPP, hpass, hpeek]
      · simp [entryPP, buf_setBuf_other _ _ _ _ (Ne.symm hd)]
    · simp [entryPP, hj]
  · intro j
    by_cases hj : j = i
    · subst hj
      simp [buf_setBuf_other _ _ _ _ (Ne.symm (bool_ne_not d))]
    · simp [hj]
  · simp [sameButInject]
  · simp [flagsFrame, CfilState.modifyEntryBuf, CfilState.setEntry]

/-- `QWFAll` through a `modifyEntryBuf` whose update keeps both queues
well-formed. -/
theorem QWFAll_modifyEntryBuf {s : CfilState} {i : Fin 8} {d : Bool}
    {f : CfeBuf → CfeBuf}
    (h : ∀ b, QWF b.cfe_ctl_q → QWF b.cfe_pending_q →
      QWF (f b).cfe_ctl_q ∧ QWF (f b).cfe_pending_q)
    (hs : QWFAll s) : QWFAll (s.modifyEntryBuf i d f) := by
  obtain ⟨h1, h2⟩ := hs
  refine ⟨?_, ?_⟩
  · intro j d'
    by_cases hj : j = i
    · by_cases hd : d' = d
      · rw [hj, hd]
        simpa using h _ (h1 i d).1 (h1 i d).2
      · rw [hj]
        simpa [buf_setBuf_other _ _ _ _ (Ne.symm hd)] using h1 i d'
    · simpa [hj] using h1 j d'
  · intro d'
    simpa using h2 d'

/-- A peeked-mark update is invisible to everything `CascadeOut` tracks. -/
theorem cascadeOut_set_peeked (s : CfilState) (i : Fin 8) (d : Bool) (x : Nat) :
    CascadeOut d 0 s
      (s.modifyEntryBuf i d (fun b => { b with cfe_peeked := x })) := by
  refine ⟨cascadeFrame_modifyEntryBuf s i d _ (fun _ => rfl) (fun _ => rfl), ?_, ?_⟩
  · have := bufBytes_modifyEntryBuf s i d (fun b => { b with cfe_peeked := x })
    simp at this
    omega
  · exact QWFAll_modifyEntryBuf (fun b hc hp => ⟨hc, hp⟩)

/-- Enqueueing a span on an entry's control queue adds exactly its bytes. -/
theorem cascadeOut_ctl_enqueue (s : CfilState) (i : Fin 8) (d : Bool) (data : Span) :
    CascadeOut d data.len s
      (s.modifyEntryBuf i d
        (fun b => { b with cfe_ctl_q := cfil_queue_enqueue b.cfe_ctl_q data })) := by
  refine ⟨cascadeFrame_modifyEntryBuf s i d _ (fun _ => rfl) (fun _ => rfl), ?_, ?_⟩
  · have := bufBytes_modifyEntryBuf s i d
      (fun b => { b with cfe_ctl_q := cfil_queue_enqueue b.cfe_ctl_q data })
    simp at this
    omega
  · exact QWFAll_modifyEntryBuf (fun b hc hp => ⟨QWF_enqueue hc data, hp⟩)

/-- Removing the head span of an entry's pending queue removes exactly its
bytes (additive form). -/
theorem cascadeOut_pending_remove (s : CfilState) (i : Fin 8) (d : Bool)
    (data : Span)
    (hm : ((s.cfi_entries i).buf d).cfe_pending_q.q_mq.head? = some data) :
    CascadeFrame d s
      (s.modifyEntryBuf i d
        (fun b => { b with cfe_pending_q := cfil_queue_remove_head b.cfe_pending_q data.len })) ∧
    bufBytes s d =
      bufBytes (s.modifyEntryBuf i d
        (fun b => { b with cfe_pending_q := cfil_queue_remove_head b.cfe_pending_q data.len })) d
        + data.len ∧
    (QWFAll s →
     QWFAll (s.modifyEntryBuf i d
       (fun b => { b with cfe_pending_q := cfil_queue_remove_head b.cfe_pending_q data.len }))) := by
  refine ⟨cascadeFrame_modifyEntryBuf s i d _ (fun _ => rfl) (fun _ => rfl), ?_, ?_⟩
  · have h := bufBytes_modifyEntryBuf s i d
      (fun b => { b with cfe_pending_q := cfil_queue_remove_head b.cfe_pending_q data.len })
    have hb := qBytes_remove_head hm
    simp at h
    omega
  · intro hs
    obtain ⟨h1, h2⟩ := hs
    refine ⟨?_, by simpa using h2⟩
    intro j d'
    by_cases hj : j = i
    · by_cases hd : d' = d
      · rw [hj, hd]
        exact ⟨by simpa using (h1 i d).1,
          by simpa using QWF_remove_head (h1 i d).2 hm⟩
      · rw [hj]
        simpa [buf_setBuf_other _ _ _ _ (Ne.symm hd)] using h1 i d'
    · simpa [hj] using h1 j d'

/-- Enqueueing a span on the direction's inject queue adds exactly its
bytes. -/
theorem cascadeOut_inject_enqueue (s : CfilState) (d : Bool) (data : Span) :
    CascadeOut d data.len s
      (s.modifyDirBuf d
        (fun cb => { cb with cfi_inject_q := cfil_queue_enqueue cb.cfi_inject_q data })) := by
  refine ⟨⟨?_, ?_, ?_, ?_, ?_⟩, ?_, ?_⟩
  · intro j d'
    simp [entryPP]
  · intro j
    simp
  · exact dirBuf_modifyDirBuf_other s d (!d) _ (Ne.symm (bool_ne_not d))
  · simp [sameButInject]
  · cases d <;> simp [flagsFrame, CfilState.modifyDirBuf]
  · unfold bufBytes
    simp
    omega
  · intro ⟨h1, h2⟩
    refine ⟨fun j d' => by simpa using h1 j d', fun d' => ?_⟩
    by_cases hd : d' = d
    · subst hd
      simpa using QWF_enqueue (h2 d') data
    · simpa [dirBuf_modifyDirBuf_other _ _ _ _ (Ne.symm hd)] using h2 d'

/-- Consuming an oracle outcome is invisible to `CascadeOut`. -/
theorem cascadeOut_popOracle (s : CfilState) (d : Bool) :
    CascadeOut d 0 s (popOracle s).2 := by
  unfold popOracle
  rcases ho : s.oracle with _ | ⟨e, rest⟩
  · exact CascadeOut.reflOut d s
  · show CascadeOut d 0 s { s with oracle := rest }
    exact ⟨⟨fun _ _ => rfl, fun _ => rfl, rfl, ⟨rfl, rfl, rfl, rfl, rfl, rfl⟩,
      ⟨rfl, rfl, rfl, rfl, rfl, rfl, rfl, rfl, rfl, rfl⟩⟩,
      by cases d <;> simp [bufBytes, CfilState.dirBuf], fun h => h⟩

/-- Replacing one entry without touching its direction buffers is
invisible to `CascadeOut`. -/
theorem cascadeOut_setEntry_flags (s : CfilState) (i : Fin 8) (e' : CfilEntry)
    (d : Bool)
    (hsnd : e'.cfe_snd = (s.cfi_entries i).cfe_snd)
    (hrcv : e'.cfe_rcv = (s.cfi_entries i).cfe_rcv) :
    CascadeOut d 0 s (s.setEntry i e') := by
  have hbuf : ∀ d', e'.buf d' = (s.cfi_entries i).buf d' := by
    intro d'
    cases d' <;> simp [CfilEntry.buf, hsnd, hrcv]
  refine ⟨⟨?_, ?_, by simp, by simp [sameButInject], ?_⟩, ?_, ?_⟩
  · intro j d'
    by_cases hj : j = i
    · rw [hj]
      simp [entryPP, hbuf]
    · simp [entryPP, hj]
  · intro j
    by_cases hj : j = i
    · rw [hj]
      simp [hbuf]
    · simp [hj]
  · simp [flagsFrame, CfilState.setEntry]
  · unfold bufBytes
    have hsum := sum_comp_update_fin8 s.cfi_entries
      (fun e => qBytes (e.buf d).cfe_ctl_q + qBytes (e.buf d).cfe_pending_q) i e'
    simp only [hbuf] at hsum
    simp only [CfilState.setEntry] at *
    have hdb : (CfilState.dirBuf { s with cfi_entries := (Function.update s.cfi_entries i e') } d) = s.dirBuf d := by
      cases d <;> rfl
    rw [hdb]
    omega
  · intro ⟨h1, h2⟩
    refine ⟨?_, fun d' => by simpa using h2 d'⟩
    intro j d'
    by_cases hj : j = i
    · rw [hj]
      simpa [hbuf] using h1 i d'
    · simpa [hj] using h1 j d'

/-- Setting the entry flow-control flag is invisible to `CascadeOut`. -/
theorem cascadeOut_setEntryFC (s : CfilState) (i : Fin 8) (b d : Bool) :
    CascadeOut d 0 s (s.setEntryFlowControlled i b) :=
  cascadeOut_setEntry_flags s i _ d rfl rfl

/-- Setting the registry flow-control flag is invisible to `CascadeOut`. -/
theorem cascadeOut_setCfFC (s : CfilState) (i : Fin 8) (b d : Bool) :
    CascadeOut d 0 s (s.setCfFlowControlled i b) :=
  ⟨⟨fun _ _ => rfl, fun _ => rfl, rfl, ⟨rfl, rfl, rfl, rfl, rfl, rfl⟩,
    ⟨rfl, rfl, rfl, rfl, rfl, rfl, rfl, rfl, rfl, rfl⟩⟩,
    by cases d <;> simp [bufBytes, CfilState.dirBuf, CfilState.setCfFlowControlled],
    fun h => h⟩

/-- Dispatching a data event only touches flags and the oracle. -/
theorem cascadeOut_dispatch_data (s : CfilState) (i : Fin 8) (d : Bool) :
    CascadeOut d 0 s (cfil_dispatch_data_event s i).2 := by
  unfold cfil_dispatch_data_event
  split_ifs <;>
    first
      | exact CascadeOut.reflOut d s
      | exact cascadeOut_popOracle s d
      | exact (cascadeOut_setEntryFC s i true d).zeroThen (cascadeOut_setCfFC _ i true d)
      | exact (cascadeOut_popOracle s d).zeroThen (cascadeOut_setEntryFC _ i false d)
      | exact (cascadeOut_popOracle s d).zeroThen
          (cascadeOut_setEntry_flags _ i _ d rfl rfl)
      | exact (cascadeOut_popOracle s d).zeroThen
          ((cascadeOut_setEntryFC _ i true d).zeroThen (cascadeOut_setCfFC _ i true d))

/-- Dispatching the attach event only touches flags and the oracle. -/
theorem cascadeOut_dispatch_attach (s : CfilState) (i : Fin 8) (d : Bool) :
    CascadeOut d 0 s (cfil_dispatch_attach_event s i).2 := by
  unfold cfil_dispatch_attach_event
  split_ifs <;>
    first
      | exact CascadeOut.reflOut d s
      | exact cascadeOut_popOracle s d
      | exact (cascadeOut_setEntryFC s i true d).zeroThen (cascadeOut_setCfFC _ i true d)
      | exact (cascadeOut_popOracle s d).zeroThen (cascadeOut_setEntryFC _ i false d)
      | exact (cascadeOut_popOracle s d).zeroThen
          (cascadeOut_setEntry_flags _ i _ d rfl rfl)
      | exact (cascadeOut_popOracle s d).zeroThen
          ((cascadeOut_setEntryFC _ i true d).zeroThen (cascadeOut_setCfFC _ i true d))

/-- Dispatching a disconnect event only touches flags and the oracle. -/
theorem cascadeOut_dispatch_disconnect (s : CfilState) (i : Fin 8) (dd d : Bool) :
    CascadeOut d 0 s (cfil_dispatch_disconnect_event s i dd).2 := by
  unfold cfil_dispatch_disconnect_event
  split_ifs <;>
    first
      | exact CascadeOut.reflOut d s
      | exact cascadeOut_popOracle s d
      | exact (cascadeOut_setEntryFC s i true d).zeroThen (cascadeOut_setCfFC _ i true d)
      | exact (cascadeOut_popOracle s d).zeroThen (cascadeOut_setEntryFC _ i false d)
      | exact (cascadeOut_popOracle s d).zeroThen
          (cascadeOut_setEntry_flags _ i _ d rfl rfl)
      | exact (cascadeOut_popOracle s d).zeroThen
          ((cascadeOut_setEntryFC _ i true d).zeroThen (cascadeOut_setCfFC _ i true d))

/-- Witness for C5: re-applying the identical verdict `(5, 9)` to an entry
already at `(pass, peek) = (5, 9)` changes nothing. -/
theorem C5_stale_verdict_noop_witness :
    let cfg : Config :=
      { needDgramTracking := false, gc_mbuf_num_max := 0, gc_mbuf_cnt_max := 0,
        ordered := [0] }
    let s0 := (initState cfg []).modifyEntryBuf 0 true
      (fun b => { b with cfe_pass_offset := 5, cfe_peek_offset := 9 })
    ((cfil_update_data_offsets cfg s0 0 true 5 9).2.cfi_entries 0).cfe_snd =
      (s0.cfi_entries 0).cfe_snd := by
  intro cfg s0
  exact ((C5_stale_verdict_noop cfg s0 0 true 5 9 (by decide) (by decide)).1 0).1

/-!
## The service cascade: the move loop, the peek loop, and the mutual nest

`ctlQMoveGo_props` packages what the move loop preserves; `cascade_master`
extends `CascadeOut` over the whole mutually recursive service nest by
strong induction on the length of the remaining entry chain.
-/

theorem ctlQMoveGo_full_step (fuel : Nat) (b : CfeBuf) (data : Span)
    (hmq : b.cfe_ctl_q.q_mq.head? = some data)
    (h1 : b.cfe_ctl_q.q_start < b.cfe_pass_offset)
    (h2 : b.cfe_ctl_q.q_start + data.len ≤ b.cfe_pass_offset) :
    ctlQMoveGo (fuel + 1) b =
      ctlQMoveGo fuel
        { b with
          cfe_peeked := if b.cfe_ctl_q.q_start + data.len > b.cfe_peeked
            then b.cfe_ctl_q.q_start + data.len else b.cfe_peeked
          cfe_ctl_q := cfil_queue_remove_head b.cfe_ctl_q data.len
          cfe_pending_q := cfil_queue_enqueue b.cfe_pending_q data } := by
  rw [ctlQMoveGo]
  simp only [hmq, if_pos h1, if_pos h2, lt_self_iff_false, if_false]
  split_ifs with hpk <;> rfl

theorem ctlQMoveGo_props (fuel : Nat) (b : CfeBuf) :
    (ctlQMoveGo fuel b).cfe_pass_offset = b.cfe_pass_offset ∧
    (ctlQMoveGo fuel b).cfe_peek_offset = b.cfe_peek_offset ∧
    qBytes (ctlQMoveGo fuel b).cfe_ctl_q + qBytes (ctlQMoveGo fuel b).cfe_pending_q =
      qBytes b.cfe_ctl_q + qBytes b.cfe_pending_q ∧
    (QWF b.cfe_ctl_q → QWF b.cfe_pending_q →
      QWF (ctlQMoveGo fuel b).cfe_ctl_q ∧ QWF (ctlQMoveGo fuel b).cfe_pending_q) := by
  induction fuel generalizing b with
  | zero => exact ⟨rfl, rfl, rfl, fun hc hp => ⟨hc, hp⟩⟩
  | succ fuel ih =>
    cases hmq : b.cfe_ctl_q.q_mq.head? with
    | none =>
      rw [ctlQMoveGo]
      simp only [hmq]
      exact ⟨by simp, by simp, by simp, fun hc hp => ⟨hc, hp⟩⟩
    | some data =>
      by_cases h1 : b.cfe_ctl_q.q_start < b.cfe_pass_offset
      · by_cases h2 : b.cfe_ctl_q.q_start + data.len ≤ b.cfe_pass_offset
        · rw [ctlQMoveGo_full_step fuel b data hmq h1 h2]
          obtain ⟨p1, p2, p3, p4⟩ := ih
            { b with
              cfe_peeked := if b.cfe_ctl_q.q_start + data.len > b.cfe_peeked
                then b.cfe_ctl_q.q_start + data.len else b.cfe_peeked
              cfe_ctl_q := cfil_queue_remove_head b.cfe_ctl_q data.len
              cfe_pending_q := cfil_queue_enqueue b.cfe_pending_q data }
          refine ⟨p1.trans rfl, p2.trans rfl, ?_, fun hc hp => ?_⟩
          · have hqr := qBytes_remove_head (q := b.cfe_ctl_q) hmq
            rw [p3]
            dsimp only
            rw [qBytes_enqueue]
            omega
          · exact p4 (QWF_remove_head hc hmq) (QWF_enqueue hp data)
        · rw [ctlQMoveGo]
          have hlt : b.cfe_pass_offset - b.cfe_ctl_q.q_start < data.len := by omega
          simp only [hmq, if_pos h1, if_neg h2, if_pos hlt]
          split_ifs with hpk
          · exact ⟨by simp, by simp, by simp, fun hc hp => ⟨hc, hp⟩⟩
          · exact ⟨by simp, by simp, by simp, fun hc hp => ⟨hc, hp⟩⟩
      · rw [ctlQMoveGo]
        simp only [hmq, if_neg h1]
        exact ⟨by simp, by simp, by simp, fun hc hp => ⟨hc, hp⟩⟩

theorem CascadeOut.thenZero {d : Bool} {q : Nat} {s t u : CfilState}
    (h1 : CascadeOut d q s t) (h2 : CascadeOut d 0 t u) :
    CascadeOut d q s u := by
  have := h1.transOut h2
  simpa using this

theorem cascadeOut_moveLoop (s : CfilState) (i : Fin 8) (d : Bool) :
    CascadeOut d 0 s (s.modifyEntryBuf i d ctlQMoveLoop) := by
  refine ⟨cascadeFrame_modifyEntryBuf s i d _
      (fun b => (ctlQMoveGo_props _ b).1) (fun b => (ctlQMoveGo_props _ b).2.1),
      ?_, ?_⟩
  · have h := bufBytes_modifyEntryBuf s i d ctlQMoveLoop
    have hp := (ctlQMoveGo_props
      ((s.cfi_entries i).buf d).cfe_ctl_q.q_mq.length ((s.cfi_entries i).buf d)).2.2.1
    simp only [ctlQMoveLoop] at h
    omega
  · exact QWFAll_modifyEntryBuf (fun b hc hp => (ctlQMoveGo_props _ b).2.2.2 hc hp)

theorem cascadeOut_add_peeked (s : CfilState) (i : Fin 8) (d : Bool) (x : Nat) :
    CascadeOut d 0 s
      (s.modifyEntryBuf i d
        (fun b => { b with cfe_peeked := b.cfe_peeked + x })) := by
  refine ⟨cascadeFrame_modifyEntryBuf s i d _ (fun _ => rfl) (fun _ => rfl), ?_, ?_⟩
  · have := bufBytes_modifyEntryBuf s i d
      (fun b => { b with cfe_peeked := b.cfe_peeked + x })
    simp at this
    omega
  · exact QWFAll_modifyEntryBuf (fun b hc hp => ⟨hc, hp⟩)

theorem cascadeOut_peekLoop (s : CfilState) (i : Fin 8) (d : Bool)
    (spans : List Span) (off : Nat) :
    CascadeOut d 0 s (ctlQPeekLoop s i d spans off) := by
  induction spans generalizing s off with
  | nil => exact CascadeOut.reflOut d s
  | cons data rest ih =>
    rw [ctlQPeekLoop]
    rcases hde : cfil_dispatch_data_event s i with ⟨err, s1⟩
    have hcd := cascadeOut_dispatch_data s i d
    rw [hde] at hcd
    simp only [hde]
    split_ifs <;>
      first
        | exact CascadeOut.reflOut d s
        | exact ih s _
        | exact hcd
        | exact hcd.zeroThen (cascadeOut_add_peeked s1 i d _)
        | exact hcd.zeroThen ((cascadeOut_add_peeked s1 i d _).zeroThen (ih _ _))

theorem cascade_master (n : Nat) :
    (∀ cfg s (i : Fin 8) after (d : Bool), after.length = n →
        CascadeOut d 0 s (cfil_data_service_ctl_q cfg s i after d).2) ∧
    (∀ cfg s (i : Fin 8) after (d : Bool), after.length = n →
        CascadeOut d 0 s (serviceCtlQMain cfg s i after d).2) ∧
    (∀ cfg s (i : Fin 8) after (d : Bool), after.length = n →
        CascadeOut d 0 s (cfil_service_pending_queue cfg s i after d).2) ∧
    (∀ cfg s after (d : Bool), after.length = n →
        CascadeOut d 0 s (pendingEmptyWalk cfg s after d).2) ∧
    (∀ cfg s (i : Fin 8) after (d : Bool) (passlen curlen : Nat) (err : Int)
        (fuel : Nat), after.length = n →
        CascadeOut d 0 s
          (pendingServiceLoop cfg s i after d passlen curlen err fuel).2) ∧
    (∀ cfg s after (d : Bool) data, after.length = n →
        dataFilterChain cfg s after d data = (0, s) ∨
        ((dataFilterChain cfg s after d data).1 = EJUSTRETURN ∧
         CascadeOut d data.len s (dataFilterChain cfg s after d data).2)) ∧
    (∀ cfg s (i : Fin 8) after (d : Bool) data, after.length = n →
        cfil_data_filter cfg s i after d data = (0, s) ∨
        ((cfil_data_filter cfg s i after d data).1 = EJUSTRETURN ∧
         CascadeOut d data.len s (cfil_data_filter cfg s i after d data).2)) := by
  induction n using Nat.strong_induction_on with
  | _ n ih =>
    have hWk : ∀ cfg s after (d : Bool), after.length = n →
        CascadeOut d 0 s (pendingEmptyWalk cfg s after d).2 := by
      intro cfg s after d hlen
      cases after with
      | nil =>
        rw [pendingEmptyWalk]
        exact CascadeOut.reflOut d s
      | cons j rest =>
        have hlt : rest.length < n := by simp at hlen; omega
        rcases hsq : cfil_data_service_ctl_q cfg s j rest d with ⟨er, s1⟩
        have h1 := (ih rest.length hlt).1 cfg s j rest d rfl
        rw [hsq] at h1
        rw [pendingEmptyWalk]
        simp only [hsq]
        split_ifs
        · exact h1
        · exact h1.zeroThen ((ih rest.length hlt).2.2.2.1 cfg s1 rest d rfl)
    have hCh : ∀ cfg s after (d : Bool) data, after.length = n →
        dataFilterChain cfg s after d data = (0, s) ∨
        ((dataFilterChain cfg s after d data).1 = EJUSTRETURN ∧
         CascadeOut d data.len s (dataFilterChain cfg s after d data).2) := by
      intro cfg s after d data hlen
      cases after with
      | nil =>
        left
        rw [dataFilterChain]
      | cons j rest =>
        have hlt : rest.length < n := by simp at hlen; omega
        rcases hf : cfil_data_filter cfg s j rest d data with ⟨er, s1⟩
        have h1 := (ih rest.length hlt).2.2.2.2.2.2 cfg s j rest d data rfl
        rw [hf] at h1
        rw [dataFilterChain]
        simp only [hf]
        by_cases he : er ≠ 0
        · simp only [if_pos he]
          rcases h1 with h1 | h1
          · exact absurd (congrArg Prod.fst h1) he
          · exact Or.inr ⟨h1.1, h1.2⟩
        · simp only [if_neg he]
          have her : er = 0 := not_not.mp he
          rcases h1 with h1 | h1
          · have hs1 : s1 = s := (Prod.ext_iff.mp h1).2
            rw [hs1]
            exact (ih rest.length hlt).2.2.2.2.2.1 cfg s rest d data rfl
          · rw [her, EJUSTRETURN] at h1
            exact absurd h1.1 (by simp)
    have hLp : ∀ cfg s (i : Fin 8) after (d : Bool) (passlen curlen : Nat)
        (err : Int) (fuel : Nat), after.length = n →
        CascadeOut d 0 s
          (pendingServiceLoop cfg s i after d passlen curlen err fuel).2 := by
      intro cfg s i after d passlen curlen err fuel hlen
      induction fuel generalizing s curlen err with
      | zero =>
        rw [pendingServiceLoop]
        exact CascadeOut.reflOut d s
      | succ fuel ihf =>
        rw [pendingServiceLoop]
        cases hmq : ((s.cfi_entries i).buf d).cfe_pending_q.q_mq.head? with
        | none =>
          simp only [hmq]
          exact CascadeOut.reflOut d s
        | some data =>
          simp only [hmq]
          by_cases hcl : curlen + data.len > passlen
          · simp only [if_pos hcl]
            exact CascadeOut.reflOut d s
          · simp only [if_neg hcl]
            rcases hch : dataFilterChain cfg
                (s.modifyEntryBuf i d (fun b =>
                  { b with cfe_pending_q :=
                      cfil_queue_remove_head b.cfe_pending_q data.len }))
                after d data with ⟨er2, s2⟩
            have hrem := cascadeOut_pending_remove s i d data hmq
            have hc := hCh cfg
              (s.modifyEntryBuf i d (fun b =>
                { b with cfe_pending_q :=
                    cfil_queue_remove_head b.cfe_pending_q data.len }))
              after d data hlen
            rw [hch] at hc
            simp only [hch]
            by_cases he : er2 = 0
            · simp only [if_pos he]
              have hs2 : s2 = s.modifyEntryBuf i d (fun b =>
                  { b with cfe_pending_q :=
                      cfil_queue_remove_head b.cfe_pending_q data.len }) := by
                rcases hc with hc | hc
                · exact (Prod.ext_iff.mp hc).2
                · rw [he, EJUSTRETURN] at hc
                  exact absurd hc.1 (by simp)
              have hinj := cascadeOut_inject_enqueue s2 d data
              have hnet : CascadeOut d 0 s (s2.modifyDirBuf d (fun cb =>
                  { cb with cfi_inject_q :=
                      cfil_queue_enqueue cb.cfi_inject_q data })) := by
                rw [hs2] at hinj ⊢
                refine ⟨hrem.1.transFrame hinj.1, ?_, fun h => hinj.2.2 (hrem.2.2 h)⟩
                have h1 := hrem.2.1
                have h2 := hinj.2.1
                omega
              exact hnet.zeroThen (ihf _ _ _)
            · simp only [if_neg he]
              have hc2 : CascadeOut d data.len
                  (s.modifyEntryBuf i d (fun b =>
                    { b with cfe_pending_q :=
                        cfil_queue_remove_head b.cfe_pending_q data.len }))
                  s2 := by
                rcases hc with hc | hc
                · exact absurd (congrArg Prod.fst hc) he
                · exact hc.2
              have hnet : CascadeOut d 0 s s2 := by
                refine ⟨hrem.1.transFrame hc2.1, ?_, fun h => hc2.2.2 (hrem.2.2 h)⟩
                have h1 := hrem.2.1
                have h2 := hc2.2.1
                omega
              exact hnet.zeroThen (ihf _ _ _)
    have hPd : ∀ cfg s (i : Fin 8) after (d : Bool), after.length = n →
        CascadeOut d 0 s (cfil_service_pending_queue cfg s i after d).2 := by
      intro cfg s i after d hlen
      simp only [cfil_service_pending_queue]
      split_ifs
      · exact hWk cfg s after d hlen
      · exact hLp cfg s i after d _ 0 0 _ hlen
    have hMn : ∀ cfg s (i : Fin 8) after (d : Bool), after.length = n →
        CascadeOut d 0 s (serviceCtlQMain cfg s i after d).2 := by
      intro cfg s i after d hlen
      simp only [serviceCtlQMain]
      rcases hp : cfil_service_pending_queue cfg
          (ctlQPeekLoop (s.modifyEntryBuf i d ctlQMoveLoop) i d
            (((s.modifyEntryBuf i d ctlQMoveLoop).cfi_entries i).buf d).cfe_ctl_q.q_mq
            (((s.modifyEntryBuf i d ctlQMoveLoop).cfi_entries i).buf d).cfe_ctl_q.q_start)
          i after d with ⟨er, s3⟩
      have h3 := hPd cfg
        (ctlQPeekLoop (s.modifyEntryBuf i d ctlQMoveLoop) i d
          (((s.modifyEntryBuf i d ctlQMoveLoop).cfi_entries i).buf d).cfe_ctl_q.q_mq
          (((s.modifyEntryBuf i d ctlQMoveLoop).cfi_entries i).buf d).cfe_ctl_q.q_start)
        i after d hlen
      rw [hp] at h3
      have h123 := ((cascadeOut_moveLoop s i d).zeroThen
        (cascadeOut_peekLoop (s.modifyEntryBuf i d ctlQMoveLoop) i d
          (((s.modifyEntryBuf i d ctlQMoveLoop).cfi_entries i).buf d).cfe_ctl_q.q_mq
          (((s.modifyEntryBuf i d ctlQMoveLoop).cfi_entries i).buf d).cfe_ctl_q.q_start)).zeroThen
        h3
      simp only [hp]
      split_ifs <;>
        first
          | exact h123
          | exact h123.zeroThen (cascadeOut_dispatch_disconnect s3 i true d)
          | exact h123.zeroThen (cascadeOut_dispatch_disconnect s3 i false d)
    have hSq : ∀ cfg s (i : Fin 8) after (d : Bool), after.length = n →
        CascadeOut d 0 s (cfil_data_service_ctl_q cfg s i after d).2 := by
      intro cfg s i after d hlen
      simp only [cfil_data_service_ctl_q]
      rcases ha : cfil_dispatch_attach_event s i with ⟨er, s1⟩
      have hat := cascadeOut_dispatch_attach s i d
      rw [ha] at hat
      simp only [ha]
      split_ifs <;>
        first
          | exact CascadeOut.reflOut d s
          | exact hat
          | exact hat.zeroThen (hMn cfg s1 i after d hlen)
          | exact hMn cfg s i after d hlen
    have hFl : ∀ cfg s (i : Fin 8) after (d : Bool) data, after.length = n →
        cfil_data_filter cfg s i after d data = (0, s) ∨
        ((cfil_data_filter cfg s i after d data).1 = EJUSTRETURN ∧
         CascadeOut d data.len s (cfil_data_filter cfg s i after d data).2) := by
      intro cfg s i after d data hlen
      simp only [cfil_data_filter]
      split_ifs with h <;>
        first
          | exact Or.inl rfl
          | exact Or.inr ⟨rfl, (cascadeOut_ctl_enqueue s i d data).thenZero
              (hSq cfg _ i after d hlen)⟩
    exact ⟨hSq, hMn, hPd, hWk, hLp, hCh, hFl⟩

/-- `cfil_data_service_ctl_q` is a cascade call placing no new bytes. -/
theorem cascadeOut_service_ctl_q (cfg : Config) (s : CfilState) (i : Fin 8)
    (after : List (Fin 8)) (d : Bool) :
    CascadeOut d 0 s (cfil_data_service_ctl_q cfg s i after d).2 :=
  (cascade_master after.length).1 cfg s i after d rfl

/-- `cfil_service_pending_queue` is a cascade call placing no new bytes. -/
theorem cascadeOut_service_pending_queue (cfg : Config) (s : CfilState) (i : Fin 8)
    (after : List (Fin 8)) (d : Bool) :
    CascadeOut d 0 s (cfil_service_pending_queue cfg s i after d).2 :=
  (cascade_master after.length).2.2.1 cfg s i after d rfl

/-- `cfil_data_filter` either skips an unattached entry (state unchanged,
error 0) or claims the span: `EJUSTRETURN` and exactly the span's bytes
placed into the direction's queues. -/
theorem dataFilter_cases (cfg : Config) (s : CfilState) (i : Fin 8)
    (after : List (Fin 8)) (d : Bool) (data : Span) :
    cfil_data_filter cfg s i after d data = (0, s) ∨
    ((cfil_data_filter cfg s i after d data).1 = EJUSTRETURN ∧
     CascadeOut d data.len s (cfil_data_filter cfg s i after d data).2) :=
  (cascade_master after.length).2.2.2.2.2.2 cfg s i after d data rfl

/-- Witness for C9: the counterexample flow (one attached entry, blanket
pass at 100, cursors at 0) accepting a 10-byte span satisfies the
fast-path hypotheses and returns success. -/
theorem C9_fast_path_witness :
    (cfil_data_common
      { needDgramTracking := false, gc_mbuf_num_max := 0, gc_mbuf_cnt_max := 0,
        ordered := [0] }
      (((initState
        { needDgramTracking := false, gc_mbuf_num_max := 0, gc_mbuf_cnt_max := 0,
          ordered := [0] } []).modifyEntryBuf 0 true
        (fun b => { b with cfe_pass_offset := 100, cfe_peek_offset := 100,
                           cfe_peeked := 100 })).modifyDirBuf true
        (fun cb => { cb with cfi_pass_offset := 100 }))
      true ⟨10, 1, 1⟩).1 = 0 :=
  (C9_fast_path _ _ _ _ (by decide) (by decide) (by decide) (by decide)).1

/-!
## C2: verdict-offset monotonicity
-/

/-- One verdict application never lowers either offset and preserves
peek-dominates-pass. -/
theorem applyVerdictOffsets_mono (b : CfeBuf) (po pk : Nat) :
    b.cfe_pass_offset ≤ (applyVerdictOffsets b po pk).1.cfe_pass_offset ∧
    b.cfe_peek_offset ≤ (applyVerdictOffsets b po pk).1.cfe_peek_offset ∧
    (b.cfe_pass_offset ≤ b.cfe_peek_offset →
      (applyVerdictOffsets b po pk).1.cfe_pass_offset ≤
        (applyVerdictOffsets b po pk).1.cfe_peek_offset) := by
  unfold applyVerdictOffsets
  dsimp only
  split_ifs <;> refine ⟨?_, ?_, fun h => ?_⟩ <;> simp_all <;> omega

theorem ppLe_refl (s : CfilState) (j : Fin 8) (d : Bool) : ppLe s s j d :=
  ⟨le_refl _, le_refl _, id⟩

theorem ppLe_trans {s t u : CfilState} {j : Fin 8} {d : Bool}
    (h1 : ppLe s t j d) (h2 : ppLe t u j d) : ppLe s u j d :=
  ⟨h1.1.trans h2.1, h1.2.1.trans h2.2.1, fun h => h2.2.2 (h1.2.2 h)⟩

theorem ppLe_of_eq {s t : CfilState} {j : Fin 8} {d : Bool}
    (h : entryPP t j d = entryPP s j d) : ppLe s t j d := by
  unfold ppLe
  rw [h]
  exact ⟨le_refl _, le_refl _, id⟩

theorem entryPP_updateDataOffsetsDone (s : CfilState) (i : Fin 8) (e : Int)
    (j : Fin 8) (d : Bool) :
    entryPP (updateDataOffsetsDone s i e).2 j d = entryPP s j d := by
  have h := (updateDataOffsetsDone_frame s i e).1 j
  cases d <;> simp [entryPP, CfilEntry.buf, h.1, h.2]

theorem entryPP_modifyEntryBuf_other {s : CfilState} {i : Fin 8} {d : Bool}
    (f : CfeBuf → CfeBuf) {j : Fin 8} {d' : Bool} (h : ¬ (j = i ∧ d' = d)) :
    entryPP (s.modifyEntryBuf i d f) j d' = entryPP s j d' := by
  by_cases hj : j = i
  · have hd : d' ≠ d := fun hd => h ⟨hj, hd⟩
    rw [hj]
    simp [entryPP, buf_setBuf_other _ _ _ _ (Ne.symm hd)]
  · simp [entryPP, hj]

theorem ppLe_update_data_offsets (cfg : Config) (s : CfilState) (i : Fin 8)
    (d : Bool) (po pk : Nat) (j : Fin 8) (d' : Bool) :
    ppLe s (cfil_update_data_offsets cfg s i d po pk).2 j d' := by
  unfold cfil_update_data_offsets
  by_cases hdrop : s.cfi_drop = true
  · simp only [hdrop, if_true, ite_true]
    exact ppLe_refl s j d'
  · rcases hv : applyVerdictOffsets ((s.cfi_entries i).buf d) po pk with ⟨b2, u⟩
    have hm := applyVerdictOffsets_mono ((s.cfi_entries i).buf d) po pk
    rw [hv] at hm
    have hstep : ppLe s (s.modifyEntryBuf i d fun _ => b2) j d' := by
      by_cases hji : j = i ∧ d' = d
      · obtain ⟨hj, hd⟩ := hji
        rw [hj, hd]
        refine ⟨?_, ?_, fun h => ?_⟩ <;> simp only [entryPP, entries_modifyEntryBuf_same, buf_setBuf_same]
        · exact hm.1
        · exact hm.2.1
        · exact hm.2.2 (by simpa [entryPP] using h)
      · exact ppLe_of_eq (entryPP_modifyEntryBuf_other _ hji)
    simp only [hdrop, Bool.false_eq_true, if_false, ite_false, hv]
    by_cases hu : u = true
    · have hcond : ¬ (¬ u = true) := by simp [hu]
      rw [if_neg hcond]
      rcases hsvc : cfil_data_service_ctl_q cfg (s.modifyEntryBuf i d fun _ => b2) i
          (chainAfter cfg.ordered i) d with ⟨er, ss⟩
      have hframe := (cascadeOut_service_ctl_q cfg (s.modifyEntryBuf i d fun _ => b2) i
        (chainAfter cfg.ordered i) d).1.1 j d'
      rw [hsvc] at hframe
      simp only [hsvc]
      split_ifs
      · exact ppLe_trans hstep (ppLe_trans (ppLe_of_eq hframe)
          (ppLe_of_eq (entryPP_updateDataOffsetsDone ss i er j d')))
      · exact ppLe_trans hstep (ppLe_trans (ppLe_of_eq hframe)
          (ppLe_of_eq (entryPP_updateDataOffsetsDone ss i EJUSTRETURN j d')))
    · rw [if_pos hu]
      exact ppLe_trans hstep
        (ppLe_of_eq (entryPP_updateDataOffsetsDone (s.modifyEntryBuf i d fun _ => b2) i 0 j d'))

theorem ppLe_applyVerdicts (cfg : Config) (s : CfilState)
    (vs : List (Fin 8 × Bool × Nat × Nat)) (j : Fin 8) (d : Bool) :
    ppLe s (applyVerdicts cfg s vs) j d := by
  induction vs generalizing s with
  | nil => exact ppLe_refl s j d
  | cons v rest ih =>
    exact ppLe_trans (ppLe_update_data_offsets cfg s v.1 v.2.1 v.2.2.1 v.2.2.2 j d)
      (ih _)

/-- **C2** (confirmed).  Along any sequence of `DATA_UPDATE` verdicts, one
entry direction's `(pass_offset, peek_offset)` pair is componentwise
non-decreasing between any two prefixes of the sequence, and when the peek
offset dominated the pass offset initially it still does after every
prefix: a verdict that would decrease an offset leaves it unchanged. -/
theorem C2_offset_monotonic (cfg : Config) (s : CfilState)
    (vs : List (Fin 8 × Bool × Nat × Nat)) (j : Fin 8) (d : Bool)
    (k1 k2 : Nat) (hk : k1 ≤ k2)
    (h0 : (entryPP s j d).1 ≤ (entryPP s j d).2) :
    (entryPP (applyVerdicts cfg s (vs.take k1)) j d).1 ≤
      (entryPP (applyVerdicts cfg s (vs.take k2)) j d).1 ∧
    (entryPP (applyVerdicts cfg s (vs.take k1)) j d).2 ≤
      (entryPP (applyVerdicts cfg s (vs.take k2)) j d).2 ∧
    (entryPP (applyVerdicts cfg s (vs.take k2)) j d).1 ≤
      (entryPP (applyVerdicts cfg s (vs.take k2)) j d).2 := by
  have hsplit : vs.take k2 = vs.take k1 ++ (vs.drop k1).take (k2 - k1) := by
    conv_lhs => rw [show k2 = k1 + (k2 - k1) by omega]
    exact List.take_add vs k1 (k2 - k1)
  have happ : applyVerdicts cfg s (vs.take k2) =
      applyVerdicts cfg (applyVerdicts cfg s (vs.take k1))
        ((vs.drop k1).take (k2 - k1)) := by
    rw [hsplit]
    unfold applyVerdicts
    rw [List.foldl_append]
  have h1 := ppLe_applyVerdicts cfg s (vs.take k1) j d
  have h2 := ppLe_applyVerdicts cfg (applyVerdicts cfg s (vs.take k1))
    ((vs.drop k1).take (k2 - k1)) j d
  rw [← happ] at h2
  exact ⟨h2.1, h2.2.1, (ppLe_trans h1 h2).2.2 h0⟩

/-- Witness for C2: two verdicts `(5, 9)` then `(3, 4)` on a fresh flow;
between the first and second prefix the offsets only grow and the peek
offset stays at or above the pass offset. -/
theorem C2_offset_monotonic_witness :
    let cfg : Config :=
      { needDgramTracking := false, gc_mbuf_num_max := 0, gc_mbuf_cnt_max := 0,
        ordered := [0] }
    let vs : List (Fin 8 × Bool × Nat × Nat) := [(0, true, 5, 9), (0, true, 3, 4)]
    (entryPP (applyVerdicts cfg (initState cfg []) (vs.take 1)) 0 true).1 ≤
      (entryPP (applyVerdicts cfg (initState cfg []) (vs.take 2)) 0 true).1 ∧
    (entryPP (applyVerdicts cfg (initState cfg []) (vs.take 1)) 0 true).2 ≤
      (entryPP (applyVerdicts cfg (initState cfg []) (vs.take 2)) 0 true).2 ∧
    (entryPP (applyVerdicts cfg (initState cfg []) (vs.take 2)) 0 true).1 ≤
      (entryPP (applyVerdicts cfg (initState cfg []) (vs.take 2)) 0 true).2 := by
  intro cfg vs
  exact C2_offset_monotonic cfg (initState cfg []) vs 0 true 1 2 (by decide) (by decide)

/-!
## C4: the drop verdict is terminal
-/

theorem filters_attached_congr {s t : CfilState}
    (h : ∀ j, (t.cfi_entries j).cfe_filter = (s.cfi_entries j).cfe_filter ∧
      (t.cfi_entries j).cfe_sent_sock_attached = (s.cfi_entries j).cfe_sent_sock_attached ∧
      (t.cfi_entries j).cfe_detached = (s.cfi_entries j).cfe_detached) :
    cfil_filters_attached t = cfil_filters_attached s := by
  unfold cfil_filters_attached
  congr 1
  funext j
  simp [(h j).1, (h j).2.1, (h j).2.2]

theorem flush_flags (s : CfilState) (j : Fin 8) :
    ((cfil_flush_queues s).cfi_entries j).cfe_filter = (s.cfi_entries j).cfe_filter ∧
    ((cfil_flush_queues s).cfi_entries j).cfe_sent_sock_attached =
      (s.cfi_entries j).cfe_sent_sock_attached ∧
    ((cfil_flush_queues s).cfi_entries j).cfe_detached = (s.cfi_entries j).cfe_detached := by
  unfold cfil_flush_queues
  exact ⟨rfl, rfl, rfl⟩

theorem flush_empties (s : CfilState) :
    (∀ j d, cfil_queue_empty (((cfil_flush_queues s).cfi_entries j).buf d).cfe_ctl_q = true ∧
            cfil_queue_empty (((cfil_flush_queues s).cfi_entries j).buf d).cfe_pending_q = true) ∧
    (∀ d, cfil_queue_empty ((cfil_flush_queues s).dirBuf d).cfi_inject_q = true) := by
  constructor
  · intro j d
    cases d <;>
      exact ⟨rfl, rfl⟩
  · intro d
    cases d <;> rfl

theorem submit_dropped (cfg : Config) (s : CfilState) (d : Bool) (data : Span)
    (h : s.cfi_drop = true) :
    cfil_data_common cfg s d data = (EPIPE, s) := by
  unfold cfil_data_common
  rw [if_pos h]

theorem ctl_rcvd_cfi_drop (cfg : Config) (s : CfilState) (i : Fin 8) :
    (cfil_ctl_rcvd cfg s i).cfi_drop = s.cfi_drop := by
  unfold cfil_ctl_rcvd
  dsimp only
  split_ifs <;> rw [ctlRcvdFindLoop_eq_none] <;> rfl

theorem applyStep_drop (cfg : Config) (s : CfilState) (st : CfilStep)
    (h : s.cfi_drop = true) : (applyStep cfg s st).cfi_drop = true := by
  cases st with
  | submit d data =>
    show (cfil_data_common cfg s d data).2.cfi_drop = true
    rw [submit_dropped cfg s d data h]
    exact h
  | dataPass i d po pk =>
    show (match verdictPrelude s i with
      | none => s
      | some s => (cfil_action_data_pass cfg s i d po pk).2).cfi_drop = true
    unfold verdictPrelude
    rw [if_pos h]
    exact h
  | serviceCtl i d =>
    show (if (s.cfi_entries i).cfe_filter then
        (cfil_data_service_ctl_q cfg s i (chainAfter cfg.ordered i) d).2
      else s).cfi_drop = true
    split_ifs
    · rw [(cascadeOut_service_ctl_q cfg s i (chainAfter cfg.ordered i) d).1.2.2.2.2.1]
      exact h
    · exact h
  | drop i =>
    show (match verdictPrelude s i with
      | none => s
      | some s => (cfil_action_drop cfg s i).2).cfi_drop = true
    unfold verdictPrelude
    rw [if_pos h]
    exact h
  | ctlRcvd i =>
    show (cfil_ctl_rcvd cfg s i).cfi_drop = true
    rw [ctl_rcvd_cfi_drop]
    exact h

theorem runSteps_drop (cfg : Config) (steps : List CfilStep) (s : CfilState)
    (h : s.cfi_drop = true) : (runSteps cfg s steps).cfi_drop = true := by
  induction steps generalizing s with
  | nil => exact h
  | cons st rest ih => exact ih _ (applyStep_drop cfg s st h)

theorem wakeup_frame (s : CfilState) :
    (wakeupIfNoneAttached s).cfi_entries = s.cfi_entries ∧
    (wakeupIfNoneAttached s).cfi_snd = s.cfi_snd ∧
    (wakeupIfNoneAttached s).cfi_rcv = s.cfi_rcv ∧
    (wakeupIfNoneAttached s).cfi_drop = s.cfi_drop := by
  unfold wakeupIfNoneAttached
  split_ifs <;> exact ⟨rfl, rfl, rfl, rfl⟩

theorem wakeup_count_eq (s : CfilState) :
    (wakeupIfNoneAttached s).wakeup_count =
      if s.cfi_close_wait ∧ ¬ cfil_filters_attached s then s.wakeup_count + 1
      else s.wakeup_count := by
  unfold wakeupIfNoneAttached
  split_ifs <;> rfl

theorem filters_attached_entries_congr {s t : CfilState}
    (h : t.cfi_entries = s.cfi_entries) :
    cfil_filters_attached t = cfil_filters_attached s := by
  unfold cfil_filters_attached
  rw [h]

theorem popOracle_frame (s : CfilState) :
    (popOracle s).2.cfi_entries = s.cfi_entries ∧
    (popOracle s).2.cfi_close_wait = s.cfi_close_wait ∧
    (popOracle s).2.wakeup_count = s.wakeup_count ∧
    (popOracle s).2.cfi_drop = s.cfi_drop := by
  unfold popOracle
  rcases ho : s.oracle with _ | ⟨e, rest⟩ <;> exact ⟨rfl, rfl, rfl, rfl⟩

theorem drop_tail (s0 s : CfilState) (i : Fin 8)
    (hent : s0.cfi_entries = s.cfi_entries)
    (hcw : s0.cfi_close_wait = s.cfi_close_wait)
    (hwc : s0.wakeup_count = s.wakeup_count)
    (hdrop : s0.cfi_drop = true) :
    (wakeupIfNoneAttached (cfil_flush_queues
      (s0.setEntry i { s0.cfi_entries i with cfe_detached := true }))).cfi_drop = true ∧
    (∀ j d,
      cfil_queue_empty (((wakeupIfNoneAttached (cfil_flush_queues
        (s0.setEntry i { s0.cfi_entries i with cfe_detached := true }))).cfi_entries j).buf d).cfe_ctl_q = true ∧
      cfil_queue_empty (((wakeupIfNoneAttached (cfil_flush_queues
        (s0.setEntry i { s0.cfi_entries i with cfe_detached := true }))).cfi_entries j).buf d).cfe_pending_q = true) ∧
    (∀ d, cfil_queue_empty ((wakeupIfNoneAttached (cfil_flush_queues
      (s0.setEntry i { s0.cfi_entries i with cfe_detached := true }))).dirBuf d).cfi_inject_q = true) ∧
    ((wakeupIfNoneAttached (cfil_flush_queues
      (s0.setEntry i { s0.cfi_entries i with cfe_detached := true }))).cfi_entries i).cfe_detached = true ∧
    (wakeupIfNoneAttached (cfil_flush_queues
      (s0.setEntry i { s0.cfi_entries i with cfe_detached := true }))).wakeup_count =
      (if s.cfi_close_wait ∧
          ¬ cfil_filters_attached
              (s.setEntry i { s.cfi_entries i with cfe_detached := true })
       then s.wakeup_count + 1 else s.wakeup_count) := by
  have hset : (s0.setEntry i { s0.cfi_entries i with cfe_detached := true }).cfi_entries =
      (s.setEntry i { s.cfi_entries i with cfe_detached := true }).cfi_entries := by
    simp [CfilState.setEntry, hent]
  have hw := wakeup_frame (cfil_flush_queues
    (s0.setEntry i { s0.cfi_entries i with cfe_detached := true }))
  refine ⟨?_, ?_, ?_, ?_, ?_⟩
  · rw [hw.2.2.2]
    exact hdrop
  · intro j d
    rw [hw.1]
    exact (flush_empties _).1 j d
  · intro d
    have hq := (flush_empties
      (s0.setEntry i { s0.cfi_entries i with cfe_detached := true })).2 d
    cases d
    · rw [show (wakeupIfNoneAttached (cfil_flush_queues
        (s0.setEntry i { s0.cfi_entries i with cfe_detached := true }))).dirBuf false =
        (wakeupIfNoneAttached (cfil_flush_queues
          (s0.setEntry i { s0.cfi_entries i with cfe_detached := true }))).cfi_rcv from rfl,
        hw.2.2.1]
      exact hq
    · rw [show (wakeupIfNoneAttached (cfil_flush_queues
        (s0.setEntry i { s0.cfi_entries i with cfe_detached := true }))).dirBuf true =
        (wakeupIfNoneAttached (cfil_flush_queues
          (s0.setEntry i { s0.cfi_entries i with cfe_detached := true }))).cfi_snd from rfl,
        hw.2.1]
      exact hq
  · rw [hw.1]
    have := (flush_flags (s0.setEntry i { s0.cfi_entries i with cfe_detached := true }) i).2.2
    rw [this]
    simp [CfilState.setEntry]
  · rw [wakeup_count_eq]
    have hfa : cfil_filters_attached (cfil_flush_queues
        (s0.setEntry i { s0.cfi_entries i with cfe_detached := true })) =
        cfil_filters_attached
          (s.setEntry i { s.cfi_entries i with cfe_detached := true }) := by
      rw [filters_attached_congr (fun j => flush_flags _ j)]
      exact filters_attached_entries_congr hset
    rw [hfa]
    have hcw2 : (cfil_flush_queues
        (s0.setEntry i { s0.cfi_entries i with cfe_detached := true })).cfi_close_wait =
        s.cfi_close_wait := hcw
    have hwc2 : (cfil_flush_queues
        (s0.setEntry i { s0.cfi_entries i with cfe_detached := true })).wakeup_count =
        s.wakeup_count := hwc
    rw [hcw2, hwc2]

/-- **C4** (corrected: the close-wait wakeup is conditional).  A drop
verdict from an attached entry is terminal: the flow's drop flag is
latched, every control, pending, and inject queue of the flow (both
directions) is drained to empty, the entry is marked detached, and
close-wait waiters are woken exactly when no other live attached entry
remains; the drop flag survives every subsequent operation, and every
subsequent submit on the flow returns `EPIPE` without touching the
state. -/
theorem C4_drop_terminal (cfg : Config) (s : CfilState) (i : Fin 8)
    (hatt : (s.cfi_entries i).cfe_filter = true) :
    (cfil_action_drop cfg s i).2.cfi_drop = true ∧
    (∀ j d,
      cfil_queue_empty (((cfil_action_drop cfg s i).2.cfi_entries j).buf d).cfe_ctl_q = true ∧
      cfil_queue_empty (((cfil_action_drop cfg s i).2.cfi_entries j).buf d).cfe_pending_q = true) ∧
    (∀ d, cfil_queue_empty ((cfil_action_drop cfg s i).2.dirBuf d).cfi_inject_q = true) ∧
    ((cfil_action_drop cfg s i).2.cfi_entries i).cfe_detached = true ∧
    ((cfil_action_drop cfg s i).2.wakeup_count =
      if s.cfi_close_wait ∧
         ¬ cfil_filters_attached
             (s.setEntry i { s.cfi_entries i with cfe_detached := true })
      then s.wakeup_count + 1 else s.wakeup_count) ∧
    (∀ steps, (runSteps cfg (cfil_action_drop cfg s i).2 steps).cfi_drop = true ∧
      ∀ d data,
        cfil_data_common cfg (runSteps cfg (cfil_action_drop cfg s i).2 steps) d data =
          (EPIPE, runSteps cfg (cfil_action_drop cfg s i).2 steps)) := by
  unfold cfil_action_drop
  rw [if_neg (by simp [hatt])]
  dsimp only
  by_cases hdg : cfg.needDgramTracking = true
  · have hc : ¬ (¬ cfg.needDgramTracking = true) := by simp [hdg]
    rw [if_neg hc]
    obtain ⟨p1, p2, p3, p4, p5⟩ := drop_tail { s with cfi_drop := true } s i rfl rfl rfl rfl
    refine ⟨p1, p2, p3, p4, p5, ?_⟩
    intro steps
    have hd := runSteps_drop cfg steps _ p1
    exact ⟨hd, fun d data => submit_dropped cfg _ d data hd⟩
  · rw [if_pos (by simp [hdg])]
    rcases hpop : popOracle { s with cfi_drop := true } with ⟨e, sp⟩
    have hfr := popOracle_frame { s with cfi_drop := true }
    rw [hpop] at hfr
    simp only [hpop]
    by_cases he : e = 0
    · rw [if_pos he]
      obtain ⟨p1, p2, p3, p4, p5⟩ := drop_tail { sp with so_defunct := true } s i
        (hfr.1.trans rfl) (hfr.2.1.trans rfl) (hfr.2.2.1.trans rfl) (hfr.2.2.2.trans rfl)
      refine ⟨p1, p2, p3, p4, p5, ?_⟩
      intro steps
      have hd := runSteps_drop cfg steps _ p1
      exact ⟨hd, fun d data => submit_dropped cfg _ d data hd⟩
    · rw [if_neg he]
      obtain ⟨p1, p2, p3, p4, p5⟩ := drop_tail sp s i
        (hfr.1.trans rfl) (hfr.2.1.trans rfl) (hfr.2.2.1.trans rfl) (hfr.2.2.2.trans rfl)
      refine ⟨p1, p2, p3, p4, p5, ?_⟩
      intro steps
      have hd := runSteps_drop cfg steps _ p1
      exact ⟨hd, fun d data => submit_dropped cfg _ d data hd⟩

/-- Counterexample to C4 as stated: with a second live attached entry, the
close-wait waiter is **not** woken by the drop.  Flow in close-wait with
entries 0 and 1 attached and entry 1 already introduced to its filter:
dropping from entry 0 leaves `wakeup_count` at zero. -/
theorem C4_drop_terminal_counterexample :
    let cfg : Config :=
      { needDgramTracking := false, gc_mbuf_num_max := 0, gc_mbuf_cnt_max := 0,
        ordered := [0, 1] }
    let s0 := ({ initState cfg [] with cfi_close_wait := true }).setEntry 1
      { (initState cfg []).cfi_entries 1 with cfe_sent_sock_attached := true }
    s0.cfi_close_wait = true ∧ (s0.cfi_entries 0).cfe_filter = true ∧
    (cfil_action_drop cfg s0 0).2.wakeup_count = s0.wakeup_count := by
  intro cfg s0
  exact ⟨rfl, by decide, by decide⟩

/-- Witness for C4: dropping from the single attached entry of a fresh
flow latches the drop flag. -/
theorem C4_drop_terminal_witness :
    (cfil_action_drop
      { needDgramTracking := false, gc_mbuf_num_max := 0, gc_mbuf_cnt_max := 0,
        ordered := [0] }
      (initState
        { needDgramTracking := false, gc_mbuf_num_max := 0, gc_mbuf_cnt_max := 0,
          ordered := [0] } []) 0).2.cfi_drop = true :=
  (C4_drop_terminal
    { needDgramTracking := false, gc_mbuf_num_max := 0, gc_mbuf_cnt_max := 0,
      ordered := [0] }
    (initState
      { needDgramTracking := false, gc_mbuf_num_max := 0, gc_mbuf_cnt_max := 0,
        ordered := [0] } []) 0 (by decide)).1

/-!
## Locality: the service nest never touches entries outside its chain
-/

theorem dispatch_data_entries_other (s : CfilState) (i j : Fin 8) (hj : j ≠ i) :
    ((cfil_dispatch_data_event s i).2.cfi_entries j) = s.cfi_entries j := by
  have hp := congrFun (popOracle_frame s).1 j
  unfold cfil_dispatch_data_event
  split_ifs <;>
    simp [CfilState.setEntryFlowControlled, CfilState.setCfFlowControlled,
      CfilState.setEntry, Function.update_apply, hj, hp]

theorem dispatch_attach_entries_other (s : CfilState) (i j : Fin 8) (hj : j ≠ i) :
    ((cfil_dispatch_attach_event s i).2.cfi_entries j) = s.cfi_entries j := by
  have hp := congrFun (popOracle_frame s).1 j
  unfold cfil_dispatch_attach_event
  split_ifs <;>
    simp [CfilState.setEntryFlowControlled, CfilState.setCfFlowControlled,
      CfilState.setEntry, Function.update_apply, hj, hp]

theorem dispatch_disconnect_entries_other (s : CfilState) (i : Fin 8) (dd : Bool)
    (j : Fin 8) (hj : j ≠ i) :
    ((cfil_dispatch_disconnect_event s i dd).2.cfi_entries j) = s.cfi_entries j := by
  have hp := congrFun (popOracle_frame s).1 j
  unfold cfil_dispatch_disconnect_event
  split_ifs <;>
    simp [CfilState.setEntryFlowControlled, CfilState.setCfFlowControlled,
      CfilState.setEntry, Function.update_apply, hj, hp]

theorem peekLoop_entries_other (s : CfilState) (i : Fin 8) (d : Bool)
    (spans : List Span) (off : Nat) (j : Fin 8) (hj : j ≠ i) :
    ((ctlQPeekLoop s i d spans off).cfi_entries j) = s.cfi_entries j := by
  induction spans generalizing s off with
  | nil => rfl
  | cons data rest ih =>
    rw [ctlQPeekLoop]
    rcases hde : cfil_dispatch_data_event s i with ⟨err, s1⟩
    have hd1 := dispatch_data_entries_other s i j hj
    rw [hde] at hd1
    simp only [hde]
    split_ifs <;>
      first
        | rfl
        | exact ih s _
        | exact hd1
        | exact (entries_modifyEntryBuf_other s1 i j _ _ hj).trans hd1
        | exact ((ih _ _).trans (entries_modifyEntryBuf_other s1 i j _ _ hj)).trans hd1

theorem locality_master (n : Nat) :
    (∀ cfg s (i : Fin 8) after (d : Bool) (j : Fin 8), after.length = n → j ≠ i →
        j ∉ after →
        (cfil_data_service_ctl_q cfg s i after d).2.cfi_entries j = s.cfi_entries j) ∧
    (∀ cfg s (i : Fin 8) after (d : Bool) (j : Fin 8), after.length = n → j ≠ i →
        j ∉ after →
        (serviceCtlQMain cfg s i after d).2.cfi_entries j = s.cfi_entries j) ∧
    (∀ cfg s (i : Fin 8) after (d : Bool) (j : Fin 8), after.length = n → j ≠ i →
        j ∉ after →
        (cfil_service_pending_queue cfg s i after d).2.cfi_entries j = s.cfi_entries j) ∧
    (∀ cfg s after (d : Bool) (j : Fin 8), after.length = n → j ∉ after →
        (pendingEmptyWalk cfg s after d).2.cfi_entries j = s.cfi_entries j) ∧
    (∀ cfg s (i : Fin 8) after (d : Bool) (passlen curlen : Nat) (err : Int)
        (fuel : Nat) (j : Fin 8), after.length = n → j ≠ i → j ∉ after →
        (pendingServiceLoop cfg s i after d passlen curlen err fuel).2.cfi_entries j =
          s.cfi_entries j) ∧
    (∀ cfg s after (d : Bool) data (j : Fin 8), after.length = n → j ∉ after →
        (dataFilterChain cfg s after d data).2.cfi_entries j = s.cfi_entries j) ∧
    (∀ cfg s (i : Fin 8) after (d : Bool) data (j : Fin 8), after.length = n →
        j ≠ i → j ∉ after →
        (cfil_data_filter cfg s i after d data).2.cfi_entries j = s.cfi_entries j) := by
  induction n using Nat.strong_induction_on with
  | _ n ih =>
    have hWk : ∀ cfg s after (d : Bool) (j : Fin 8), after.length = n → j ∉ after →
        (pendingEmptyWalk cfg s after d).2.cfi_entries j = s.cfi_entries j := by
      intro cfg s after d j hlen hj
      cases after with
      | nil =>
        rw [pendingEmptyWalk]
      | cons a rest =>
        have hlt : rest.length < n := by simp at hlen; omega
        have hja : j ≠ a := fun h => hj (h ▸ List.mem_cons_self a rest)
        have hjr : j ∉ rest := fun h => hj (List.mem_cons_of_mem a h)
        rcases hsq : cfil_data_service_ctl_q cfg s a rest d with ⟨er, s1⟩
        have h1 := (ih rest.length hlt).1 cfg s a rest d j rfl hja hjr
        rw [hsq] at h1
        rw [pendingEmptyWalk]
        simp only [hsq]
        split_ifs
        · exact h1
        · exact ((ih rest.length hlt).2.2.2.1 cfg s1 rest d j rfl hjr).trans h1
    have hCh : ∀ cfg s after (d : Bool) data (j : Fin 8), after.length = n →
        j ∉ after →
        (dataFilterChain cfg s after d data).2.cfi_entries j = s.cfi_entries j := by
      intro cfg s after d data j hlen hj
      cases after with
      | nil =>
        rw [dataFilterChain]
      | cons a rest =>
        have hlt : rest.length < n := by simp at hlen; omega
        have hja : j ≠ a := fun h => hj (h ▸ List.mem_cons_self a rest)
        have hjr : j ∉ rest := fun h => hj (List.mem_cons_of_mem a h)
        rcases hf : cfil_data_filter cfg s a rest d data with ⟨er, s1⟩
        have h1 := (ih rest.length hlt).2.2.2.2.2.2 cfg s a rest d data j rfl hja hjr
        rw [hf] at h1
        rw [dataFilterChain]
        simp only [hf]
        split_ifs
        · exact h1
        · exact ((ih rest.length hlt).2.2.2.2.2.1 cfg s1 rest d data j rfl hjr).trans h1
    have hLp : ∀ cfg s (i : Fin 8) after (d : Bool) (passlen curlen : Nat)
        (err : Int) (fuel : Nat) (j : Fin 8), after.length = n → j ≠ i → j ∉ after →
        (pendingServiceLoop cfg s i after d passlen curlen err fuel).2.cfi_entries j =
          s.cfi_entries j := by
      intro cfg s i after d passlen curlen err fuel j hlen hji hja
      induction fuel generalizing s curlen err with
      | zero =>
        rw [pendingServiceLoop]
      | succ fuel ihf =>
        rw [pendingServiceLoop]
        cases hmq : ((s.cfi_entries i).buf d).cfe_pending_q.q_mq.head? with
        | none => simp only [hmq]
        | some data =>
          simp only [hmq]
          by_cases hcl : curlen + data.len > passlen
          · simp only [if_pos hcl]
          · simp only [if_neg hcl]
            rcases hch : dataFilterChain cfg
                (s.modifyEntryBuf i d (fun b =>
                  { b with cfe_pending_q :=
                      cfil_queue_remove_head b.cfe_pending_q data.len }))
                after d data with ⟨er2, s2⟩
            have hc := hCh cfg
              (s.modifyEntryBuf i d (fun b =>
                { b with cfe_pending_q :=
                    cfil_queue_remove_head b.cfe_pending_q data.len }))
              after d data j hlen hja
            rw [hch] at hc
            have hc2 : s2.cfi_entries j = s.cfi_entries j :=
              hc.trans (entries_modifyEntryBuf_other s i j _ _ hji)
            simp only [hch]
            by_cases he : er2 = 0
            · simp only [if_pos he]
              exact (ihf _ _ _).trans ((entries_modifyDirBuf s2 d _ ▸ hc2 : _))
            · simp only [if_neg he]
              exact (ihf _ _ _).trans hc2
    have hPd : ∀ cfg s (i : Fin 8) after (d : Bool) (j : Fin 8), after.length = n →
        j ≠ i → j ∉ after →
        (cfil_service_pending_queue cfg s i after d).2.cfi_entries j =
          s.cfi_entries j := by
      intro cfg s i after d j hlen hji hja
      simp only [cfil_service_pending_queue]
      split_ifs
      · exact hWk cfg s after d j hlen hja
      · exact hLp cfg s i after d _ 0 0 _ j hlen hji hja
    have hMn : ∀ cfg s (i : Fin 8) after (d : Bool) (j : Fin 8), after.length = n →
        j ≠ i → j ∉ after →
        (serviceCtlQMain cfg s i after d).2.cfi_entries j = s.cfi_entries j := by
      intro cfg s i after d j hlen hji hja
      simp only [serviceCtlQMain]
      rcases hp : cfil_service_pending_queue cfg
          (ctlQPeekLoop (s.modifyEntryBuf i d ctlQMoveLoop) i d
            (((s.modifyEntryBuf i d ctlQMoveLoop).cfi_entries i).buf d).cfe_ctl_q.q_mq
            (((s.modifyEntryBuf i d ctlQMoveLoop).cfi_entries i).buf d).cfe_ctl_q.q_start)
          i after d with ⟨er, s3⟩
      have h3 := hPd cfg
        (ctlQPeekLoop (s.modifyEntryBuf i d ctlQMoveLoop) i d
          (((s.modifyEntryBuf i d ctlQMoveLoop).cfi_entries i).buf d).cfe_ctl_q.q_mq
          (((s.modifyEntryBuf i d ctlQMoveLoop).cfi_entries i).buf d).cfe_ctl_q.q_start)
        i after d j hlen hji hja
      rw [hp] at h3
      have h123 := (h3.trans
        (peekLoop_entries_other (s.modifyEntryBuf i d ctlQMoveLoop) i d _ _ j hji)).trans
        (entries_modifyEntryBuf_other s i j _ _ hji)
      have hdis : ∀ t : CfilState, t.cfi_entries j = s.cfi_entries j →
          ∀ dd, (cfil_dispatch_disconnect_event t i dd).2.cfi_entries j =
            s.cfi_entries j :=
        fun t ht dd => (dispatch_disconnect_entries_other t i dd j hji).trans ht
      simp only [hp]
      split_ifs <;>
        first
          | exact h123
          | exact hdis s3 h123 true
          | exact hdis s3 h123 false
    have hSq : ∀ cfg s (i : Fin 8) after (d : Bool) (j : Fin 8), after.length = n →
        j ≠ i → j ∉ after →
        (cfil_data_service_ctl_q cfg s i after d).2.cfi_entries j =
          s.cfi_entries j := by
      intro cfg s i after d j hlen hji hja
      simp only [cfil_data_service_ctl_q]
      rcases ha : cfil_dispatch_attach_event s i with ⟨er, s1⟩
      have hat := dispatch_attach_entries_other s i j hji
      rw [ha] at hat
      simp only [ha]
      split_ifs <;>
        first
          | rfl
          | exact hat
          | exact (hMn cfg s1 i after d j hlen hji hja).trans hat
          | exact hMn cfg s i after d j hlen hji hja
    have hFl : ∀ cfg s (i : Fin 8) after (d : Bool) data (j : Fin 8),
        after.length = n → j ≠ i → j ∉ after →
        (cfil_data_filter cfg s i after d data).2.cfi_entries j =
          s.cfi_entries j := by
      intro cfg s i after d data j hlen hji hja
      simp only [cfil_data_filter]
      split_ifs <;>
        first
          | rfl
          | exact (hSq cfg _ i after d j hlen hji hja).trans
              (entries_modifyEntryBuf_other s i j _ _ hji)
    exact ⟨hSq, hMn, hPd, hWk, hLp, hCh, hFl⟩

/-!
## C8: spans are never split across a pass boundary
-/

theorem ctlQMoveGo_eq_of_none (fuel : Nat) (b : CfeBuf)
    (hmq : b.cfe_ctl_q.q_mq.head? = none) : ctlQMoveGo (fuel + 1) b = b := by
  rw [ctlQMoveGo]
  simp only [hmq]

theorem ctlQMoveGo_eq_of_nopass (fuel : Nat) (b : CfeBuf) (data : Span)
    (hmq : b.cfe_ctl_q.q_mq.head? = some data)
    (h1 : ¬ b.cfe_ctl_q.q_start < b.cfe_pass_offset) :
    ctlQMoveGo (fuel + 1) b = b := by
  rw [ctlQMoveGo]
  simp only [hmq, if_neg h1]

theorem ctlQMoveGo_shortPass (fuel : Nat) (b : CfeBuf) (data : Span)
    (hmq : b.cfe_ctl_q.q_mq.head? = some data)
    (h1 : b.cfe_ctl_q.q_start < b.cfe_pass_offset)
    (h2 : ¬ b.cfe_ctl_q.q_start + data.len ≤ b.cfe_pass_offset) :
    ctlQMoveGo (fuel + 1) b = { b with cfe_peeked :=
      if b.cfe_ctl_q.q_start + (b.cfe_pass_offset - b.cfe_ctl_q.q_start) > b.cfe_peeked
      then b.cfe_ctl_q.q_start + (b.cfe_pass_offset - b.cfe_ctl_q.q_start)
      else b.cfe_peeked } := by
  rw [ctlQMoveGo]
  simp only [hmq, if_pos h1, if_neg h2,
    if_pos (show b.cfe_pass_offset - b.cfe_ctl_q.q_start < data.len by omega)]
  split_ifs <;> rfl

theorem ctlQMoveGo_take_drop (fuel : Nat) (b : CfeBuf) :
    ∃ k,
      (ctlQMoveGo fuel b).cfe_ctl_q.q_mq = b.cfe_ctl_q.q_mq.drop k ∧
      (ctlQMoveGo fuel b).cfe_pending_q.q_mq =
        b.cfe_pending_q.q_mq ++ b.cfe_ctl_q.q_mq.take k ∧
      (ctlQMoveGo fuel b).cfe_ctl_q.q_start =
        b.cfe_ctl_q.q_start + ((b.cfe_ctl_q.q_mq.take k).map Span.len).sum ∧
      (k = 0 ∨ b.cfe_ctl_q.q_start +
        ((b.cfe_ctl_q.q_mq.take k).map Span.len).sum ≤ b.cfe_pass_offset) ∧
      (b.cfe_ctl_q.q_mq.length ≤ fuel → ∀ data,
        (ctlQMoveGo fuel b).cfe_ctl_q.q_mq.head? = some data →
        ¬ ((ctlQMoveGo fuel b).cfe_ctl_q.q_start < b.cfe_pass_offset ∧
           (ctlQMoveGo fuel b).cfe_ctl_q.q_start + data.len ≤ b.cfe_pass_offset)) := by
  induction fuel generalizing b with
  | zero =>
    rw [ctlQMoveGo]
    refine ⟨0, by simp, by simp, by simp, Or.inl rfl, ?_⟩
    intro hlen data hd
    rw [List.length_eq_zero.mp (Nat.le_zero.mp hlen)] at hd
    simp at hd
  | succ fuel ih =>
    cases hq : b.cfe_ctl_q.q_mq with
    | nil =>
      have hmq : b.cfe_ctl_q.q_mq.head? = none := by rw [hq]; rfl
      rw [ctlQMoveGo_eq_of_none fuel b hmq]
      refine ⟨0, by simp [hq], by simp [hq], by simp [hq], Or.inl rfl, ?_⟩
      intro hlen data hd
      rw [hmq] at hd
      exact absurd hd (by simp)
    | cons data tl =>
      have hmq : b.cfe_ctl_q.q_mq.head? = some data := by rw [hq]; rfl
      by_cases h1 : b.cfe_ctl_q.q_start < b.cfe_pass_offset
      · by_cases h2 : b.cfe_ctl_q.q_start + data.len ≤ b.cfe_pass_offset
        · rw [ctlQMoveGo_full_step fuel b data hmq h1 h2]
          have hrw : cfil_queue_remove_head b.cfe_ctl_q data.len =
              (⟨b.cfe_ctl_q.q_start + data.len, b.cfe_ctl_q.q_end, tl⟩ : CfilQueue) := by
            unfold cfil_queue_remove_head
            rw [hq]
            rfl
          have hrw2 : cfil_queue_enqueue b.cfe_pending_q data =
              (⟨b.cfe_pending_q.q_start, b.cfe_pending_q.q_end + data.len, b.cfe_pending_q.q_mq ++ [data]⟩ : CfilQueue) := by
            unfold cfil_queue_enqueue
            rfl
          rw [hrw, hrw2]
          obtain ⟨k, p1, p2, p3, p4, p5⟩ := ih { b with
            cfe_peeked := if b.cfe_ctl_q.q_start + data.len > b.cfe_peeked
              then b.cfe_ctl_q.q_start + data.len else b.cfe_peeked
            cfe_ctl_q := (⟨b.cfe_ctl_q.q_start + data.len, b.cfe_ctl_q.q_end, tl⟩ : CfilQueue)
            cfe_pending_q := (⟨b.cfe_pending_q.q_start, b.cfe_pending_q.q_end + data.len, b.cfe_pending_q.q_mq ++ [data]⟩ : CfilQueue) }
          refine ⟨k + 1, ?_, ?_, ?_, ?_, ?_⟩
          · rw [List.drop_succ_cons]
            exact p1
          · rw [List.take_succ_cons]
            rw [show b.cfe_pending_q.q_mq ++ data :: tl.take k =
              (b.cfe_pending_q.q_mq ++ [data]) ++ tl.take k by simp]
            exact p2
          · rw [List.take_succ_cons]
            simp only [List.map_cons, List.sum_cons]
            have := p3
            dsimp only at this
            omega
          · refine Or.inr ?_
            rw [List.take_succ_cons]
            simp only [List.map_cons, List.sum_cons]
            rcases p4 with p4 | p4
            · subst p4
              simpa using h2
            · dsimp only at p4
              omega
          · intro hlen data2 hd2
            have hlen2 : tl.length ≤ fuel := by
              simpa using hlen
            exact p5 hlen2 data2 hd2
        · rw [ctlQMoveGo_shortPass fuel b data hmq h1 h2]
          refine ⟨0, by simp [hq], by simp [hq], by simp [hq], Or.inl rfl, ?_⟩
          intro hlen data2 hd2
          have : data2 = data := by
            have h5 : b.cfe_ctl_q.q_mq.head? = some data2 := hd2
            rw [hmq] at h5
            injection h5 with h6
            exact h6.symm
          subst this
          intro hcon
          exact absurd hcon.2 h2
      · rw [ctlQMoveGo_eq_of_nopass fuel b data hmq h1]
        refine ⟨0, by simp [hq], by simp [hq], by simp [hq], Or.inl rfl, ?_⟩
        intro hlen data2 hd2
        intro hcon
        exact absurd hcon.1 h1

theorem entries_other_dataFilterChain (cfg : Config) (s : CfilState)
    (after : List (Fin 8)) (d : Bool) (data : Span) (j : Fin 8) (hj : j ∉ after) :
    (dataFilterChain cfg s after d data).2.cfi_entries j = s.cfi_entries j :=
  (locality_master after.length).2.2.2.2.2.1 cfg s after d data j rfl hj

theorem pendingServiceLoop_take_drop (cfg : Config) (s : CfilState) (i : Fin 8)
    (after : List (Fin 8)) (d : Bool) (passlen curlen : Nat) (err : Int)
    (fuel : Nat) (hni : i ∉ after) :
    ∃ k,
      (((pendingServiceLoop cfg s i after d passlen curlen err fuel).2.cfi_entries i).buf d).cfe_pending_q.q_mq =
        (((s.cfi_entries i).buf d).cfe_pending_q.q_mq).drop k ∧
      (k = 0 ∨ curlen +
        (((((s.cfi_entries i).buf d).cfe_pending_q.q_mq).take k).map Span.len).sum ≤
          passlen) ∧
      ((((s.cfi_entries i).buf d).cfe_pending_q.q_mq).length ≤ fuel → ∀ data,
        ((((pendingServiceLoop cfg s i after d passlen curlen err fuel).2.cfi_entries i).buf d).cfe_pending_q.q_mq).head? = some data →
        curlen +
          (((((s.cfi_entries i).buf d).cfe_pending_q.q_mq).take k).map Span.len).sum +
          data.len > passlen) := by
  induction fuel generalizing s curlen err with
  | zero =>
    rw [pendingServiceLoop]
    refine ⟨0, by simp, Or.inl rfl, ?_⟩
    intro hlen data hd
    rw [List.length_eq_zero.mp (Nat.le_zero.mp hlen)] at hd
    simp at hd
  | succ fuel ihf =>
    rw [pendingServiceLoop]
    cases hq : ((s.cfi_entries i).buf d).cfe_pending_q.q_mq with
    | nil =>
      simp only [hq, List.head?_nil]
      refine ⟨0, by simp, Or.inl rfl, ?_⟩
      intro hlen data hd
      simp at hd
    | cons data tl =>
      simp only [hq, List.head?_cons]
      by_cases hcl : curlen + data.len > passlen
      · simp only [if_pos hcl]
        refine ⟨0, by simp [hq], Or.inl rfl, ?_⟩
        intro hlen data2 hd2
        rw [hq] at hd2
        simp only [List.head?_cons] at hd2
        injection hd2 with h6
        subst h6
        simpa using hcl
      · simp only [if_neg hcl]
        rcases hch : dataFilterChain cfg
            (s.modifyEntryBuf i d (fun b =>
              { b with cfe_pending_q :=
                  cfil_queue_remove_head b.cfe_pending_q data.len }))
            after d data with ⟨er2, s2⟩
        have hcEq : s2.cfi_entries i =
            ((s.modifyEntryBuf i d (fun b =>
              { b with cfe_pending_q :=
                  cfil_queue_remove_head b.cfe_pending_q data.len })).cfi_entries i) := by
          have := entries_other_dataFilterChain cfg
            (s.modifyEntryBuf i d (fun b =>
              { b with cfe_pending_q :=
                  cfil_queue_remove_head b.cfe_pending_q data.len }))
            after d data i hni
          rw [hch] at this
          exact this
        have hbase : ((s2.cfi_entries i).buf d).cfe_pending_q.q_mq = tl := by
          rw [hcEq]
          simp [entries_modifyEntryBuf_same, buf_setBuf_same, cfil_queue_remove_head, hq]
        simp only [hch]
        by_cases he : er2 = 0
        · simp only [if_pos he]
          obtain ⟨k, q1, q2, q3⟩ := ihf (s2.modifyDirBuf d (fun cb =>
            { cb with cfi_inject_q := cfil_queue_enqueue cb.cfi_inject_q data }))
            (curlen + data.len) er2
          have hbase2 : (((s2.modifyDirBuf d (fun cb =>
              { cb with cfi_inject_q := cfil_queue_enqueue cb.cfi_inject_q data })).cfi_entries i).buf d).cfe_pending_q.q_mq = tl := by
            rw [entries_modifyDirBuf]
            exact hbase
          rw [hbase2] at q1 q2 q3
          refine ⟨k + 1, ?_, ?_, ?_⟩
          · rw [q1, List.drop_succ_cons]
          · refine Or.inr ?_
            rw [List.take_succ_cons]
            simp only [List.map_cons, List.sum_cons]
            rcases q2 with q2 | q2
            · subst q2
              simpa using Nat.not_lt.mp hcl
            · omega
          · intro hlen data2 hd2
            have hlen2 : tl.length ≤ fuel := by simpa using hlen
            have := q3 hlen2 data2 hd2
            rw [List.take_succ_cons]
            simp only [List.map_cons, List.sum_cons]
            omega
        · simp only [if_neg he]
          obtain ⟨k, q1, q2, q3⟩ := ihf s2 (curlen + data.len) er2
          rw [hbase] at q1 q2 q3
          refine ⟨k + 1, ?_, ?_, ?_⟩
          · rw [q1, List.drop_succ_cons]
          · refine Or.inr ?_
            rw [List.take_succ_cons]
            simp only [List.map_cons, List.sum_cons]
            rcases q2 with q2 | q2
            · subst q2
              simpa using Nat.not_lt.mp hcl
            · omega
          · intro hlen data2 hd2
            have hlen2 : tl.length ≤ fuel := by simpa using hlen
            have := q3 hlen2 data2 hd2
            rw [List.take_succ_cons]
            simp only [List.map_cons, List.sum_cons]
            omega

theorem entries_other_pendingEmptyWalk (cfg : Config) (s : CfilState)
    (after : List (Fin 8)) (d : Bool) (j : Fin 8) (hj : j ∉ after) :
    (pendingEmptyWalk cfg s after d).2.cfi_entries j = s.cfi_entries j :=
  (locality_master after.length).2.2.2.1 cfg s after d j rfl hj

theorem service_pending_take_drop (cfg : Config) (s : CfilState) (i : Fin 8)
    (after : List (Fin 8)) (d : Bool) (hni : i ∉ after) :
    ∃ k,
      (((cfil_service_pending_queue cfg s i after d).2.cfi_entries i).buf d).cfe_pending_q.q_mq =
        (((s.cfi_entries i).buf d).cfe_pending_q.q_mq).drop k ∧
      (k = 0 ∨
        (((((s.cfi_entries i).buf d).cfe_pending_q.q_mq).take k).map Span.len).sum ≤
          ((s.cfi_entries i).buf d).cfe_pass_offset -
            ((s.cfi_entries i).buf d).cfe_pending_q.q_start) ∧
      (∀ data,
        ((((cfil_service_pending_queue cfg s i after d).2.cfi_entries i).buf d).cfe_pending_q.q_mq).head? = some data →
        (((((s.cfi_entries i).buf d).cfe_pending_q.q_mq).take k).map Span.len).sum +
          data.len >
          ((s.cfi_entries i).buf d).cfe_pass_offset -
            ((s.cfi_entries i).buf d).cfe_pending_q.q_start) := by
  simp only [cfil_service_pending_queue]
  split_ifs with hempty
  · refine ⟨0, ?_, Or.inl rfl, ?_⟩
    · rw [entries_other_pendingEmptyWalk cfg s after d i hni]
      simp
    · intro data hd
      rw [entries_other_pendingEmptyWalk cfg s after d i hni] at hd
      have : ((s.cfi_entries i).buf d).cfe_pending_q.q_mq = [] :=
        List.isEmpty_iff.mp hempty
      rw [this] at hd
      simp at hd
  · obtain ⟨k, q1, q2, q3⟩ := pendingServiceLoop_take_drop cfg s i after d
      (((s.cfi_entries i).buf d).cfe_pass_offset -
        ((s.cfi_entries i).buf d).cfe_pending_q.q_start) 0 0
      (((s.cfi_entries i).buf d).cfe_pending_q.q_mq).length hni
    refine ⟨k, q1, ?_, ?_⟩
    · rcases q2 with q2 | q2
      · exact Or.inl q2
      · refine Or.inr ?_
        omega
    · intro data hd
      have := q3 (le_refl _) data hd
      omega

/-- **C8** (confirmed).  A span is never split across a pass-offset
boundary.  Control-queue servicing (`ctlQMoveLoop`): the loop moves some
prefix of the control queue's spans, whole and in order, onto the tail of
the pending queue; every moved span lies entirely at or below the entry's
pass offset, the pass and peek offsets themselves do not move, and the
span left at the head when the loop stops is never one that could still
fully pass.  Pending-queue servicing (`cfil_service_pending_queue` on an
entry whose chain excludes itself): some prefix of whole spans whose
cumulative length fits within the passable amount
(`cfe_pass_offset - pending_q.q_start`) is removed, and any span left at
the head would overshoot that amount. -/
theorem C8_no_span_split (b : CfeBuf) (cfg : Config) (s : CfilState) (i : Fin 8)
    (after : List (Fin 8)) (d : Bool) (hni : i ∉ after) :
    ((ctlQMoveLoop b).cfe_pass_offset = b.cfe_pass_offset ∧
     (ctlQMoveLoop b).cfe_peek_offset = b.cfe_peek_offset ∧
     ∃ k,
       (ctlQMoveLoop b).cfe_ctl_q.q_mq = b.cfe_ctl_q.q_mq.drop k ∧
       (ctlQMoveLoop b).cfe_pending_q.q_mq =
         b.cfe_pending_q.q_mq ++ b.cfe_ctl_q.q_mq.take k ∧
       (k = 0 ∨ b.cfe_ctl_q.q_start +
         ((b.cfe_ctl_q.q_mq.take k).map Span.len).sum ≤ b.cfe_pass_offset) ∧
       (∀ data, (ctlQMoveLoop b).cfe_ctl_q.q_mq.head? = some data →
         ¬ ((ctlQMoveLoop b).cfe_ctl_q.q_start < b.cfe_pass_offset ∧
            (ctlQMoveLoop b).cfe_ctl_q.q_start + data.len ≤ b.cfe_pass_offset))) ∧
    (∃ k,
      (((cfil_service_pending_queue cfg s i after d).2.cfi_entries i).buf d).cfe_pending_q.q_mq =
        (((s.cfi_entries i).buf d).cfe_pending_q.q_mq).drop k ∧
      (k = 0 ∨
        (((((s.cfi_entries i).buf d).cfe_pending_q.q_mq).take k).map Span.len).sum ≤
          ((s.cfi_entries i).buf d).cfe_pass_offset -
            ((s.cfi_entries i).buf d).cfe_pending_q.q_start) ∧
      (∀ data,
        ((((cfil_service_pending_queue cfg s i after d).2.cfi_entries i).buf d).cfe_pending_q.q_mq).head? = some data →
        (((((s.cfi_entries i).buf d).cfe_pending_q.q_mq).take k).map Span.len).sum +
          data.len >
          ((s.cfi_entries i).buf d).cfe_pass_offset -
            ((s.cfi_entries i).buf d).cfe_pending_q.q_start)) := by
  constructor
  · obtain ⟨k, p1, p2, p3, p4, p5⟩ :=
      ctlQMoveGo_take_drop b.cfe_ctl_q.q_mq.length b
    exact ⟨(ctlQMoveGo_props _ b).1, (ctlQMoveGo_props _ b).2.1,
      k, p1, p2, p4, p5 (le_refl _)⟩
  · exact service_pending_take_drop cfg s i after d hni

/-- Witness for C8: a buffer holding two 10-byte spans with a pass offset
of 15 (covering the first whole span but only half the second), and the
pending queue of a fresh flow's entry. -/
theorem C8_no_span_split_witness :
    let cfg : Config :=
      { needDgramTracking := false, gc_mbuf_num_max := 0, gc_mbuf_cnt_max := 0,
        ordered := [0] }
    let b : CfeBuf :=
      { cfe_pending_q := cfil_queue_init,
        cfe_ctl_q := ⟨0, 20, [⟨10, 1, 1⟩, ⟨10, 1, 1⟩]⟩,
        cfe_pass_offset := 15, cfe_peek_offset := 15, cfe_peeked := 0 }
    ((ctlQMoveLoop b).cfe_pass_offset = b.cfe_pass_offset ∧
     (ctlQMoveLoop b).cfe_peek_offset = b.cfe_peek_offset ∧
     ∃ k,
       (ctlQMoveLoop b).cfe_ctl_q.q_mq = b.cfe_ctl_q.q_mq.drop k ∧
       (ctlQMoveLoop b).cfe_pending_q.q_mq =
         b.cfe_pending_q.q_mq ++ b.cfe_ctl_q.q_mq.take k ∧
       (k = 0 ∨ b.cfe_ctl_q.q_start +
         ((b.cfe_ctl_q.q_mq.take k).map Span.len).sum ≤ b.cfe_pass_offset) ∧
       (∀ data, (ctlQMoveLoop b).cfe_ctl_q.q_mq.head? = some data →
         ¬ ((ctlQMoveLoop b).cfe_ctl_q.q_start < b.cfe_pass_offset ∧
            (ctlQMoveLoop b).cfe_ctl_q.q_start + data.len ≤ b.cfe_pass_offset))) ∧
    (∃ k,
      (((cfil_service_pending_queue cfg (initState cfg []) 0 [] true).2.cfi_entries 0).buf true).cfe_pending_q.q_mq =
        ((((initState cfg []).cfi_entries 0).buf true).cfe_pending_q.q_mq).drop k ∧
      (k = 0 ∨
        ((((((initState cfg []).cfi_entries 0).buf true).cfe_pending_q.q_mq).take k).map Span.len).sum ≤
          (((initState cfg []).cfi_entries 0).buf true).cfe_pass_offset -
            (((initState cfg []).cfi_entries 0).buf true).cfe_pending_q.q_start) ∧
      (∀ data,
        ((((cfil_service_pending_queue cfg (initState cfg []) 0 [] true).2.cfi_entries 0).buf true).cfe_pending_q.q_mq).head? = some data →
        ((((((initState cfg []).cfi_entries 0).buf true).cfe_pending_q.q_mq).take k).map Span.len).sum +
          data.len >
          (((initState cfg []).cfi_entries 0).buf true).cfe_pass_offset -
            (((initState cfg []).cfi_entries 0).buf true).cfe_pending_q.q_start)) := by
  intro cfg b
  exact C8_no_span_split b cfg (initState cfg []) 0 [] true (by decide)


theorem qBytes_congr {q1 q2 : CfilQueue} (h : q1.q_mq = q2.q_mq) :
    qBytes q1 = qBytes q2 := by
  unfold qBytes
  rw [h]

theorem bufBytes_congr {s t : CfilState} {d : Bool}
    (he : ∀ j, (t.cfi_entries j).buf d = (s.cfi_entries j).buf d)
    (hi : (t.dirBuf d).cfi_inject_q = (s.dirBuf d).cfi_inject_q) :
    bufBytes t d = bufBytes s d := by
  unfold bufBytes
  rw [hi, Finset.sum_congr rfl (fun j _ => by rw [he j])]

theorem conserve_of_cascadeZero {d2 : Bool} {s t : CfilState}
    (h : CascadeOut d2 0 s t) (d : Bool) :
    t.cfi_drop = s.cfi_drop ∧
    bufBytes t d + (t.dirBuf d).cfi_pending_first =
      bufBytes s d + (s.dirBuf d).cfi_pending_first ∧
    (t.dirBuf d).cfi_pending_last = (s.dirBuf d).cfi_pending_last := by
  obtain ⟨⟨hpp, hbufs, hdir, hinj, hflags⟩, hbytes, hqwf⟩ := h
  refine ⟨hflags.1, ?_, ?_⟩
  · by_cases hd : d = d2
    · subst hd
      have h1 := hinj.1
      omega
    · have hd2 : d = !d2 := by
        cases d <;> cases d2 <;> simp_all
      subst hd2
      rw [bufBytes_congr hbufs (by rw [hdir]), hdir]
  · by_cases hd : d = d2
    · subst hd
      exact hinj.2.1
    · have hd2 : d = !d2 := by
        cases d <;> cases d2 <;> simp_all
      subst hd2
      rw [hdir]

theorem Conserve.reflCv (d : Bool) (s : CfilState) : Conserve d 0 s s :=
  ⟨rfl, by omega, by omega⟩

theorem Conserve.transCv {d : Bool} {a b : Nat} {s t u : CfilState}
    (h1 : Conserve d a s t) (h2 : Conserve d b t u) : Conserve d (a + b) s u := by
  obtain ⟨p1, p2, p3⟩ := h1
  obtain ⟨q1, q2, q3⟩ := h2
  exact ⟨q1.trans p1, by omega, by omega⟩

theorem Conserve.zeroThenCv {d : Bool} {b : Nat} {s t u : CfilState}
    (h1 : Conserve d 0 s t) (h2 : Conserve d b t u) : Conserve d b s u := by
  have := h1.transCv h2
  simpa using this

theorem Conserve.thenZeroCv {d : Bool} {a : Nat} {s t u : CfilState}
    (h1 : Conserve d a s t) (h2 : Conserve d 0 t u) : Conserve d a s u := by
  have := h1.transCv h2
  simpa using this

theorem conserve_of_cascade {d2 : Bool} {s t : CfilState}
    (h : CascadeOut d2 0 s t) (d : Bool) : Conserve d 0 s t :=
  ⟨(conserve_of_cascadeZero h d).1, by have := (conserve_of_cascadeZero h d).2.1; omega,
    by have := (conserve_of_cascadeZero h d).2.2; omega⟩

theorem conserve_modifyEntryBuf (s : CfilState) (i : Fin 8) (d2 : Bool)
    (f : CfeBuf → CfeBuf)
    (hc : qBytes (f ((s.cfi_entries i).buf d2)).cfe_ctl_q =
      qBytes ((s.cfi_entries i).buf d2).cfe_ctl_q)
    (hp : qBytes (f ((s.cfi_entries i).buf d2)).cfe_pending_q =
      qBytes ((s.cfi_entries i).buf d2).cfe_pending_q) (d : Bool) :
    Conserve d 0 s (s.modifyEntryBuf i d2 f) := by
  have hdir := dirBuf_modifyEntryBuf s i d2 d f
  refine ⟨rfl, ?_, by rw [hdir]; omega⟩
  rw [hdir]
  by_cases hd : d = d2
  · subst hd
    have h := bufBytes_modifyEntryBuf s i d f
    have h1 := hc
    have h2 := hp
    omega
  · have hb : bufBytes (s.modifyEntryBuf i d2 f) d = bufBytes s d := by
      refine bufBytes_congr (fun j => ?_) (by rw [dirBuf_modifyEntryBuf])
      by_cases hj : j = i
      · rw [hj]
        simp [buf_setBuf_other _ _ _ _ (Ne.symm hd)]
      · simp [hj]
    omega

theorem applyVerdictOffsets_queues (b : CfeBuf) (po pk : Nat) :
    (applyVerdictOffsets b po pk).1.cfe_ctl_q = b.cfe_ctl_q ∧
    (applyVerdictOffsets b po pk).1.cfe_pending_q = b.cfe_pending_q := by
  unfold applyVerdictOffsets
  dsimp only
  split_ifs <;> exact ⟨rfl, rfl⟩

theorem updateDataOffsetsDone_cfi_drop (s : CfilState) (i : Fin 8) (e : Int) :
    (updateDataOffsetsDone s i e).2.cfi_drop = s.cfi_drop := by
  unfold updateDataOffsetsDone
  split_ifs <;> simp [wakeupIfNoneAttached, CfilState.setEntry] <;> split_ifs <;> rfl

theorem conserve_updateDataOffsetsDone (s : CfilState) (i : Fin 8) (e : Int)
    (d : Bool) : Conserve d 0 s (updateDataOffsetsDone s i e).2 := by
  have hf := updateDataOffsetsDone_frame s i e
  have hdir : (updateDataOffsetsDone s i e).2.dirBuf d = s.dirBuf d := by
    cases d
    · exact hf.2.2.1
    · exact hf.2.1
  refine ⟨updateDataOffsetsDone_cfi_drop s i e, ?_, by rw [hdir]; omega⟩
  rw [hdir]
  have hb : bufBytes (updateDataOffsetsDone s i e).2 d = bufBytes s d := by
    refine bufBytes_congr (fun j => ?_) (by rw [hdir])
    cases d
    · exact ((hf.1 j).2 : _)
    · exact ((hf.1 j).1 : _)
  omega

theorem conserve_popOracle (s : CfilState) :
    (∀ d, Conserve d 0 s (popOracle s).2) ∧
    (popOracle s).2.cfi_entries = s.cfi_entries ∧
    (∀ d, (popOracle s).2.dirBuf d = s.dirBuf d) := by
  unfold popOracle
  rcases ho : s.oracle with _ | ⟨e, rest⟩
  · exact ⟨fun d => Conserve.reflCv d s, rfl, fun d => rfl⟩
  · refine ⟨fun d => ⟨rfl, ?_, ?_⟩, rfl, fun d => by cases d <;> rfl⟩ <;>
      cases d <;> simp [bufBytes, CfilState.dirBuf]

theorem injectLoop_conserve (d2 : Bool) (fuel : Nat) (s : CfilState) :
    (injectLoop s d2 fuel).2.cfi_entries = s.cfi_entries ∧
    (∀ d, Conserve d 0 s (injectLoop s d2 fuel).2) ∧
    (∀ d, ((injectLoop s d2 fuel).2.dirBuf d).cfi_pass_offset =
      (s.dirBuf d).cfi_pass_offset) := by
  induction fuel generalizing s with
  | zero =>
    rw [injectLoop]
    exact ⟨rfl, fun d => Conserve.reflCv d s, fun d => rfl⟩
  | succ fuel ih =>
    rw [injectLoop]
    cases hmq : (s.dirBuf d2).cfi_inject_q.q_mq.head? with
    | none =>
      simp only [hmq]
      exact ⟨by simp, fun d => Conserve.reflCv d s, fun d => by simp⟩
    | some data =>
      simp only [hmq]
      have hstep : ∀ d, Conserve d 0 s (s.modifyDirBuf d2 (fun cb =>
          { cb with
            cfi_inject_q := cfil_queue_remove_head cb.cfi_inject_q data.len
            cfi_pending_first := cb.cfi_pending_first + data.len
            cfi_pending_mbcnt := cb.cfi_pending_mbcnt - data.mbcnt
            cfi_pending_mbnum := cb.cfi_pending_mbnum - data.mbnum })) := by
        intro d
        by_cases hd : d = d2
        · subst hd
          refine ⟨by cases d <;> rfl, ?_, by rw [dirBuf_modifyDirBuf_same]; dsimp only; omega⟩
          unfold bufBytes
          rw [Finset.sum_congr rfl (fun j _ => by rw [entries_modifyDirBuf])]
          rw [dirBuf_modifyDirBuf_same]
          have hrem := qBytes_remove_head (q := (s.dirBuf d).cfi_inject_q) hmq
          dsimp only
          omega
        · have hdir := dirBuf_modifyDirBuf_other s d2 d (fun cb =>
            { cb with
              cfi_inject_q := cfil_queue_remove_head cb.cfi_inject_q data.len
              cfi_pending_first := cb.cfi_pending_first + data.len
              cfi_pending_mbcnt := cb.cfi_pending_mbcnt - data.mbcnt
              cfi_pending_mbnum := cb.cfi_pending_mbnum - data.mbnum }) (Ne.symm hd)
          refine ⟨by cases d2 <;> rfl, ?_, by rw [hdir]; omega⟩
          have hb : bufBytes (s.modifyDirBuf d2 (fun cb =>
              { cb with
                cfi_inject_q := cfil_queue_remove_head cb.cfi_inject_q data.len
                cfi_pending_first := cb.cfi_pending_first + data.len
                cfi_pending_mbcnt := cb.cfi_pending_mbcnt - data.mbcnt
                cfi_pending_mbnum := cb.cfi_pending_mbnum - data.mbnum })) d = bufBytes s d :=
            bufBytes_congr (fun j => by rw [entries_modifyDirBuf]) (by rw [hdir])
          rw [hdir]
          omega
      have hpass : ∀ d, ((s.modifyDirBuf d2 (fun cb =>
          { cb with
            cfi_inject_q := cfil_queue_remove_head cb.cfi_inject_q data.len
            cfi_pending_first := cb.cfi_pending_first + data.len
            cfi_pending_mbcnt := cb.cfi_pending_mbcnt - data.mbcnt
            cfi_pending_mbnum := cb.cfi_pending_mbnum - data.mbnum })).dirBuf d).cfi_pass_offset =
          (s.dirBuf d).cfi_pass_offset := by
        intro d
        by_cases hd : d = d2
        · subst hd
          rw [dirBuf_modifyDirBuf_same]
        · rw [dirBuf_modifyDirBuf_other s d2 d _ (Ne.symm hd)]
      cases d2
      · obtain ⟨e1, e2, e3⟩ := ih (s.modifyDirBuf false (fun cb =>
          { cb with
            cfi_inject_q := cfil_queue_remove_head cb.cfi_inject_q data.len
            cfi_pending_first := cb.cfi_pending_first + data.len
            cfi_pending_mbcnt := cb.cfi_pending_mbcnt - data.mbcnt
            cfi_pending_mbnum := cb.cfi_pending_mbnum - data.mbnum }))
        exact ⟨e1.trans (entries_modifyDirBuf s false _),
          fun d => (hstep d).zeroThenCv (e2 d),
          fun d => (e3 d).trans (hpass d)⟩
      · rcases hpop : popOracle (s.modifyDirBuf true (fun cb =>
          { cb with
            cfi_inject_q := cfil_queue_remove_head cb.cfi_inject_q data.len
            cfi_pending_first := cb.cfi_pending_first + data.len
            cfi_pending_mbcnt := cb.cfi_pending_mbcnt - data.mbcnt
            cfi_pending_mbnum := cb.cfi_pending_mbnum - data.mbnum })) with ⟨er, s2⟩
        have hpo := conserve_popOracle (s.modifyDirBuf true (fun cb =>
          { cb with
            cfi_inject_q := cfil_queue_remove_head cb.cfi_inject_q data.len
            cfi_pending_first := cb.cfi_pending_first + data.len
            cfi_pending_mbcnt := cb.cfi_pending_mbcnt - data.mbcnt
            cfi_pending_mbnum := cb.cfi_pending_mbnum - data.mbnum }))
        rw [hpop] at hpo
        simp only [hpop]
        split_ifs with h1 h2
        · refine ⟨hpo.2.1.trans (entries_modifyDirBuf s true _),
            fun d => (hstep d).zeroThenCv (hpo.1 d), fun d => ?_⟩
          show (s2.dirBuf d).cfi_pass_offset = (s.dirBuf d).cfi_pass_offset
          rw [hpo.2.2 d, hpass d]
        · obtain ⟨e1, e2, e3⟩ := ih s2
          refine ⟨(e1.trans (hpo.2.1)).trans (entries_modifyDirBuf s true _),
            fun d => ((hstep d).zeroThenCv (hpo.1 d)).zeroThenCv (e2 d), fun d => ?_⟩
          rw [e3 d, hpo.2.2 d, hpass d]
        all_goals exact absurd trivial h1

theorem conserve_retry_out (s : CfilState) (b : Bool) (d : Bool) :
    Conserve d 0 s { s with cfi_retry_inject_out := b } := by
  have hd : ({ s with cfi_retry_inject_out := b } : CfilState).dirBuf d = s.dirBuf d := by
    cases d <;> rfl
  have hb : bufBytes { s with cfi_retry_inject_out := b } d = bufBytes s d :=
    bufBytes_congr (fun j => rfl) (by rw [hd])
  exact ⟨rfl, by rw [hb, hd]; omega, by rw [hd]; omega⟩

theorem conserve_retry_in (s : CfilState) (b : Bool) (d : Bool) :
    Conserve d 0 s { s with cfi_retry_inject_in := b } := by
  have hd : ({ s with cfi_retry_inject_in := b } : CfilState).dirBuf d = s.dirBuf d := by
    cases d <;> rfl
  have hb : bufBytes { s with cfi_retry_inject_in := b } d = bufBytes s d :=
    bufBytes_congr (fun j => rfl) (by rw [hd])
  exact ⟨rfl, by rw [hb, hd]; omega, by rw [hd]; omega⟩

theorem wakeup_dirBuf (s : CfilState) (d : Bool) :
    (wakeupIfNoneAttached s).dirBuf d = s.dirBuf d := by
  have hw := wakeup_frame s
  cases d
  · exact hw.2.2.1
  · exact hw.2.1

theorem conserve_wakeup (s : CfilState) (d : Bool) :
    Conserve d 0 s (wakeupIfNoneAttached s) := by
  have hw := wakeup_frame s
  have hb : bufBytes (wakeupIfNoneAttached s) d = bufBytes s d :=
    bufBytes_congr (fun j => by rw [hw.1]) (by rw [wakeup_dirBuf])
  exact ⟨hw.2.2.2, by rw [hb, wakeup_dirBuf]; omega, by rw [wakeup_dirBuf]; omega⟩

theorem conserve_retry_out_entries (s : CfilState) (b : Bool) :
    ({ s with cfi_retry_inject_out := b } : CfilState).cfi_entries = s.cfi_entries ∧
    (∀ d, ({ s with cfi_retry_inject_out := b } : CfilState).dirBuf d = s.dirBuf d) :=
  ⟨rfl, fun d => by cases d <;> rfl⟩

theorem conserve_retry_in_entries (s : CfilState) (b : Bool) :
    ({ s with cfi_retry_inject_in := b } : CfilState).cfi_entries = s.cfi_entries ∧
    (∀ d, ({ s with cfi_retry_inject_in := b } : CfilState).dirBuf d = s.dirBuf d) :=
  ⟨rfl, fun d => by cases d <;> rfl⟩

theorem service_inject_conserve (s : CfilState) (d2 : Bool) :
    (cfil_service_inject_queue s d2).2.cfi_entries = s.cfi_entries ∧
    (∀ d, Conserve d 0 s (cfil_service_inject_queue s d2).2) ∧
    (∀ d, ((cfil_service_inject_queue s d2).2.dirBuf d).cfi_pass_offset =
      (s.dirBuf d).cfi_pass_offset) := by
  unfold cfil_service_inject_queue
  dsimp only
  by_cases hdef : s.so_defunct = true
  · simp only [if_pos hdef]
    exact ⟨by simp, fun d => Conserve.reflCv d s, fun d => by simp⟩
  · simp only [if_neg hdef]
    cases d2
    · simp only [Bool.false_eq_true, if_false, ite_false]
      by_cases hemp :
          cfil_queue_empty (({ s with cfi_retry_inject_in := false } : CfilState).dirBuf false).cfi_inject_q = true
      · simp only [if_pos hemp]
        exact ⟨by simp, fun d => conserve_retry_in s false d,
          fun d => by rw [(conserve_retry_in_entries s false).2 d]⟩
      · simp only [if_neg hemp]
        rcases hil : injectLoop { s with cfi_retry_inject_in := false } false
            ((({ s with cfi_retry_inject_in := false } : CfilState).dirBuf false).cfi_inject_q.q_mq.length) with ⟨er, s2⟩
        have hI := injectLoop_conserve false
          ((({ s with cfi_retry_inject_in := false } : CfilState).dirBuf false).cfi_inject_q.q_mq.length)
          { s with cfi_retry_inject_in := false }
        rw [hil] at hI
        simp only [hil]
        by_cases her : er ≠ 0
        · simp only [if_pos her]
          refine ⟨?_, fun d => ?_, fun d => ?_⟩
          · rw [(wakeup_frame _).1]
            show ({ s2 with cfi_retry_inject_in := true } : CfilState).cfi_entries = s.cfi_entries
            rw [(conserve_retry_in_entries s2 true).1, hI.1,
              (conserve_retry_in_entries s false).1]
          · exact ((conserve_retry_in s false d).zeroThenCv (hI.2.1 d)).zeroThenCv
              ((conserve_retry_in s2 true d).zeroThenCv (conserve_wakeup _ d))
          · rw [wakeup_dirBuf]
            show (({ s2 with cfi_retry_inject_in := true } : CfilState).dirBuf d).cfi_pass_offset = _
            rw [(conserve_retry_in_entries s2 true).2 d, hI.2.2 d,
              (conserve_retry_in_entries s false).2 d]
        · simp only [if_neg her]
          refine ⟨?_, fun d => ?_, fun d => ?_⟩
          · rw [(wakeup_frame _).1]
            show s2.cfi_entries = s.cfi_entries
            rw [hI.1, (conserve_retry_in_entries s false).1]
          · exact ((conserve_retry_in s false d).zeroThenCv (hI.2.1 d)).zeroThenCv
              (conserve_wakeup _ d)
          · rw [wakeup_dirBuf]
            show (s2.dirBuf d).cfi_pass_offset = _
            rw [hI.2.2 d, (conserve_retry_in_entries s false).2 d]
    · simp only [if_true, ite_true]
      by_cases hemp :
          cfil_queue_empty (({ s with cfi_retry_inject_out := false } : CfilState).dirBuf true).cfi_inject_q = true
      · simp only [if_pos hemp]
        exact ⟨by simp, fun d => conserve_retry_out s false d,
          fun d => by rw [(conserve_retry_out_entries s false).2 d]⟩
      · simp only [if_neg hemp]
        rcases hil : injectLoop { s with cfi_retry_inject_out := false } true
            ((({ s with cfi_retry_inject_out := false } : CfilState).dirBuf true).cfi_inject_q.q_mq.length) with ⟨er, s2⟩
        have hI := injectLoop_conserve true
          ((({ s with cfi_retry_inject_out := false } : CfilState).dirBuf true).cfi_inject_q.q_mq.length)
          { s with cfi_retry_inject_out := false }
        rw [hil] at hI
        simp only [hil]
        by_cases her : er ≠ 0
        · simp only [if_pos her]
          refine ⟨?_, fun d => ?_, fun d => ?_⟩
          · rw [(wakeup_frame _).1]
            show ({ s2 with cfi_retry_inject_out := true } : CfilState).cfi_entries = s.cfi_entries
            rw [(conserve_retry_out_entries s2 true).1, hI.1,
              (conserve_retry_out_entries s false).1]
          · exact ((conserve_retry_out s false d).zeroThenCv (hI.2.1 d)).zeroThenCv
              ((conserve_retry_out s2 true d).zeroThenCv (conserve_wakeup _ d))
          · rw [wakeup_dirBuf]
            show (({ s2 with cfi_retry_inject_out := true } : CfilState).dirBuf d).cfi_pass_offset = _
            rw [(conserve_retry_out_entries s2 true).2 d, hI.2.2 d,
              (conserve_retry_out_entries s false).2 d]
        · simp only [if_neg her]
          refine ⟨?_, fun d => ?_, fun d => ?_⟩
          · rw [(wakeup_frame _).1]
            show s2.cfi_entries = s.cfi_entries
            rw [hI.1, (conserve_retry_out_entries s false).1]
          · exact ((conserve_retry_out s false d).zeroThenCv (hI.2.1 d)).zeroThenCv
              (conserve_wakeup _ d)
          · rw [wakeup_dirBuf]
            show (s2.dirBuf d).cfi_pass_offset = _
            rw [hI.2.2 d, (conserve_retry_out_entries s false).2 d]

theorem conserve_modifyDirBuf_scalar (s : CfilState) (d2 : Bool) (f : CfiBuf → CfiBuf)
    (hi : ∀ cb, (f cb).cfi_inject_q = cb.cfi_inject_q)
    (hf : ∀ cb, (f cb).cfi_pending_first = cb.cfi_pending_first)
    (hl : ∀ cb, (f cb).cfi_pending_last = cb.cfi_pending_last) (d : Bool) :
    Conserve d 0 s (s.modifyDirBuf d2 f) := by
  have hdrop : (s.modifyDirBuf d2 f).cfi_drop = s.cfi_drop := by cases d2 <;> rfl
  by_cases hd : d = d2
  · subst hd
    have hb : bufBytes (s.modifyDirBuf d f) d = bufBytes s d :=
      bufBytes_congr (fun j => by rw [entries_modifyDirBuf])
        (by rw [dirBuf_modifyDirBuf_same, hi])
    refine ⟨hdrop, ?_, ?_⟩
    · rw [dirBuf_modifyDirBuf_same, hb, hf]
      omega
    · rw [dirBuf_modifyDirBuf_same, hl]
      omega
  · have hdir := dirBuf_modifyDirBuf_other s d2 d f (Ne.symm hd)
    have hb : bufBytes (s.modifyDirBuf d2 f) d = bufBytes s d :=
      bufBytes_congr (fun j => by rw [entries_modifyDirBuf]) (by rw [hdir])
    exact ⟨hdrop, by rw [hb, hdir]; omega, by rw [hdir]; omega⟩

theorem conserve_set_socket_pass (s : CfilState) (d2 d : Bool) :
    Conserve d 0 s (cfil_set_socket_pass_offset s d2) ∧
    (cfil_set_socket_pass_offset s d2).cfi_entries = s.cfi_entries := by
  unfold cfil_set_socket_pass_offset
  dsimp only
  split_ifs
  · refine ⟨conserve_modifyDirBuf_scalar s d2 _ (fun cb => ?_) (fun cb => ?_)
      (fun cb => ?_) d, entries_modifyDirBuf s d2 _⟩ <;> rfl
  · exact ⟨Conserve.reflCv d s, rfl⟩

theorem conserve_byte_out (s : CfilState) (x : Nat) (d : Bool) :
    Conserve d 0 s { s with cfi_byte_outbound_count := x } := by
  have hd : ({ s with cfi_byte_outbound_count := x } : CfilState).dirBuf d = s.dirBuf d := by
    cases d <;> rfl
  have hb : bufBytes { s with cfi_byte_outbound_count := x } d = bufBytes s d :=
    bufBytes_congr (fun j => rfl) (by rw [hd])
  exact ⟨rfl, by rw [hb, hd]; omega, by rw [hd]; omega⟩

theorem conserve_byte_in (s : CfilState) (x : Nat) (d : Bool) :
    Conserve d 0 s { s with cfi_byte_inbound_count := x } := by
  have hd : ({ s with cfi_byte_inbound_count := x } : CfilState).dirBuf d = s.dirBuf d := by
    cases d <;> rfl
  have hb : bufBytes { s with cfi_byte_inbound_count := x } d = bufBytes s d :=
    bufBytes_congr (fun j => rfl) (by rw [hd])
  exact ⟨rfl, by rw [hb, hd]; omega, by rw [hd]; omega⟩

theorem conserve_update_entry_offsets (s : CfilState) (d2 : Bool) (len : Nat)
    (d : Bool) : Conserve d 0 s (cfil_update_entry_offsets s d2 len) := by
  have hdir := update_entry_offsets_dirBuf s d2 d len
  have hdrop : (cfil_update_entry_offsets s d2 len).cfi_drop = s.cfi_drop := rfl
  have hb : bufBytes (cfil_update_entry_offsets s d2 len) d = bufBytes s d := by
    unfold bufBytes
    rw [hdir]
    refine congrArg (· + qBytes (s.dirBuf d).cfi_inject_q) ?_
    refine Finset.sum_congr rfl (fun j _ => ?_)
    rw [update_entry_offsets_entries]
    split_ifs with hatt
    · by_cases hdd : d = d2
      · subst hdd
        rw [buf_setBuf_same]
        rw [qBytes_congr (updateEntryBufOffsets_ctl_mq len _),
          qBytes_congr (updateEntryBufOffsets_pending_mq len _)]
      · rw [buf_setBuf_other _ _ _ _ (Ne.symm hdd)]
    · rfl
  exact ⟨hdrop, by rw [hb, hdir]; omega, by rw [hdir]; omega⟩

theorem conserve_update_data_offsets (cfg : Config) (s : CfilState) (i : Fin 8)
    (d2 : Bool) (po pk : Nat) (d : Bool) :
    Conserve d 0 s (cfil_update_data_offsets cfg s i d2 po pk).2 := by
  unfold cfil_update_data_offsets
  by_cases hdrop : s.cfi_drop = true
  · simp only [hdrop, if_true, ite_true]
    exact Conserve.reflCv d s
  · rcases hv : applyVerdictOffsets ((s.cfi_entries i).buf d2) po pk with ⟨b2, u⟩
    have hq := applyVerdictOffsets_queues ((s.cfi_entries i).buf d2) po pk
    rw [hv] at hq
    have hstep : Conserve d 0 s (s.modifyEntryBuf i d2 fun _ => b2) :=
      conserve_modifyEntryBuf s i d2 _ (congrArg qBytes hq.1) (congrArg qBytes hq.2) d
    simp only [hdrop, Bool.false_eq_true, if_false, ite_false, hv]
    by_cases hu : u = true
    · have hcond : ¬ (¬ u = true) := by simp [hu]
      rw [if_neg hcond]
      rcases hsvc : cfil_data_service_ctl_q cfg (s.modifyEntryBuf i d2 fun _ => b2) i
          (chainAfter cfg.ordered i) d2 with ⟨er, ss⟩
      have hcas := conserve_of_cascade (cascadeOut_service_ctl_q cfg
        (s.modifyEntryBuf i d2 fun _ => b2) i (chainAfter cfg.ordered i) d2) d
      rw [hsvc] at hcas
      simp only [hsvc]
      split_ifs
      · exact (hstep.zeroThenCv hcas).zeroThenCv (conserve_updateDataOffsetsDone ss i er d)
      · exact (hstep.zeroThenCv hcas).zeroThenCv
          (conserve_updateDataOffsetsDone ss i EJUSTRETURN d)
    · rw [if_pos hu]
      exact hstep.zeroThenCv
        (conserve_updateDataOffsetsDone (s.modifyEntryBuf i d2 fun _ => b2) i 0 d)

theorem conserve_action_data_pass (cfg : Config) (s : CfilState) (i : Fin 8)
    (d2 : Bool) (po pk : Nat) (d : Bool) :
    Conserve d 0 s (cfil_action_data_pass cfg s i d2 po pk).2 := by
  unfold cfil_action_data_pass
  rcases hup : cfil_update_data_offsets cfg s i d2 po pk with ⟨er, s1⟩
  have h1 := conserve_update_data_offsets cfg s i d2 po pk d
  rw [hup] at h1
  simp only [hup]
  exact (h1.zeroThenCv ((service_inject_conserve s1 d2).2.1 d)).zeroThenCv
    ((conserve_set_socket_pass (cfil_service_inject_queue s1 d2).2 d2 d).1)

theorem submitChainLoop_cases (cfg : Config) (hdg : cfg.needDgramTracking = false)
    (s : CfilState) (after : List (Fin 8)) (d : Bool) (data : Span)
    (chained : Bool) :
    submitChainLoop cfg s after d data chained = (0, s) ∨
    ((submitChainLoop cfg s after d data chained).1 = EJUSTRETURN ∧
     CascadeOut d data.len s (submitChainLoop cfg s after d data chained).2) := by
  induction after generalizing s chained with
  | nil =>
    left
    rw [submitChainLoop]
  | cons j rest ih =>
    rw [submitChainLoop]
    by_cases hatt : (s.cfi_entries j).cfe_filter = true
    · rw [if_pos hatt, if_neg (by simp [hdg])]
      rcases hf : cfil_data_filter cfg s j rest d data with ⟨er, s1⟩
      have hfc := dataFilter_cases cfg s j rest d data
      rw [hf] at hfc
      simp only [hf]
      by_cases he : er ≠ 0
      · simp only [if_pos he]
        rcases hfc with hfc | hfc
        · exact absurd (congrArg Prod.fst hfc) he
        · exact Or.inr ⟨hfc.1, hfc.2⟩
      · simp only [if_neg he]
        have her : er = 0 := not_not.mp he
        rcases hfc with hfc | hfc
        · have hs1 : s1 = s := (Prod.ext_iff.mp hfc).2
          rw [hs1]
          exact ih s chained
        · rw [her, EJUSTRETURN] at hfc
          exact absurd hfc.1 (by simp)
    · rw [if_neg hatt]
      exact ih s chained

theorem WL_dir_last (s : CfilState) (d2 : Bool) (data : Span) (d : Bool) :
    bufBytes (s.modifyDirBuf d2 (fun cb =>
      { cb with
        cfi_pending_last := cb.cfi_pending_last + data.len
        cfi_pending_mbcnt := cb.cfi_pending_mbcnt + data.mbcnt
        cfi_pending_mbnum := cb.cfi_pending_mbnum + data.mbnum })) d = bufBytes s d ∧
    ((s.modifyDirBuf d2 (fun cb =>
      { cb with
        cfi_pending_last := cb.cfi_pending_last + data.len
        cfi_pending_mbcnt := cb.cfi_pending_mbcnt + data.mbcnt
        cfi_pending_mbnum := cb.cfi_pending_mbnum + data.mbnum })).dirBuf d).cfi_pending_first =
      (s.dirBuf d).cfi_pending_first ∧
    ((s.modifyDirBuf d2 (fun cb =>
      { cb with
        cfi_pending_last := cb.cfi_pending_last + data.len
        cfi_pending_mbcnt := cb.cfi_pending_mbcnt + data.mbcnt
        cfi_pending_mbnum := cb.cfi_pending_mbnum + data.mbnum })).dirBuf d).cfi_pending_last =
      (s.dirBuf d).cfi_pending_last + (if d2 = d then data.len else 0) ∧
    (s.modifyDirBuf d2 (fun cb =>
      { cb with
        cfi_pending_last := cb.cfi_pending_last + data.len
        cfi_pending_mbcnt := cb.cfi_pending_mbcnt + data.mbcnt
        cfi_pending_mbnum := cb.cfi_pending_mbnum + data.mbnum })).cfi_drop = s.cfi_drop := by
  by_cases hd : d2 = d
  · subst hd
    refine ⟨?_, ?_, ?_, by cases d2 <;> rfl⟩
    · exact bufBytes_congr (fun j => by rw [entries_modifyDirBuf])
        (by rw [dirBuf_modifyDirBuf_same])
    · rw [dirBuf_modifyDirBuf_same]
    · rw [dirBuf_modifyDirBuf_same]
      simp
  · have hdir := dirBuf_modifyDirBuf_other s d2 d (fun cb =>
      { cb with
        cfi_pending_last := cb.cfi_pending_last + data.len
        cfi_pending_mbcnt := cb.cfi_pending_mbcnt + data.mbcnt
        cfi_pending_mbnum := cb.cfi_pending_mbnum + data.mbnum }) hd
    refine ⟨?_, by rw [hdir], by rw [hdir]; simp [hd], by cases d2 <;> rfl⟩
    exact bufBytes_congr (fun j => by rw [entries_modifyDirBuf]) (by rw [hdir])

theorem WL_dir_first (s : CfilState) (d2 : Bool) (data : Span) (d : Bool) :
    bufBytes (s.modifyDirBuf d2 (fun cb =>
      { cb with
        cfi_pending_first := cb.cfi_pending_first + data.len
        cfi_pending_mbcnt := cb.cfi_pending_mbcnt - data.mbcnt
        cfi_pending_mbnum := cb.cfi_pending_mbnum - data.mbnum })) d = bufBytes s d ∧
    ((s.modifyDirBuf d2 (fun cb =>
      { cb with
        cfi_pending_first := cb.cfi_pending_first + data.len
        cfi_pending_mbcnt := cb.cfi_pending_mbcnt - data.mbcnt
        cfi_pending_mbnum := cb.cfi_pending_mbnum - data.mbnum })).dirBuf d).cfi_pending_first =
      (s.dirBuf d).cfi_pending_first + (if d2 = d then data.len else 0) ∧
    ((s.modifyDirBuf d2 (fun cb =>
      { cb with
        cfi_pending_first := cb.cfi_pending_first + data.len
        cfi_pending_mbcnt := cb.cfi_pending_mbcnt - data.mbcnt
        cfi_pending_mbnum := cb.cfi_pending_mbnum - data.mbnum })).dirBuf d).cfi_pending_last =
      (s.dirBuf d).cfi_pending_last ∧
    (s.modifyDirBuf d2 (fun cb =>
      { cb with
        cfi_pending_first := cb.cfi_pending_first + data.len
        cfi_pending_mbcnt := cb.cfi_pending_mbcnt - data.mbcnt
        cfi_pending_mbnum := cb.cfi_pending_mbnum - data.mbnum })).cfi_drop = s.cfi_drop := by
  by_cases hd : d2 = d
  · subst hd
    refine ⟨?_, ?_, ?_, by cases d2 <;> rfl⟩
    · exact bufBytes_congr (fun j => by rw [entries_modifyDirBuf])
        (by rw [dirBuf_modifyDirBuf_same])
    · rw [dirBuf_modifyDirBuf_same]
      simp
    · rw [dirBuf_modifyDirBuf_same]
  · have hdir := dirBuf_modifyDirBuf_other s d2 d (fun cb =>
      { cb with
        cfi_pending_first := cb.cfi_pending_first + data.len
        cfi_pending_mbcnt := cb.cfi_pending_mbcnt - data.mbcnt
        cfi_pending_mbnum := cb.cfi_pending_mbnum - data.mbnum }) hd
    refine ⟨?_, by rw [hdir]; simp [hd], by rw [hdir], by cases d2 <;> rfl⟩
    exact bufBytes_congr (fun j => by rw [entries_modifyDirBuf]) (by rw [hdir])

theorem conserve_data_common (cfg : Config) (hdg : cfg.needDgramTracking = false)
    (s : CfilState) (d2 : Bool) (data : Span) (hdrop : s.cfi_drop = false)
    (d : Bool) :
    Conserve d (if d2 = d then data.len else 0) s (cfil_data_common cfg s d2 data).2 := by
  unfold cfil_data_common
  rw [if_neg (show ¬ (s.cfi_drop = true) by simp [hdrop])]
  by_cases hlen : data.len = 0
  · rw [if_pos hlen]
    have hz : (if d2 = d then data.len else 0) = 0 := by split_ifs <;> omega
    rw [hz]
    exact Conserve.reflCv d s
  · rw [if_neg hlen]
    dsimp only
    generalize hS1 : (if d2 = true then
        { s with cfi_byte_outbound_count := s.cfi_byte_outbound_count + data.len }
      else
        { s with cfi_byte_inbound_count := s.cfi_byte_inbound_count + data.len } : CfilState) = s1
    have hS1c : Conserve d 0 s s1 := by
      rw [← hS1]
      split_ifs
      · exact conserve_byte_out s _ d
      · exact conserve_byte_in s _ d
    have hW2 := WL_dir_last s1 d2 data d
    generalize hS2 : s1.modifyDirBuf d2 (fun cb =>
      { cb with
        cfi_pending_last := cb.cfi_pending_last + data.len
        cfi_pending_mbcnt := cb.cfi_pending_mbcnt + data.mbcnt
        cfi_pending_mbnum := cb.cfi_pending_mbnum + data.mbnum }) = s2 at hW2 ⊢
    rw [if_neg (show ¬ (cfg.needDgramTracking = true ∧
        ((s2.dirBuf d2).cfi_pending_mbnum > cfg.gc_mbuf_num_max ∨
         (s2.dirBuf d2).cfi_pending_mbcnt > cfg.gc_mbuf_cnt_max)) by simp [hdg])]
    obtain ⟨c1, c2, c3⟩ := hS1c
    obtain ⟨w2b, w2f, w2l, w2d⟩ := hW2
    by_cases hfast : (s2.dirBuf d2).cfi_pending_last ≤ (s2.dirBuf d2).cfi_pass_offset
    · rw [if_pos hfast]
      dsimp only
      obtain ⟨t1, t2, t3⟩ := conserve_update_entry_offsets s2 d2 data.len d
      obtain ⟨f1, f2, f3, f4⟩ :=
        WL_dir_first (cfil_update_entry_offsets s2 d2 data.len) d2 data d
      refine ⟨by rw [f4, t1, w2d, c1], ?_, ?_⟩
      · by_cases hdd : d2 = d
        · simp only [if_pos hdd] at f2 ⊢
          omega
        · simp only [if_neg hdd] at f2 ⊢
          omega
      · by_cases hdd : d2 = d
        · simp only [if_pos hdd] at w2l ⊢
          omega
        · simp only [if_neg hdd] at w2l ⊢
          omega
    · rw [if_neg hfast]
      rcases hch : submitChainLoop cfg s2 cfg.ordered d2 data false with ⟨er, s3⟩
      have hcc := submitChainLoop_cases cfg hdg s2 cfg.ordered d2 data false
      rw [hch] at hcc
      simp only [hch]
      by_cases he : er = 0
      · rw [if_pos he]
        dsimp only
        have hs3 : s3 = s2 := by
          rcases hcc with hcc | hcc
          · exact (Prod.ext_iff.mp hcc).2
          · rw [he, EJUSTRETURN] at hcc
            exact absurd hcc.1 (by simp)
        subst hs3
        obtain ⟨f1, f2, f3, f4⟩ := WL_dir_first s3 d2 data d
        refine ⟨by rw [f4, w2d, c1], ?_, ?_⟩
        · by_cases hdd : d2 = d
          · simp only [if_pos hdd] at f2 ⊢
            omega
          · simp only [if_neg hdd] at f2 ⊢
            omega
        · by_cases hdd : d2 = d
          · simp only [if_pos hdd] at w2l ⊢
            omega
          · simp only [if_neg hdd] at w2l ⊢
            omega
      · rw [if_neg he]
        dsimp only
        have hco : CascadeOut d2 data.len s2 s3 := by
          rcases hcc with hcc | hcc
          · exact absurd (congrArg Prod.fst hcc) (by simpa using he)
          · exact hcc.2
        obtain ⟨⟨hpp, hbufs, hdirX, hinj, hflags⟩, hbytes, hqwf⟩ := hco
        refine ⟨by rw [hflags.1, w2d, c1], ?_, ?_⟩
        · by_cases hdd : d2 = d
          · subst hdd
            rw [if_pos rfl]
            have hf3 := hinj.1
            have hb := hbytes
            rw [if_pos rfl] at w2l
            omega
          · have hd2 : d = !d2 := by cases d <;> cases d2 <;> simp_all
            subst hd2
            have hb3 : bufBytes s3 (!d2) = bufBytes s2 (!d2) :=
              bufBytes_congr hbufs (by rw [hdirX])
            rw [if_neg hdd]
            rw [if_neg hdd] at w2l
            rw [hb3, hdirX]
            omega
        · by_cases hdd : d2 = d
          · subst hdd
            rw [if_pos rfl]
            have hl3 := hinj.2.1
            rw [if_pos rfl] at w2l
            omega
          · have hd2 : d = !d2 := by cases d <;> cases d2 <;> simp_all
            subst hd2
            rw [if_neg hdd]
            rw [if_neg hdd] at w2l
            rw [hdirX]
            omega


theorem conserve_ctl_rcvd (cfg : Config) (s : CfilState) (i : Fin 8) (d : Bool) :
    Conserve d 0 s (cfil_ctl_rcvd cfg s i) := by
  unfold cfil_ctl_rcvd
  dsimp only
  split_ifs <;> rw [ctlRcvdFindLoop_eq_none] <;>
    first
      | exact Conserve.reflCv d s
      | exact conserve_of_cascade (cascadeOut_setCfFC s i false d) d

theorem applyStep_conserve (cfg : Config) (hdg : cfg.needDgramTracking = false)
    (s : CfilState) (st : CfilStep) (hdrop : s.cfi_drop = false)
    (hnd : isDropStep st = false) (d : Bool) :
    Conserve d (stepLen d st) s (applyStep cfg s st) := by
  cases st with
  | submit d2 data =>
    exact conserve_data_common cfg hdg s d2 data hdrop d
  | dataPass i d2 po pk =>
    show Conserve d 0 s (match verdictPrelude s i with
      | none => s
      | some t => (cfil_action_data_pass cfg t i d2 po pk).2)
    unfold verdictPrelude
    rw [if_neg (show ¬ (s.cfi_drop = true) by simp [hdrop])]
    split_ifs <;>
      first
        | exact Conserve.reflCv d s
        | exact (conserve_of_cascade (cascadeOut_setEntry_flags s i
              { s.cfi_entries i with cfe_data_start := true } d rfl rfl) d).zeroThenCv
            (conserve_action_data_pass cfg
              (s.setEntry i { s.cfi_entries i with cfe_data_start := true }) i d2 po pk d)
  | serviceCtl i d2 =>
    show Conserve d 0 s (if (s.cfi_entries i).cfe_filter then
        (cfil_data_service_ctl_q cfg s i (chainAfter cfg.ordered i) d2).2
      else s)
    split_ifs
    · exact conserve_of_cascade
        (cascadeOut_service_ctl_q cfg s i (chainAfter cfg.ordered i) d2) d
    · exact Conserve.reflCv d s
  | drop i =>
    exact absurd hnd (by simp [isDropStep])
  | ctlRcvd i =>
    exact conserve_ctl_rcvd cfg s i d

theorem runSteps_conserve (cfg : Config) (hdg : cfg.needDgramTracking = false)
    (d : Bool) :
    ∀ (steps : List CfilStep) (s : CfilState), s.cfi_drop = false →
      (∀ st ∈ steps, isDropStep st = false) →
      (runSteps cfg s steps).cfi_drop = false ∧
      bufBytes (runSteps cfg s steps) d +
        ((runSteps cfg s steps).dirBuf d).cfi_pending_first =
        bufBytes s d + (s.dirBuf d).cfi_pending_first + submittedBytes d steps ∧
      ((runSteps cfg s steps).dirBuf d).cfi_pending_last =
        (s.dirBuf d).cfi_pending_last + submittedBytes d steps := by
  intro steps
  induction steps with
  | nil =>
    intro s hdrop _
    exact ⟨hdrop, by simp [runSteps, submittedBytes], by simp [runSteps, submittedBytes]⟩
  | cons st rest ih =>
    intro s hdrop hnd
    obtain ⟨hd1, hd2, hd3⟩ :=
      applyStep_conserve cfg hdg s st hdrop (hnd st (List.mem_cons_self st rest)) d
    have hdrop1 : (applyStep cfg s st).cfi_drop = false := hd1.trans hdrop
    obtain ⟨r1, r2, r3⟩ := ih (applyStep cfg s st) hdrop1
      (fun st2 h2 => hnd st2 (List.mem_cons_of_mem _ h2))
    have he : runSteps cfg s (st :: rest) = runSteps cfg (applyStep cfg s st) rest := rfl
    have hsub : submittedBytes d (st :: rest) = stepLen d st + submittedBytes d rest := by
      simp [submittedBytes]
    rw [he, hsub]
    exact ⟨r1, by omega, by omega⟩

/-- **C1** (confirmed).  Per direction, over any sequence of submit and
queue-servicing operations (no drop verdicts) on a fresh non-datagram
flow: the bytes buffered across every entry's control and pending queue
plus the direction's inject queue, together with the released-window
start `cfi_pending_first` (bytes already past all filters — reinjected or
passed through), exactly equal the aggregate `cfi_pending_last`, which in
turn equals the total bytes submitted: no byte is created, lost, or
duplicated. -/
theorem C1_conservation (cfg : Config) (oracle : List Int)
    (steps : List CfilStep) (d : Bool)
    (hdg : cfg.needDgramTracking = false)
    (hnd : ∀ st ∈ steps, isDropStep st = false) :
    bufBytes (runSteps cfg (initState cfg oracle) steps) d +
      ((runSteps cfg (initState cfg oracle) steps).dirBuf d).cfi_pending_first =
      ((runSteps cfg (initState cfg oracle) steps).dirBuf d).cfi_pending_last ∧
    ((runSteps cfg (initState cfg oracle) steps).dirBuf d).cfi_pending_last =
      submittedBytes d steps := by
  obtain ⟨r1, r2, r3⟩ :=
    runSteps_conserve cfg hdg d steps (initState cfg oracle) rfl hnd
  have h0b : bufBytes (initState cfg oracle) d = 0 := by
    cases d <;>
      simp [bufBytes, initState, CfilState.dirBuf, CfiBuf.init, qBytes, initEntry,
        CfilEntry.buf, CfeBuf.init, cfil_queue_init]
  have h0f : ((initState cfg oracle).dirBuf d).cfi_pending_first = 0 := by
    cases d <;> rfl
  have h0l : ((initState cfg oracle).dirBuf d).cfi_pending_last = 0 := by
    cases d <;> rfl
  constructor <;> omega

/-- Witness for C1: one 10-byte outgoing submit on a fresh single-filter
flow. -/
theorem C1_conservation_witness :
    let cfg : Config :=
      { needDgramTracking := false, gc_mbuf_num_max := 0, gc_mbuf_cnt_max := 0,
        ordered := [0] }
    let steps : List CfilStep := [CfilStep.submit true ⟨10, 1, 1⟩]
    bufBytes (runSteps cfg (initState cfg []) steps) true +
      ((runSteps cfg (initState cfg []) steps).dirBuf true).cfi_pending_first =
      ((runSteps cfg (initState cfg []) steps).dirBuf true).cfi_pending_last ∧
    ((runSteps cfg (initState cfg []) steps).dirBuf true).cfi_pending_last =
      submittedBytes true steps := by
  intro cfg steps
  exact C1_conservation cfg [] steps true rfl (by decide)

theorem chain_pair {R : Fin 8 → Fin 8 → Prop} :
    ∀ (pre : List (Fin 8)) (i j : Fin 8) (rest : List (Fin 8)),
    List.Chain' R (pre ++ i :: j :: rest) → R i j := by
  intro pre
  induction pre with
  | nil =>
    intro i j rest h
    exact h.rel_head
  | cons a pre ih =>
    intro i j rest h
    exact ih i j rest (List.Chain'.tail h)

theorem chain_last_le (f : Fin 8 → Nat) :
    ∀ (l : List (Fin 8)), l.Chain' (fun a b => f b ≤ f a) →
    ∀ e, l.getLast? = some e → ∀ j ∈ l, f e ≤ f j := by
  intro l
  induction l with
  | nil =>
    intro _ e he
    simp at he
  | cons a rest ih =>
    intro h e he j hj
    cases rest with
    | nil =>
      simp at he hj
      rw [← he, hj]
    | cons b rest2 =>
      have hab : f b ≤ f a := h.rel_head
      have hrest := ih h.tail e (by simpa using he)
      rcases List.mem_cons.mp hj with hj | hj
      · rw [hj]
        exact (hrest b (List.mem_cons_self b rest2)).trans hab
      · exact hrest j hj

theorem suffix_decomp {l : List (Fin 8)} {i : Fin 8} (hi : i ∈ l) :
    ∃ pre, l = pre ++ i :: (l.dropWhile (fun j => decide (j ≠ i))).tail := by
  induction l with
  | nil => simp at hi
  | cons a rest ih =>
    by_cases ha : a = i
    · subst ha
      refine ⟨[], ?_⟩
      simp [List.dropWhile]
    · have hi2 : i ∈ rest := by
        rcases List.mem_cons.mp hi with h | h
        · exact absurd h.symm ha
        · exact h
      obtain ⟨pre, hpre⟩ := ih hi2
      refine ⟨a :: pre, ?_⟩
      have hd : (a :: rest).dropWhile (fun j => decide (j ≠ i)) =
          rest.dropWhile (fun j => decide (j ≠ i)) := by
        rw [List.dropWhile_cons_of_pos]
        simp [ha]
      rw [hd]
      rw [List.cons_append]
      rw [← hpre]

theorem chainAfter_suffix {l : List (Fin 8)} {i : Fin 8} (hi : i ∈ l) :
    ∃ pre, l = pre ++ i :: chainAfter l i := by
  unfold chainAfter
  exact suffix_decomp hi

/-!
## C3: the chaining invariant

`chainInv` holds at the initial state and is preserved by every step; from
it, the inject queue's end offset is bounded by every configured entry's
pass offset.  `QFrame` captures the many operations that cannot touch it.
-/

theorem QFrame.reflQ (s : CfilState) : QFrame s s :=
  ⟨fun _ => rfl, fun _ _ => ⟨rfl, rfl, rfl⟩, fun _ => rfl⟩

theorem QFrame.transQ {s t u : CfilState} (h1 : QFrame s t) (h2 : QFrame t u) :
    QFrame s u :=
  ⟨fun j => (h2.1 j).trans (h1.1 j),
   fun j d2 => ⟨((h2.2.1 j d2).1).trans ((h1.2.1 j d2).1),
     ((h2.2.1 j d2).2.1).trans ((h1.2.1 j d2).2.1),
     ((h2.2.1 j d2).2.2).trans ((h1.2.1 j d2).2.2)⟩,
   fun d2 => (h2.2.2 d2).trans (h1.2.2 d2)⟩

theorem QFrame_of_frames {s t : CfilState}
    (he : t.cfi_entries = s.cfi_entries) (hd : ∀ d2, t.dirBuf d2 = s.dirBuf d2) :
    QFrame s t :=
  ⟨fun j => by rw [he], fun j d2 => by rw [he]; exact ⟨rfl, rfl, rfl⟩,
   fun d2 => by rw [hd d2]⟩

theorem QFrame_setEntry (s : CfilState) (i : Fin 8) (e' : CfilEntry)
    (hfil : e'.cfe_filter = (s.cfi_entries i).cfe_filter)
    (hsnd : e'.cfe_snd = (s.cfi_entries i).cfe_snd)
    (hrcv : e'.cfe_rcv = (s.cfi_entries i).cfe_rcv) :
    QFrame s (s.setEntry i e') := by
  have hbuf : ∀ d2, e'.buf d2 = (s.cfi_entries i).buf d2 := by
    intro d2
    cases d2 <;> simp [CfilEntry.buf, hsnd, hrcv]
  refine ⟨fun j => ?_, fun j d2 => ?_, fun d2 => ?_⟩
  · by_cases hj : j = i
    · subst hj
      rw [entries_setEntry_same, hfil]
    · rw [entries_setEntry_other s i j e' hj]
  · by_cases hj : j = i
    · subst hj
      rw [entries_setEntry_same, hbuf d2]
      exact ⟨rfl, rfl, rfl⟩
    · rw [entries_setEntry_other s i j e' hj]
      exact ⟨rfl, rfl, rfl⟩
  · rw [dirBuf_setEntry]

theorem QFrame_setEntryFC (s : CfilState) (i : Fin 8) (b : Bool) :
    QFrame s (s.setEntryFlowControlled i b) :=
  QFrame_setEntry s i _ rfl rfl rfl

theorem QFrame_setCfFC (s : CfilState) (i : Fin 8) (b : Bool) :
    QFrame s (s.setCfFlowControlled i b) :=
  QFrame_of_frames rfl (fun d2 => by cases d2 <;> rfl)

theorem QFrame_popOracle (s : CfilState) : QFrame s (popOracle s).2 :=
  QFrame_of_frames (conserve_popOracle s).2.1 (conserve_popOracle s).2.2

theorem QFrame_dispatch_data (s : CfilState) (i : Fin 8) :
    QFrame s (cfil_dispatch_data_event s i).2 := by
  unfold cfil_dispatch_data_event
  split_ifs <;>
    first
      | exact QFrame.reflQ s
      | exact QFrame_popOracle s
      | exact (QFrame_setEntryFC s i true).transQ (QFrame_setCfFC _ i true)
      | exact (QFrame_popOracle s).transQ (QFrame_setEntryFC _ i false)
      | exact (QFrame_popOracle s).transQ (QFrame_setEntry _ i _ rfl rfl rfl)
      | exact (QFrame_popOracle s).transQ
          ((QFrame_setEntryFC _ i true).transQ (QFrame_setCfFC _ i true))

theorem QFrame_dispatch_attach (s : CfilState) (i : Fin 8) :
    QFrame s (cfil_dispatch_attach_event s i).2 := by
  unfold cfil_dispatch_attach_event
  split_ifs <;>
    first
      | exact QFrame.reflQ s
      | exact QFrame_popOracle s
      | exact (QFrame_setEntryFC s i true).transQ (QFrame_setCfFC _ i true)
      | exact (QFrame_popOracle s).transQ (QFrame_setEntryFC _ i false)
      | exact (QFrame_popOracle s).transQ (QFrame_setEntry _ i _ rfl rfl rfl)
      | exact (QFrame_popOracle s).transQ
          ((QFrame_setEntryFC _ i true).transQ (QFrame_setCfFC _ i true))

theorem QFrame_dispatch_disconnect (s : CfilState) (i : Fin 8) (dd : Bool) :
    QFrame s (cfil_dispatch_disconnect_event s i dd).2 := by
  unfold cfil_dispatch_disconnect_event
  split_ifs <;>
    first
      | exact QFrame.reflQ s
      | exact QFrame_popOracle s
      | exact (QFrame_setEntryFC s i true).transQ (QFrame_setCfFC _ i true)
      | exact (QFrame_popOracle s).transQ (QFrame_setEntryFC _ i false)
      | exact (QFrame_popOracle s).transQ (QFrame_setEntry _ i _ rfl rfl rfl)
      | exact (QFrame_popOracle s).transQ
          ((QFrame_setEntryFC _ i true).transQ (QFrame_setCfFC _ i true))

theorem QFrame_modifyEntryBuf (s : CfilState) (i : Fin 8) (d2 : Bool)
    (f : CfeBuf → CfeBuf)
    (h1 : ∀ b, (f b).cfe_ctl_q = b.cfe_ctl_q)
    (h2 : ∀ b, (f b).cfe_pending_q = b.cfe_pending_q)
    (h3 : ∀ b, (f b).cfe_pass_offset = b.cfe_pass_offset) :
    QFrame s (s.modifyEntryBuf i d2 f) := by
  refine ⟨fun j => ?_, fun j d3 => ?_, fun d3 => ?_⟩
  · by_cases hj : j = i
    · subst hj
      rw [entries_modifyEntryBuf_same, setBuf_filter]
    · rw [entries_modifyEntryBuf_other s i j d2 f hj]
  · by_cases hj : j = i
    · subst hj
      rw [entries_modifyEntryBuf_same]
      by_cases hd : d3 = d2
      · subst hd
        rw [buf_setBuf_same]
        exact ⟨h1 _, h2 _, h3 _⟩
      · rw [buf_setBuf_other _ d2 d3 _ (fun h => hd h.symm)]
        exact ⟨rfl, rfl, rfl⟩
    · rw [entries_modifyEntryBuf_other s i j d2 f hj]
      exact ⟨rfl, rfl, rfl⟩
  · rw [dirBuf_modifyEntryBuf]

theorem QFrame_add_peeked (s : CfilState) (i : Fin 8) (d : Bool) (x : Nat) :
    QFrame s (s.modifyEntryBuf i d
      (fun b => { b with cfe_peeked := b.cfe_peeked + x })) :=
  QFrame_modifyEntryBuf s i d _ (fun _ => rfl) (fun _ => rfl) (fun _ => rfl)

theorem QFrame_peekLoop (s : CfilState) (i : Fin 8) (d : Bool)
    (spans : List Span) (off : Nat) :
    QFrame s (ctlQPeekLoop s i d spans off) := by
  induction spans generalizing s off with
  | nil => exact QFrame.reflQ s
  | cons data rest ih =>
    rw [ctlQPeekLoop]
    rcases hde : cfil_dispatch_data_event s i with ⟨err, s1⟩
    have hcd := QFrame_dispatch_data s i
    rw [hde] at hcd
    simp only [hde]
    split_ifs <;>
      first
        | exact QFrame.reflQ s
        | exact ih s _
        | exact hcd
        | exact hcd.transQ (QFrame_add_peeked s1 i d _)
        | exact (hcd.transQ (QFrame_add_peeked s1 i d _)).transQ (ih _ _)

theorem QFrame_wakeup (s : CfilState) : QFrame s (wakeupIfNoneAttached s) :=
  QFrame_of_frames (wakeup_frame s).1
    (fun d2 => by cases d2
                  · exact (wakeup_frame s).2.2.1
                  · exact (wakeup_frame s).2.1)

/-- `chainInv` only looks at what `QFrame` preserves. -/
theorem chainInv_of_QFrame {s t : CfilState} (hf : QFrame s t) (cfg : Config)
    (d : Bool) (h : chainInv cfg d s) : chainInv cfg d t := by
  obtain ⟨hF, hQ, hA, hB, hI, hC⟩ := h
  obtain ⟨f1, f2, f3⟩ := hf
  refine ⟨fun j => ?_, ⟨fun j d2 => ?_, fun d2 => ?_⟩, fun j hj => ?_, ?_,
    fun e he => ?_, fun j hj => ?_⟩
  · rw [f1 j]
    exact hF j
  · rw [(f2 j d2).1, (f2 j d2).2.1]
    exact hQ.1 j d2
  · rw [f3 d2]
    exact hQ.2 d2
  · rw [(f2 j d).2.1, (f2 j d).1]
    exact hA j hj
  · refine List.Chain'.imp ?_ hB
    intro a b hab
    rw [(f2 b d).1, (f2 a d).2.1]
    exact hab
  · rw [f3 d, (f2 e d).2.1]
    exact hI e he
  · rw [(f2 j d).2.1, (f2 j d).2.2]
    exact hC j hj

theorem chain'_imp2 {α : Type} {R S : α → α → Prop} :
    ∀ (l : List α), List.Chain' R l → (∀ a b, b ∈ l.tail → R a b → S a b) →
    List.Chain' S l := by
  intro l
  induction l with
  | nil => intro _ _; exact List.chain'_nil
  | cons a rest ih =>
    intro h hab
    cases rest with
    | nil => exact List.chain'_singleton a
    | cons b t =>
      refine List.chain'_cons.mpr ⟨?_, ?_⟩
      · exact hab a b (List.mem_cons_self b t) (List.chain'_cons.mp h).1
      · exact ih (List.chain'_cons.mp h).2
          (fun x y hy hxy => hab x y (List.mem_cons_of_mem b hy) hxy)

theorem chain'_imp_mem {α : Type} {R S : α → α → Prop} :
    ∀ (l : List α), List.Chain' R l →
    (∀ a b, a ∈ l → b ∈ l → R a b → S a b) → List.Chain' S l := by
  intro l
  induction l with
  | nil => intro _ _; exact List.chain'_nil
  | cons a rest ih =>
    intro h hab
    cases rest with
    | nil => exact List.chain'_singleton a
    | cons b t =>
      refine List.chain'_cons.mpr ⟨?_, ?_⟩
      · exact hab a b (List.mem_cons_self a _) (List.mem_cons_of_mem a (List.mem_cons_self b t))
          (List.chain'_cons.mp h).1
      · exact ih (List.chain'_cons.mp h).2
          (fun x y hx hy hxy => hab x y (List.mem_cons_of_mem a hx)
            (List.mem_cons_of_mem a hy) hxy)

theorem chain'_of_all {α : Type} {R : α → α → Prop} (h : ∀ a b, R a b) :
    ∀ (l : List α), List.Chain' R l := by
  intro l
  induction l with
  | nil => exact List.chain'_nil
  | cons a rest ih =>
    cases rest with
    | nil => exact List.chain'_singleton a
    | cons b t => exact List.chain'_cons.mpr ⟨h a b, ih⟩

/-- Update a `Chain'` across the junction of `pre ++ i :: after`: pairs not
ending at `i` transfer pointwise, and the one pair into `i` is supplied
directly. -/
theorem chain'_junction {R S : Fin 8 → Fin 8 → Prop} (pre : List (Fin 8)) (i : Fin 8)
    (after : List (Fin 8)) (hc : List.Chain' R (pre ++ i :: after))
    (hmono : ∀ a b, b ≠ i → R a b → S a b)
    (hj : ∀ a, pre.getLast? = some a → S a i)
    (hpre : i ∉ pre) (haft : i ∉ after) :
    List.Chain' S (pre ++ i :: after) := by
  rcases List.chain'_append.mp hc with ⟨h1, h2, h3⟩
  refine List.chain'_append.mpr ⟨?_, ?_, ?_⟩
  · exact chain'_imp2 pre h1
      (fun a b hb hab => hmono a b (fun he => hpre (he ▸ List.mem_of_mem_tail hb)) hab)
  · refine chain'_imp2 _ h2 (fun a b hb hab => hmono a b (fun he => haft ?_) hab)
    rw [he] at hb
    exact hb
  · intro x hx y hy
    have hyi : i = y := by simpa using hy
    rw [← hyi]
    exact hj x hx

/-- `i` appears in neither part around the junction of a `Nodup` list. -/
theorem nodup_junction {l pre after : List (Fin 8)} {i : Fin 8}
    (hnd : l.Nodup) (hL : l = pre ++ i :: after) : i ∉ pre ∧ i ∉ after := by
  subst hL
  constructor
  · intro hip
    exact (List.disjoint_of_nodup_append hnd) hip (List.mem_cons_self i after)
  · exact (List.nodup_cons.mp (List.Nodup.of_append_right hnd)).1

/-- Cursor bookkeeping of the move loop: the control queue's end and the
pending queue's start never move, and the two inner cursors advance in
lockstep. -/
theorem ctlQMoveGo_cursors (fuel : Nat) (b : CfeBuf) :
    (ctlQMoveGo fuel b).cfe_ctl_q.q_end = b.cfe_ctl_q.q_end ∧
    (ctlQMoveGo fuel b).cfe_pending_q.q_start = b.cfe_pending_q.q_start ∧
    (ctlQMoveGo fuel b).cfe_pending_q.q_end + b.cfe_ctl_q.q_start =
      b.cfe_pending_q.q_end + (ctlQMoveGo fuel b).cfe_ctl_q.q_start := by
  induction fuel generalizing b with
  | zero => exact ⟨rfl, rfl, rfl⟩
  | succ fuel ih =>
    cases hmq : b.cfe_ctl_q.q_mq.head? with
    | none =>
      rw [ctlQMoveGo]
      simp only [hmq]
      exact ⟨by simp, by simp, by simp⟩
    | some data =>
      by_cases h1 : b.cfe_ctl_q.q_start < b.cfe_pass_offset
      · by_cases h2 : b.cfe_ctl_q.q_start + data.len ≤ b.cfe_pass_offset
        · rw [ctlQMoveGo_full_step fuel b data hmq h1 h2]
          obtain ⟨p1, p2, p3⟩ := ih
            { b with
              cfe_peeked := if b.cfe_ctl_q.q_start + data.len > b.cfe_peeked
                then b.cfe_ctl_q.q_start + data.len else b.cfe_peeked
              cfe_ctl_q := cfil_queue_remove_head b.cfe_ctl_q data.len
              cfe_pending_q := cfil_queue_enqueue b.cfe_pending_q data }
          refine ⟨p1.trans rfl, p2.trans rfl, ?_⟩
          dsimp only [cfil_queue_remove_head, cfil_queue_enqueue] at p3 ⊢
          omega
        · rw [ctlQMoveGo]
          have hlt : b.cfe_pass_offset - b.cfe_ctl_q.q_start < data.len := by omega
          simp only [hmq, if_pos h1, if_neg h2, if_pos hlt]
          split_ifs with hpk
          · exact ⟨by simp, by simp, by simp⟩
          · exact ⟨by simp, by simp, by simp⟩
      · rw [ctlQMoveGo]
        simp only [hmq, if_neg h1]
        exact ⟨by simp, by simp, by simp⟩

/-- The move loop on entry `i` preserves the chaining invariant: it shifts
bytes between the entry's two queues without moving the outer cursors. -/
theorem chainInv_moveLoop (cfg : Config) (d : Bool) (s : CfilState) (i : Fin 8)
    (h : chainInv cfg d s) :
    chainInv cfg d (s.modifyEntryBuf i d ctlQMoveLoop) := by
  obtain ⟨hF, hQ, hA, hB, hI, hC⟩ := h
  have hml : ∀ b : CfeBuf, ctlQMoveLoop b = ctlQMoveGo b.cfe_ctl_q.q_mq.length b :=
    fun b => rfl
  have hbi : ((s.modifyEntryBuf i d ctlQMoveLoop).cfi_entries i).buf d =
      ctlQMoveLoop ((s.cfi_entries i).buf d) := by
    rw [entries_modifyEntryBuf_same, buf_setBuf_same]
  have hbo : ∀ d2, d2 ≠ d →
      ((s.modifyEntryBuf i d ctlQMoveLoop).cfi_entries i).buf d2 =
        (s.cfi_entries i).buf d2 := by
    intro d2 hd2
    rw [entries_modifyEntryBuf_same, buf_setBuf_other _ d d2 _ (fun h => hd2 h.symm)]
  have hoth : ∀ j, j ≠ i → (s.modifyEntryBuf i d ctlQMoveLoop).cfi_entries j =
      s.cfi_entries j :=
    fun j hj => entries_modifyEntryBuf_other s i j d _ hj
  have hcur := ctlQMoveGo_cursors (((s.cfi_entries i).buf d).cfe_ctl_q.q_mq.length)
    ((s.cfi_entries i).buf d)
  rw [← hml] at hcur
  have hprops := ctlQMoveGo_props (((s.cfi_entries i).buf d).cfe_ctl_q.q_mq.length)
    ((s.cfi_entries i).buf d)
  rw [← hml] at hprops
  have hctl_end : ∀ j,
      (((s.modifyEntryBuf i d ctlQMoveLoop).cfi_entries j).buf d).cfe_ctl_q.q_end =
        ((s.cfi_entries j).buf d).cfe_ctl_q.q_end := by
    intro j
    by_cases hj : j = i
    · rw [hj, hbi]
      exact hcur.1
    · rw [hoth j hj]
  have hpend_start : ∀ j,
      (((s.modifyEntryBuf i d ctlQMoveLoop).cfi_entries j).buf d).cfe_pending_q.q_start =
        ((s.cfi_entries j).buf d).cfe_pending_q.q_start := by
    intro j
    by_cases hj : j = i
    · rw [hj, hbi]
      exact hcur.2.1
    · rw [hoth j hj]
  have hpass2 : ∀ j,
      (((s.modifyEntryBuf i d ctlQMoveLoop).cfi_entries j).buf d).cfe_pass_offset =
        ((s.cfi_entries j).buf d).cfe_pass_offset := by
    intro j
    by_cases hj : j = i
    · rw [hj, hbi]
      exact hprops.1
    · rw [hoth j hj]
  refine ⟨fun j => ?_, ⟨fun j d2 => ?_, fun d2 => ?_⟩, fun j hj => ?_, ?_,
    fun e he => ?_, fun j hj => ?_⟩
  · by_cases hj : j = i
    · rw [hj, entries_modifyEntryBuf_same, setBuf_filter]
      exact hF i
    · rw [hoth j hj]
      exact hF j
  · by_cases hj : j = i
    · by_cases hd2 : d2 = d
      · rw [hj, hd2, hbi]
        exact hprops.2.2.2 (hQ.1 i d).1 (hQ.1 i d).2
      · rw [hj, hbo d2 hd2]
        exact hQ.1 i d2
    · rw [hoth j hj]
      exact hQ.1 j d2
  · rw [dirBuf_modifyEntryBuf]
    exact hQ.2 d2
  · by_cases hji : j = i
    · rw [hji, hbi]
      have h2 := hcur.2.2
      have h3 := hA j hj
      rw [hji] at h3
      omega
    · rw [hoth j hji]
      exact hA j hj
  · refine List.Chain'.imp ?_ hB
    intro a b hab
    rw [hctl_end b, hpend_start a]
    exact hab
  · rw [dirBuf_modifyEntryBuf, hpend_start e]
    exact hI e he
  · rw [hpend_start j, hpass2 j]
    exact hC j hj

theorem getLast?_mem_list {α : Type} :
    ∀ {l : List α} {a : α}, l.getLast? = some a → a ∈ l := by
  intro l
  induction l with
  | nil => intro a h; simp at h
  | cons b rest ih =>
    intro a h
    cases rest with
    | nil =>
      simp at h
      rw [h]
      exact List.mem_cons_self a []
    | cons c t =>
      rw [List.getLast?_cons_cons] at h
      exact List.mem_cons_of_mem b (ih h)

/-- Enqueueing a claimed span on entry `i`'s control queue keeps the chain
invariant, provided the span still fits under the predecessor's
pending-queue read cursor. -/
theorem chainInv_ctl_enqueue (cfg : Config) (d : Bool) (s : CfilState) (i : Fin 8)
    (pre after : List (Fin 8)) (data : Span)
    (hnd : cfg.ordered.Nodup) (hL : cfg.ordered = pre ++ i :: after)
    (hjunc : ∀ p, pre.getLast? = some p →
      ((s.cfi_entries i).buf d).cfe_ctl_q.q_end + data.len ≤
        ((s.cfi_entries p).buf d).cfe_pending_q.q_start)
    (h : chainInv cfg d s) :
    chainInv cfg d (s.modifyEntryBuf i d
      (fun b => { b with cfe_ctl_q := cfil_queue_enqueue b.cfe_ctl_q data })) := by
  obtain ⟨hF, hQ, hA, hB, hI, hC⟩ := h
  obtain ⟨hpre, haft⟩ := nodup_junction hnd hL
  have hbi : ((s.modifyEntryBuf i d
      (fun b => { b with cfe_ctl_q := cfil_queue_enqueue b.cfe_ctl_q data })).cfi_entries
        i).buf d =
      { (s.cfi_entries i).buf d with
        cfe_ctl_q := cfil_queue_enqueue ((s.cfi_entries i).buf d).cfe_ctl_q data } := by
    rw [entries_modifyEntryBuf_same, buf_setBuf_same]
  have hbo : ∀ d2, d2 ≠ d →
      ((s.modifyEntryBuf i d
        (fun b => { b with cfe_ctl_q := cfil_queue_enqueue b.cfe_ctl_q data })).cfi_entries
          i).buf d2 = (s.cfi_entries i).buf d2 := by
    intro d2 hd2
    rw [entries_modifyEntryBuf_same, buf_setBuf_other _ d d2 _ (fun h => hd2 h.symm)]
  have hoth : ∀ j, j ≠ i →
      (s.modifyEntryBuf i d
        (fun b => { b with cfe_ctl_q := cfil_queue_enqueue b.cfe_ctl_q data })).cfi_entries
          j = s.cfi_entries j :=
    fun j hj => entries_modifyEntryBuf_other s i j d _ hj
  have hpend : ∀ j,
      (((s.modifyEntryBuf i d
        (fun b => { b with cfe_ctl_q := cfil_queue_enqueue b.cfe_ctl_q data })).cfi_entries
          j).buf d).cfe_pending_q = ((s.cfi_entries j).buf d).cfe_pending_q := by
    intro j
    by_cases hj : j = i
    · rw [hj, hbi]
    · rw [hoth j hj]
  have hpass2 : ∀ j,
      (((s.modifyEntryBuf i d
        (fun b => { b with cfe_ctl_q := cfil_queue_enqueue b.cfe_ctl_q data })).cfi_entries
          j).buf d).cfe_pass_offset = ((s.cfi_entries j).buf d).cfe_pass_offset := by
    intro j
    by_cases hj : j = i
    · rw [hj, hbi]
    · rw [hoth j hj]
  refine ⟨fun j => ?_, ⟨fun j d2 => ?_, fun d2 => ?_⟩, fun j hj => ?_, ?_,
    fun e he => ?_, fun j hj => ?_⟩
  · by_cases hj : j = i
    · rw [hj, entries_modifyEntryBuf_same, setBuf_filter]
      exact hF i
    · rw [hoth j hj]
      exact hF j
  · by_cases hj : j = i
    · by_cases hd2 : d2 = d
      · rw [hj, hd2, hbi]
        exact ⟨QWF_enqueue (hQ.1 i d).1 data, (hQ.1 i d).2⟩
      · rw [hj, hbo d2 hd2]
        exact hQ.1 i d2
    · rw [hoth j hj]
      exact hQ.1 j d2
  · rw [dirBuf_modifyEntryBuf]
    exact hQ.2 d2
  · by_cases hji : j = i
    · rw [hji, hbi]
      have h3 := hA j hj
      rw [hji] at h3
      exact h3
    · rw [hoth j hji]
      exact hA j hj
  · rw [hL]
    rw [hL] at hB
    refine chain'_junction pre i after hB ?_ ?_ hpre haft
    · intro a b hb hab
      rw [(congrArg (fun e => (e.buf d).cfe_ctl_q.q_end) (hoth b hb)), hpend a]
      exact hab
    · intro p hp
      have hpi : p ≠ i := fun hcon => hpre (hcon ▸ getLast?_mem_list hp)
      rw [hbi, hpend p]
      exact hjunc p hp
  · rw [dirBuf_modifyEntryBuf, hpend e]
    exact hI e he
  · rw [hpend j, hpass2 j]
    exact hC j hj

/-- Removing the head span of entry `i`'s pending queue keeps the chain
invariant, provided the removal stays under the entry's pass offset. -/
theorem chainInv_pending_remove (cfg : Config) (d : Bool) (s : CfilState) (i : Fin 8)
    (data : Span)
    (hq : ((s.cfi_entries i).buf d).cfe_pending_q.q_mq.head? = some data)
    (hpass : ((s.cfi_entries i).buf d).cfe_pending_q.q_start + data.len ≤
      ((s.cfi_entries i).buf d).cfe_pass_offset)
    (h : chainInv cfg d s) :
    chainInv cfg d (s.modifyEntryBuf i d
      (fun b => { b with
        cfe_pending_q := cfil_queue_remove_head b.cfe_pending_q data.len })) := by
  obtain ⟨hF, hQ, hA, hB, hI, hC⟩ := h
  have hbi : ((s.modifyEntryBuf i d
      (fun b => { b with
        cfe_pending_q := cfil_queue_remove_head b.cfe_pending_q data.len })).cfi_entries
          i).buf d =
      { (s.cfi_entries i).buf d with
        cfe_pending_q :=
          cfil_queue_remove_head ((s.cfi_entries i).buf d).cfe_pending_q data.len } := by
    rw [entries_modifyEntryBuf_same, buf_setBuf_same]
  have hbo : ∀ d2, d2 ≠ d →
      ((s.modifyEntryBuf i d
        (fun b => { b with
          cfe_pending_q := cfil_queue_remove_head b.cfe_pending_q data.len })).cfi_entries
            i).buf d2 = (s.cfi_entries i).buf d2 := by
    intro d2 hd2
    rw [entries_modifyEntryBuf_same, buf_setBuf_other _ d d2 _ (fun h => hd2 h.symm)]
  have hoth : ∀ j, j ≠ i →
      (s.modifyEntryBuf i d
        (fun b => { b with
          cfe_pending_q := cfil_queue_remove_head b.cfe_pending_q data.len })).cfi_entries
            j = s.cfi_entries j :=
    fun j hj => entries_modifyEntryBuf_other s i j d _ hj
  have hctl : ∀ j,
      (((s.modifyEntryBuf i d
        (fun b => { b with
          cfe_pending_q := cfil_queue_remove_head b.cfe_pending_q data.len })).cfi_entries
            j).buf d).cfe_ctl_q = ((s.cfi_entries j).buf d).cfe_ctl_q := by
    intro j
    by_cases hj : j = i
    · rw [hj, hbi]
    · rw [hoth j hj]
  have hps : ∀ j,
      ((s.cfi_entries j).buf d).cfe_pending_q.q_start ≤
      (((s.modifyEntryBuf i d
        (fun b => { b with
          cfe_pending_q := cfil_queue_remove_head b.cfe_pending_q data.len })).cfi_entries
            j).buf d).cfe_pending_q.q_start := by
    intro j
    by_cases hj : j = i
    · rw [hj, hbi]
      dsimp only [cfil_queue_remove_head]
      omega
    · rw [hoth j hj]
  have hpass2 : ∀ j,
      (((s.modifyEntryBuf i d
        (fun b => { b with
          cfe_pending_q := cfil_queue_remove_head b.cfe_pending_q data.len })).cfi_entries
            j).buf d).cfe_pass_offset = ((s.cfi_entries j).buf d).cfe_pass_offset := by
    intro j
    by_cases hj : j = i
    · rw [hj, hbi]
    · rw [hoth j hj]
  refine ⟨fun j => ?_, ⟨fun j d2 => ?_, fun d2 => ?_⟩, fun j hj => ?_, ?_,
    fun e he => ?_, fun j hj => ?_⟩
  · by_cases hj : j = i
    · rw [hj, entries_modifyEntryBuf_same, setBuf_filter]
      exact hF i
    · rw [hoth j hj]
      exact hF j
  · by_cases hj : j = i
    · by_cases hd2 : d2 = d
      · rw [hj, hd2, hbi]
        exact ⟨(hQ.1 i d).1, QWF_remove_head (hQ.1 i d).2 hq⟩
      · rw [hj, hbo d2 hd2]
        exact hQ.1 i d2
    · rw [hoth j hj]
      exact hQ.1 j d2
  · rw [dirBuf_modifyEntryBuf]
    exact hQ.2 d2
  · by_cases hji : j = i
    · rw [hji, hbi]
      have h3 := hA j hj
      rw [hji] at h3
      exact h3
    · rw [hoth j hji]
      exact hA j hj
  · refine List.Chain'.imp ?_ hB
    intro a b hab
    rw [hctl b]
    exact hab.trans (hps a)
  · rw [dirBuf_modifyEntryBuf]
    exact (hI e he).trans (hps e)
  · by_cases hji : j = i
    · rw [hji, hbi]
      dsimp only [cfil_queue_remove_head]
      omega
    · rw [hoth j hji]
      exact hC j hj

/-- Appending a fully released span to the direction's inject queue keeps
the chain invariant when `i` closes the configured order and the span fits
under `i`'s pending-queue read cursor. -/
theorem chainInv_inject_enqueue (cfg : Config) (d : Bool) (s : CfilState)
    (pre : List (Fin 8)) (i : Fin 8) (data : Span)
    (hL : cfg.ordered = pre ++ [i])
    (hbound : (s.dirBuf d).cfi_inject_q.q_end + data.len ≤
      ((s.cfi_entries i).buf d).cfe_pending_q.q_start)
    (h : chainInv cfg d s) :
    chainInv cfg d (s.modifyDirBuf d
      (fun cb => { cb with
        cfi_inject_q := cfil_queue_enqueue cb.cfi_inject_q data })) := by
  obtain ⟨hF, hQ, hA, hB, hI, hC⟩ := h
  have hent := entries_modifyDirBuf s d
    (fun cb => { cb with cfi_inject_q := cfil_queue_enqueue cb.cfi_inject_q data })
  refine ⟨fun j => ?_, ⟨fun j d2 => ?_, fun d2 => ?_⟩, fun j hj => ?_, ?_,
    fun e he => ?_, fun j hj => ?_⟩
  · rw [hent]
    exact hF j
  · rw [hent]
    exact hQ.1 j d2
  · by_cases hd2 : d2 = d
    · rw [hd2, dirBuf_modifyDirBuf_same]
      exact QWF_enqueue (hQ.2 d) data
    · rw [dirBuf_modifyDirBuf_other s d d2 _ (fun h => hd2 h.symm)]
      exact hQ.2 d2
  · rw [hent]
    exact hA j hj
  · refine List.Chain'.imp ?_ hB
    intro a b hab
    rw [hent]
    exact hab
  · rw [hent, dirBuf_modifyDirBuf_same]
    have hei : e = i := by
      rw [hL, List.getLast?_concat] at he
      exact (Option.some_inj.mp he).symm
    rw [hei]
    dsimp only [cfil_queue_enqueue]
    exact hbound
  · rw [hent]
    exact hC j hj

/-- An attached entry's `cfil_data_filter` always reports `EJUSTRETURN`. -/
theorem dataFilter_fst_attached (cfg : Config) (s : CfilState) (i : Fin 8)
    (after : List (Fin 8)) (d : Bool) (data : Span)
    (hatt : (s.cfi_entries i).cfe_filter = true) :
    (cfil_data_filter cfg s i after d data).1 = EJUSTRETURN := by
  rw [cfil_data_filter]
  rw [if_neg (by simp [hatt])]

/-- A chain walk whose head is attached stops there: the head claims the
span. -/
theorem dataFilterChain_attached (cfg : Config) (s : CfilState) (j : Fin 8)
    (rest : List (Fin 8)) (d : Bool) (data : Span)
    (hatt : (s.cfi_entries j).cfe_filter = true) :
    dataFilterChain cfg s (j :: rest) d data =
      (EJUSTRETURN, (cfil_data_filter cfg s j rest d data).2) := by
  rw [dataFilterChain]
  rcases hflt : cfil_data_filter cfg s j rest d data with ⟨er, s4⟩
  have hfst : er = EJUSTRETURN := by
    have h := dataFilter_fst_attached cfg s j rest d data hatt
    rw [hflt] at h
    exact h
  simp only [hflt]
  rw [hfst]
  rw [if_pos (by decide : EJUSTRETURN ≠ 0)]

/-- Preservation of the chaining invariant by the whole mutually recursive
service nest, by strong induction on the remaining chain length.  Each
component is stated for a genuine suffix `i :: after` (resp. `after`) of
the configured order; the pending-queue loop carries its cursor relation
and `cfil_data_filter` the bound that lets the claimed span slide under its
predecessor's read cursor. -/
theorem inv_master (cfg : Config) (d : Bool) (hnd : cfg.ordered.Nodup) (n : Nat) :
    (∀ s (i : Fin 8) after pre, after.length = n →
        cfg.ordered = pre ++ i :: after → chainInv cfg d s →
        chainInv cfg d (cfil_data_service_ctl_q cfg s i after d).2) ∧
    (∀ s (i : Fin 8) after pre, after.length = n →
        cfg.ordered = pre ++ i :: after → chainInv cfg d s →
        chainInv cfg d (serviceCtlQMain cfg s i after d).2) ∧
    (∀ s (i : Fin 8) after pre, after.length = n →
        cfg.ordered = pre ++ i :: after → chainInv cfg d s →
        chainInv cfg d (cfil_service_pending_queue cfg s i after d).2) ∧
    (∀ s after pre, after.length = n → cfg.ordered = pre ++ after →
        chainInv cfg d s → chainInv cfg d (pendingEmptyWalk cfg s after d).2) ∧
    (∀ s (i : Fin 8) after pre (passlen curlen : Nat) (err : Int) (fuel : Nat),
        after.length = n → cfg.ordered = pre ++ i :: after →
        chainInv cfg d s →
        ((s.cfi_entries i).buf d).cfe_pending_q.q_start + passlen ≤
          ((s.cfi_entries i).buf d).cfe_pass_offset + curlen →
        chainInv cfg d
          (pendingServiceLoop cfg s i after d passlen curlen err fuel).2) ∧
    (∀ s (i : Fin 8) after pre data, after.length = n →
        cfg.ordered = pre ++ i :: after →
        (∀ p, pre.getLast? = some p →
          ((s.cfi_entries i).buf d).cfe_ctl_q.q_end + data.len ≤
            ((s.cfi_entries p).buf d).cfe_pending_q.q_start) →
        chainInv cfg d s →
        chainInv cfg d (cfil_data_filter cfg s i after d data).2) := by
  induction n using Nat.strong_induction_on with
  | _ n ih =>
    have hWk : ∀ s after pre, after.length = n → cfg.ordered = pre ++ after →
        chainInv cfg d s → chainInv cfg d (pendingEmptyWalk cfg s after d).2 := by
      intro s after pre hlen hL hinv
      cases after with
      | nil =>
        rw [pendingEmptyWalk]
        exact hinv
      | cons j rest =>
        have hlt : rest.length < n := by simp at hlen; omega
        rcases hsq : cfil_data_service_ctl_q cfg s j rest d with ⟨er, s1⟩
        have h1 := (ih rest.length hlt).1 s j rest pre rfl hL hinv
        rw [hsq] at h1
        rw [pendingEmptyWalk]
        simp only [hsq]
        have hL2 : cfg.ordered = (pre ++ [j]) ++ rest := by
          rw [hL, List.append_assoc]
          rfl
        split_ifs
        · exact h1
        · exact (ih rest.length hlt).2.2.2.1 s1 rest (pre ++ [j]) rfl hL2 h1
    have hLp : ∀ s (i : Fin 8) after pre (passlen curlen : Nat) (err : Int)
        (fuel : Nat), after.length = n → cfg.ordered = pre ++ i :: after →
        chainInv cfg d s →
        ((s.cfi_entries i).buf d).cfe_pending_q.q_start + passlen ≤
          ((s.cfi_entries i).buf d).cfe_pass_offset + curlen →
        chainInv cfg d
          (pendingServiceLoop cfg s i after d passlen curlen err fuel).2 := by
      intro s i after pre passlen curlen err fuel hlen hL
      obtain ⟨hipre, hiafter⟩ := nodup_junction hnd hL
      cases after with
      | nil =>
        have hL1 : cfg.ordered = pre ++ [i] := hL
        have hlast : cfg.ordered.getLast? = some i := by
          rw [hL1]
          exact List.getLast?_concat ..
        induction fuel generalizing s curlen err with
        | zero =>
          intro hinv hcur
          rw [pendingServiceLoop]
          exact hinv
        | succ fuel ihf =>
          intro hinv hcur
          rw [pendingServiceLoop]
          cases hmq : ((s.cfi_entries i).buf d).cfe_pending_q.q_mq.head? with
          | none =>
            simp only [hmq]
            exact hinv
          | some data =>
            simp only [hmq]
            by_cases hcl : curlen + data.len > passlen
            · simp only [if_pos hcl]
              exact hinv
            · simp only [if_neg hcl]
              have hpassb : ((s.cfi_entries i).buf d).cfe_pending_q.q_start +
                  data.len ≤ ((s.cfi_entries i).buf d).cfe_pass_offset := by
                omega
              have hinv1 := chainInv_pending_remove cfg d s i data hmq hpassb hinv
              have hch : dataFilterChain cfg
                  (s.modifyEntryBuf i d (fun b =>
                    { b with cfe_pending_q :=
                        cfil_queue_remove_head b.cfe_pending_q data.len }))
                  [] d data =
                  (0, s.modifyEntryBuf i d (fun b =>
                    { b with cfe_pending_q :=
                        cfil_queue_remove_head b.cfe_pending_q data.len })) := by
                rw [dataFilterChain]
              simp only [hch]
              rw [if_pos trivial]
              have hpend1 : (((s.modifyEntryBuf i d (fun b =>
                  { b with cfe_pending_q :=
                      cfil_queue_remove_head b.cfe_pending_q data.len })).cfi_entries
                    i).buf d).cfe_pending_q.q_start =
                  ((s.cfi_entries i).buf d).cfe_pending_q.q_start + data.len := by
                rw [entries_modifyEntryBuf_same, buf_setBuf_same]
                rfl
              have hpass1 : (((s.modifyEntryBuf i d (fun b =>
                  { b with cfe_pending_q :=
                      cfil_queue_remove_head b.cfe_pending_q data.len })).cfi_entries
                    i).buf d).cfe_pass_offset =
                  ((s.cfi_entries i).buf d).cfe_pass_offset := by
                rw [entries_modifyEntryBuf_same, buf_setBuf_same]
              have hbound : ((s.modifyEntryBuf i d (fun b =>
                  { b with cfe_pending_q :=
                      cfil_queue_remove_head b.cfe_pending_q data.len })).dirBuf
                    d).cfi_inject_q.q_end + data.len ≤
                  (((s.modifyEntryBuf i d (fun b =>
                    { b with cfe_pending_q :=
                        cfil_queue_remove_head b.cfe_pending_q data.len })).cfi_entries
                      i).buf d).cfe_pending_q.q_start := by
                rw [dirBuf_modifyEntryBuf, hpend1]
                have hi2 := hinv.2.2.2.2.1 i hlast
                omega
              have hinv3 := chainInv_inject_enqueue cfg d _ pre i data hL1 hbound hinv1
              refine ihf _ _ _ hinv3 ?_
              rw [congrFun (entries_modifyDirBuf _ d _) i, hpend1, hpass1]
              omega
      | cons j rest =>
        have hij : i ≠ j := fun h => hiafter (h ▸ List.mem_cons_self j rest)
        have hirest : i ∉ rest := fun h => hiafter (List.mem_cons_of_mem j h)
        have hlt : rest.length < n := by simp at hlen; omega
        have hjL : j ∈ cfg.ordered := by
          rw [hL]
          exact List.mem_append_right pre (List.mem_cons_of_mem i (List.mem_cons_self j rest))
        have hL2 : cfg.ordered = (pre ++ [i]) ++ j :: rest := by
          rw [hL, List.append_assoc]
          rfl
        have hlast2 : (pre ++ [i]).getLast? = some i := List.getLast?_concat ..
        induction fuel generalizing s curlen err with
        | zero =>
          intro hinv hcur
          rw [pendingServiceLoop]
          exact hinv
        | succ fuel ihf =>
          intro hinv hcur
          rw [pendingServiceLoop]
          cases hmq : ((s.cfi_entries i).buf d).cfe_pending_q.q_mq.head? with
          | none =>
            simp only [hmq]
            exact hinv
          | some data =>
            simp only [hmq]
            by_cases hcl : curlen + data.len > passlen
            · simp only [if_pos hcl]
              exact hinv
            · simp only [if_neg hcl]
              have hpassb : ((s.cfi_entries i).buf d).cfe_pending_q.q_start +
                  data.len ≤ ((s.cfi_entries i).buf d).cfe_pass_offset := by
                omega
              have hinv1 := chainInv_pending_remove cfg d s i data hmq hpassb hinv
              have hatt : (((s.modifyEntryBuf i d (fun b =>
                  { b with cfe_pending_q :=
                      cfil_queue_remove_head b.cfe_pending_q data.len })).cfi_entries
                    j).cfe_filter) = true := by
                rw [hinv1.1 j]
                simp [hjL]
              have hch := dataFilterChain_attached cfg
                (s.modifyEntryBuf i d (fun b =>
                  { b with cfe_pending_q :=
                      cfil_queue_remove_head b.cfe_pending_q data.len }))
                j rest d data hatt
              simp only [hch]
              rw [if_neg (by decide : ¬ (EJUSTRETURN = 0))]
              have hpend1 : (((s.modifyEntryBuf i d (fun b =>
                  { b with cfe_pending_q :=
                      cfil_queue_remove_head b.cfe_pending_q data.len })).cfi_entries
                    i).buf d).cfe_pending_q.q_start =
                  ((s.cfi_entries i).buf d).cfe_pending_q.q_start + data.len := by
                rw [entries_modifyEntryBuf_same, buf_setBuf_same]
                rfl
              have hd4 : ∀ p, (pre ++ [i]).getLast? = some p →
                  (((s.modifyEntryBuf i d (fun b =>
                    { b with cfe_pending_q :=
                        cfil_queue_remove_head b.cfe_pending_q data.len })).cfi_entries
                      j).buf d).cfe_ctl_q.q_end + data.len ≤
                  (((s.modifyEntryBuf i d (fun b =>
                    { b with cfe_pending_q :=
                        cfil_queue_remove_head b.cfe_pending_q data.len })).cfi_entries
                      p).buf d).cfe_pending_q.q_start := by
                intro p hp
                have hpi : p = i := by
                  rw [hlast2] at hp
                  exact Option.some_inj.mp hp.symm
                rw [hpi, hpend1,
                  entries_modifyEntryBuf_other s i j d _ (fun h => hij h.symm)]
                have hB := hinv.2.2.2.1
                rw [hL] at hB
                have := chain_pair pre i j rest hB
                omega
              have hinv4 := (ih rest.length hlt).2.2.2.2.2
                (s.modifyEntryBuf i d (fun b =>
                  { b with cfe_pending_q :=
                      cfil_queue_remove_head b.cfe_pending_q data.len }))
                j rest (pre ++ [i]) data rfl hL2 hd4 hinv1
              have hloc := (locality_master rest.length).2.2.2.2.2.2 cfg
                (s.modifyEntryBuf i d (fun b =>
                  { b with cfe_pending_q :=
                      cfil_queue_remove_head b.cfe_pending_q data.len }))
                j rest d data i rfl hij hirest
              refine ihf _ _ _ hinv4 ?_
              rw [hloc]
              rw [hpend1]
              have hpass1 : (((s.modifyEntryBuf i d (fun b =>
                  { b with cfe_pending_q :=
                      cfil_queue_remove_head b.cfe_pending_q data.len })).cfi_entries
                    i).buf d).cfe_pass_offset =
                  ((s.cfi_entries i).buf d).cfe_pass_offset := by
                rw [entries_modifyEntryBuf_same, buf_setBuf_same]
              rw [hpass1]
              omega
    have hPd : ∀ s (i : Fin 8) after pre, after.length = n →
        cfg.ordered = pre ++ i :: after → chainInv cfg d s →
        chainInv cfg d (cfil_service_pending_queue cfg s i after d).2 := by
      intro s i after pre hlen hL hinv
      have hiL : i ∈ cfg.ordered := by
        rw [hL]
        exact List.mem_append_right pre (List.mem_cons_self i after)
      have hC := hinv.2.2.2.2.2 i hiL
      simp only [cfil_service_pending_queue]
      split_ifs
      · refine hWk s after (pre ++ [i]) hlen ?_ hinv
        rw [hL, List.append_assoc]
        rfl
      · exact hLp s i after pre _ 0 0 _ hlen hL hinv (by omega)
    have hMn : ∀ s (i : Fin 8) after pre, after.length = n →
        cfg.ordered = pre ++ i :: after → chainInv cfg d s →
        chainInv cfg d (serviceCtlQMain cfg s i after d).2 := by
      intro s i after pre hlen hL hinv
      simp only [serviceCtlQMain]
      have hinv1 := chainInv_moveLoop cfg d s i hinv
      have hinv2 := chainInv_of_QFrame
        (QFrame_peekLoop (s.modifyEntryBuf i d ctlQMoveLoop) i d
          (((s.modifyEntryBuf i d ctlQMoveLoop).cfi_entries i).buf d).cfe_ctl_q.q_mq
          (((s.modifyEntryBuf i d ctlQMoveLoop).cfi_entries i).buf d).cfe_ctl_q.q_start)
        cfg d hinv1
      rcases hp : cfil_service_pending_queue cfg
          (ctlQPeekLoop (s.modifyEntryBuf i d ctlQMoveLoop) i d
            (((s.modifyEntryBuf i d ctlQMoveLoop).cfi_entries i).buf d).cfe_ctl_q.q_mq
            (((s.modifyEntryBuf i d ctlQMoveLoop).cfi_entries i).buf d).cfe_ctl_q.q_start)
          i after d with ⟨er, s3⟩
      have h3 := hPd _ i after pre hlen hL hinv2
      rw [hp] at h3
      simp only [hp]
      split_ifs <;>
        first
          | exact h3
          | exact chainInv_of_QFrame (QFrame_dispatch_disconnect s3 i true) cfg d h3
          | exact chainInv_of_QFrame (QFrame_dispatch_disconnect s3 i false) cfg d h3
    have hSq : ∀ s (i : Fin 8) after pre, after.length = n →
        cfg.ordered = pre ++ i :: after → chainInv cfg d s →
        chainInv cfg d (cfil_data_service_ctl_q cfg s i after d).2 := by
      intro s i after pre hlen hL hinv
      simp only [cfil_data_service_ctl_q]
      rcases ha : cfil_dispatch_attach_event s i with ⟨er, s1⟩
      have hat := chainInv_of_QFrame (QFrame_dispatch_attach s i) cfg d hinv
      rw [ha] at hat
      simp only [ha]
      split_ifs <;>
        first
          | exact hinv
          | exact hat
          | exact hMn s1 i after pre hlen hL hat
          | exact hMn s i after pre hlen hL hinv
    have hFl : ∀ s (i : Fin 8) after pre data, after.length = n →
        cfg.ordered = pre ++ i :: after →
        (∀ p, pre.getLast? = some p →
          ((s.cfi_entries i).buf d).cfe_ctl_q.q_end + data.len ≤
            ((s.cfi_entries p).buf d).cfe_pending_q.q_start) →
        chainInv cfg d s →
        chainInv cfg d (cfil_data_filter cfg s i after d data).2 := by
      intro s i after pre data hlen hL hjunc hinv
      simp only [cfil_data_filter]
      split_ifs with h <;>
        first
          | exact hinv
          | exact hSq _ i after pre hlen hL
              (chainInv_ctl_enqueue cfg d s i pre after data hnd hL hjunc hinv)
    exact ⟨hSq, hMn, hPd, hWk, hLp, hFl⟩

/-- A cascade on one direction cannot disturb the other direction's chain
invariant (given the attachment bits are also untouched). -/
theorem chainInv_other_of_cascade {d2 : Bool} {s t : CfilState} {p : Nat}
    (hc : CascadeOut d2 p s t)
    (hfil : ∀ j, (t.cfi_entries j).cfe_filter = (s.cfi_entries j).cfe_filter)
    (cfg : Config) (d : Bool) (hd : d ≠ d2) (h : chainInv cfg d s) :
    chainInv cfg d t := by
  have hdn : d = !d2 := by cases d <;> cases d2 <;> simp_all
  have hbuf : ∀ j, (t.cfi_entries j).buf d = (s.cfi_entries j).buf d := by
    intro j
    rw [hdn]
    exact hc.1.2.1 j
  have hdir : t.dirBuf d = s.dirBuf d := by
    rw [hdn]
    exact hc.1.2.2.1
  obtain ⟨hF, hQ, hA, hB, hI, hC⟩ := h
  refine ⟨fun j => by rw [hfil j]; exact hF j, hc.2.2 hQ,
    fun j hj => by rw [hbuf j]; exact hA j hj, ?_,
    fun e he => by rw [hdir, hbuf e]; exact hI e he,
    fun j hj => by rw [hbuf j]; exact hC j hj⟩
  refine List.Chain'.imp ?_ hB
  intro a b hab
  rw [hbuf b, hbuf a]
  exact hab

/-- Like `chainInv_of_QFrame`, but the pass offsets may also rise. -/
theorem chainInv_pass_raise {cfg : Config} {d : Bool} {s t : CfilState}
    (hfil : ∀ j, (t.cfi_entries j).cfe_filter = (s.cfi_entries j).cfe_filter)
    (hctl : ∀ j, ((t.cfi_entries j).buf d).cfe_ctl_q = ((s.cfi_entries j).buf d).cfe_ctl_q)
    (hpend : ∀ j, ((t.cfi_entries j).buf d).cfe_pending_q =
      ((s.cfi_entries j).buf d).cfe_pending_q)
    (hq : QWFAll s → QWFAll t)
    (hinj : (t.dirBuf d).cfi_inject_q = (s.dirBuf d).cfi_inject_q)
    (hpass : ∀ j, ((s.cfi_entries j).buf d).cfe_pass_offset ≤
      ((t.cfi_entries j).buf d).cfe_pass_offset)
    (h : chainInv cfg d s) : chainInv cfg d t := by
  obtain ⟨hF, hQ, hA, hB, hI, hC⟩ := h
  refine ⟨fun j => by rw [hfil j]; exact hF j, hq hQ,
    fun j hj => by rw [hpend j, hctl j]; exact hA j hj, ?_,
    fun e he => by rw [hinj, hpend e]; exact hI e he,
    fun j hj => by rw [hpend j]; exact (hC j hj).trans (hpass j)⟩
  refine List.Chain'.imp ?_ hB
  intro a b hab
  rw [hctl b, hpend a]
  exact hab

/-- Recording a `DATA_UPDATE` verdict on one entry buffer preserves the
chain invariant of both directions: the queues do not move and the pass
offset can only rise. -/
theorem chainInv_set_verdict_buf (cfg : Config) (s : CfilState) (i : Fin 8)
    (d2 : Bool) (po pk : Nat) (d : Bool) (h : chainInv cfg d s) :
    chainInv cfg d (s.modifyEntryBuf i d2
      (fun _ => (applyVerdictOffsets ((s.cfi_entries i).buf d2) po pk).1)) := by
  have hqs := applyVerdictOffsets_queues ((s.cfi_entries i).buf d2) po pk
  have hfil : ∀ j, ((s.modifyEntryBuf i d2
      (fun _ => (applyVerdictOffsets ((s.cfi_entries i).buf d2) po pk).1)).cfi_entries
        j).cfe_filter = (s.cfi_entries j).cfe_filter := by
    intro j
    by_cases hj : j = i
    · rw [hj, entries_modifyEntryBuf_same, setBuf_filter]
    · rw [entries_modifyEntryBuf_other s i j d2 _ hj]
  have hbuf : ∀ j d3,
      ((((s.modifyEntryBuf i d2
        (fun _ => (applyVerdictOffsets ((s.cfi_entries i).buf d2) po pk).1)).cfi_entries
          j).buf d3).cfe_ctl_q = ((s.cfi_entries j).buf d3).cfe_ctl_q) ∧
      ((((s.modifyEntryBuf i d2
        (fun _ => (applyVerdictOffsets ((s.cfi_entries i).buf d2) po pk).1)).cfi_entries
          j).buf d3).cfe_pending_q = ((s.cfi_entries j).buf d3).cfe_pending_q) ∧
      (((s.cfi_entries j).buf d3).cfe_pass_offset ≤
        (((s.modifyEntryBuf i d2
          (fun _ => (applyVerdictOffsets ((s.cfi_entries i).buf d2) po pk).1)).cfi_entries
            j).buf d3).cfe_pass_offset) := by
    intro j d3
    by_cases hj : j = i
    · by_cases hd3 : d3 = d2
      · rw [hj, hd3, entries_modifyEntryBuf_same, buf_setBuf_same]
        exact ⟨hqs.1, hqs.2,
          (applyVerdictOffsets_mono ((s.cfi_entries i).buf d2) po pk).1⟩
      · rw [hj, entries_modifyEntryBuf_same,
          buf_setBuf_other _ d2 d3 _ (fun h2 => hd3 h2.symm)]
        exact ⟨rfl, rfl, le_refl _⟩
    · rw [entries_modifyEntryBuf_other s i j d2 _ hj]
      exact ⟨rfl, rfl, le_refl _⟩
  refine chainInv_pass_raise hfil (fun j => (hbuf j d).1) (fun j => (hbuf j d).2.1)
    ?_ (by rw [dirBuf_modifyEntryBuf]) (fun j => (hbuf j d).2.2) h
  intro hQ
  refine ⟨fun j d3 => ?_, fun d3 => ?_⟩
  · rw [(hbuf j d3).1, (hbuf j d3).2.1]
    exact hQ.1 j d3
  · rw [dirBuf_modifyEntryBuf]
    exact hQ.2 d3

/-- Removing the head span of the inject queue (the re-inject step)
preserves both directions' chain invariants: the queue's end offset does
not move. -/
theorem chainInv_inject_remove (cfg : Config) (s : CfilState) (d2 : Bool)
    (data : Span)
    (hq : (s.dirBuf d2).cfi_inject_q.q_mq.head? = some data)
    (d : Bool) (h : chainInv cfg d s) :
    chainInv cfg d (s.modifyDirBuf d2 (fun cb =>
      { cb with
        cfi_inject_q := cfil_queue_remove_head cb.cfi_inject_q data.len
        cfi_pending_first := cb.cfi_pending_first + data.len
        cfi_pending_mbcnt := cb.cfi_pending_mbcnt - data.mbcnt
        cfi_pending_mbnum := cb.cfi_pending_mbnum - data.mbnum })) := by
  obtain ⟨hF, hQ, hA, hB, hI, hC⟩ := h
  have hent := entries_modifyDirBuf s d2 (fun cb =>
      { cb with
        cfi_inject_q := cfil_queue_remove_head cb.cfi_inject_q data.len
        cfi_pending_first := cb.cfi_pending_first + data.len
        cfi_pending_mbcnt := cb.cfi_pending_mbcnt - data.mbcnt
        cfi_pending_mbnum := cb.cfi_pending_mbnum - data.mbnum })
  refine ⟨fun j => by rw [hent]; exact hF j, ⟨fun j d3 => by rw [hent]; exact hQ.1 j d3,
    fun d3 => ?_⟩, fun j hj => by rw [hent]; exact hA j hj, ?_, fun e he => ?_,
    fun j hj => by rw [hent]; exact hC j hj⟩
  · by_cases hd3 : d3 = d2
    · rw [hd3, dirBuf_modifyDirBuf_same]
      exact QWF_remove_head (hQ.2 d2) hq
    · rw [dirBuf_modifyDirBuf_other s d2 d3 _ (fun h2 => hd3 h2.symm)]
      exact hQ.2 d3
  · refine List.Chain'.imp ?_ hB
    intro a b hab
    rw [hent]
    exact hab
  · rw [hent]
    by_cases hd : d = d2
    · rw [hd, dirBuf_modifyDirBuf_same]
      dsimp only [cfil_queue_remove_head]
      rw [← hd]
      exact hI e he
    · rw [dirBuf_modifyDirBuf_other s d2 d _ (fun h2 => hd h2.symm)]
      exact hI e he

/-- The inject-queue drain loop preserves both directions' chain
invariants. -/
theorem chainInv_injectLoop (cfg : Config) (d2 : Bool) (fuel : Nat)
    (s : CfilState) (d : Bool) (h : chainInv cfg d s) :
    chainInv cfg d (injectLoop s d2 fuel).2 := by
  induction fuel generalizing s with
  | zero =>
    rw [injectLoop]
    exact h
  | succ fuel ihf =>
    rw [injectLoop]
    cases hmq : (s.dirBuf d2).cfi_inject_q.q_mq.head? with
    | none =>
      simp only [hmq]
      exact h
    | some data =>
      simp only [hmq]
      have h1 := chainInv_inject_remove cfg s d2 data hmq d h
      cases d2 with
      | false =>
        simp only [Bool.false_eq_true, if_false]
        exact ihf _ h1
      | true =>
        simp only [if_true]
        rcases ho : popOracle (s.modifyDirBuf true (fun cb =>
          { cb with
            cfi_inject_q := cfil_queue_remove_head cb.cfi_inject_q data.len
            cfi_pending_first := cb.cfi_pending_first + data.len
            cfi_pending_mbcnt := cb.cfi_pending_mbcnt - data.mbcnt
            cfi_pending_mbnum := cb.cfi_pending_mbnum - data.mbnum })) with ⟨er, s2⟩
        have h2 := chainInv_of_QFrame (QFrame_popOracle _) cfg d h1
        rw [ho] at h2
        simp only [ho]
        split_ifs
        · exact h2
        · exact ihf _ h2

/-- `cfil_service_inject_queue` preserves both directions' chain
invariants. -/
theorem chainInv_service_inject (cfg : Config) (s : CfilState) (d2 : Bool)
    (d : Bool) (h : chainInv cfg d s) :
    chainInv cfg d (cfil_service_inject_queue s d2).2 := by
  unfold cfil_service_inject_queue
  by_cases h1 : s.so_defunct = true
  · rw [if_pos h1]
    exact h
  · rw [if_neg h1]
    dsimp only
    cases d2 with
    | true =>
      rw [if_pos rfl]
      have h2 : chainInv cfg d { s with cfi_retry_inject_out := false } :=
        chainInv_of_QFrame (QFrame_of_frames rfl (fun d3 => by cases d3 <;> rfl))
          cfg d h
      by_cases h3 : cfil_queue_empty
          (({ s with cfi_retry_inject_out := false } : CfilState).dirBuf
            true).cfi_inject_q = true
      · rw [if_pos h3]
        exact h2
      · rw [if_neg h3]
        rcases hil : injectLoop { s with cfi_retry_inject_out := false } true
            ((({ s with cfi_retry_inject_out := false } : CfilState).dirBuf
              true).cfi_inject_q.q_mq.length) with ⟨er, s3⟩
        have h4 := chainInv_injectLoop cfg true
          ((({ s with cfi_retry_inject_out := false } : CfilState).dirBuf
            true).cfi_inject_q.q_mq.length)
          { s with cfi_retry_inject_out := false } d h2
        rw [hil] at h4
        simp only [hil]
        refine chainInv_of_QFrame (QFrame_wakeup _) cfg d ?_
        split_ifs <;>
          first
            | exact h4
            | exact chainInv_of_QFrame
                (QFrame_of_frames rfl (fun d3 => by cases d3 <;> rfl)) cfg d h4
    | false =>
      rw [if_neg (show ¬ ((false : Bool) = true) by simp)]
      have h2 : chainInv cfg d { s with cfi_retry_inject_in := false } :=
        chainInv_of_QFrame (QFrame_of_frames rfl (fun d3 => by cases d3 <;> rfl))
          cfg d h
      by_cases h3 : cfil_queue_empty
          (({ s with cfi_retry_inject_in := false } : CfilState).dirBuf
            false).cfi_inject_q = true
      · rw [if_pos h3]
        exact h2
      · rw [if_neg h3]
        rcases hil : injectLoop { s with cfi_retry_inject_in := false } false
            ((({ s with cfi_retry_inject_in := false } : CfilState).dirBuf
              false).cfi_inject_q.q_mq.length) with ⟨er, s3⟩
        have h4 := chainInv_injectLoop cfg false
          ((({ s with cfi_retry_inject_in := false } : CfilState).dirBuf
            false).cfi_inject_q.q_mq.length)
          { s with cfi_retry_inject_in := false } d h2
        rw [hil] at h4
        simp only [hil]
        refine chainInv_of_QFrame (QFrame_wakeup _) cfg d ?_
        split_ifs <;>
          first
            | exact h4
            | exact chainInv_of_QFrame
                (QFrame_of_frames rfl (fun d3 => by cases d3 <;> rfl)) cfg d h4

/-- Refreshing the cached socket pass offset is invisible to the chain
invariant. -/
theorem QFrame_set_socket_pass (s : CfilState) (d2 : Bool) :
    QFrame s (cfil_set_socket_pass_offset s d2) := by
  unfold cfil_set_socket_pass_offset
  dsimp only
  split_ifs
  · refine ⟨fun j => by rw [entries_modifyDirBuf], fun j d3 => ?_, fun d3 => ?_⟩
    · rw [entries_modifyDirBuf]
      exact ⟨rfl, rfl, rfl⟩
    · by_cases hd3 : d3 = d2
      · rw [hd3, dirBuf_modifyDirBuf_same]
      · rw [dirBuf_modifyDirBuf_other s d2 d3 _ (fun h2 => hd3 h2.symm)]
  · exact QFrame.reflQ s

/-- The flushed flow satisfies the chain invariant outright: every queue
is empty with both cursors at zero. -/
theorem chainInv_flush (cfg : Config) (s : CfilState) (d : Bool)
    (hF : ∀ j : Fin 8, (s.cfi_entries j).cfe_filter = decide (j ∈ cfg.ordered)) :
    chainInv cfg d (cfil_flush_queues s) := by
  have hbuf : ∀ (j : Fin 8) (d3 : Bool),
      ((cfil_flush_queues s).cfi_entries j).buf d3 =
        flushEntryBuf ((s.cfi_entries j).buf d3) := by
    intro j d3
    cases d3 <;> rfl
  have hinj : ∀ d3 : Bool, ((cfil_flush_queues s).dirBuf d3).cfi_inject_q =
      (cfil_queue_drain ((s.dirBuf d3).cfi_inject_q)).2 := by
    intro d3
    cases d3 <;> rfl
  refine ⟨fun j => (flush_flags s j).1.trans (hF j),
    ⟨fun j d3 => ?_, fun d3 => ?_⟩, fun j hj => ?_, ?_, fun e he => ?_, fun j hj => ?_⟩
  · rw [hbuf j d3]
    dsimp only [flushEntryBuf]
    exact ⟨QWF_drained _, QWF_drained _⟩
  · rw [hinj d3]
    exact QWF_drained _
  · rw [hbuf j d]
    rfl
  · refine chain'_of_all ?_ cfg.ordered
    intro a b
    rw [hbuf a d, hbuf b d]
    exact Nat.le_refl 0
  · rw [hinj d, hbuf e d]
    exact Nat.zero_le _
  · rw [hbuf j d]
    exact Nat.zero_le _

theorem QWF_updateEntryBufOffsets (len : Nat) (b : CfeBuf) :
    (QWF b.cfe_ctl_q → QWF (updateEntryBufOffsets len b).cfe_ctl_q) ∧
    (QWF b.cfe_pending_q → QWF (updateEntryBufOffsets len b).cfe_pending_q) := by
  unfold updateEntryBufOffsets QWF
  dsimp only
  constructor <;> intro h
  · have hq : qBytes { b.cfe_ctl_q with
        q_start := b.cfe_ctl_q.q_start + len
        q_end := b.cfe_ctl_q.q_end + len } = qBytes b.cfe_ctl_q := rfl
    dsimp only at hq ⊢
    omega
  · have hq : qBytes { b.cfe_pending_q with
        q_start := b.cfe_pending_q.q_start + len
        q_end := b.cfe_pending_q.q_end + len } = qBytes b.cfe_pending_q := rfl
    dsimp only at hq ⊢
    omega

theorem QWFAll_update_entry_offsets (s : CfilState) (d2 : Bool) (len : Nat)
    (h : QWFAll s) : QWFAll (cfil_update_entry_offsets s d2 len) := by
  refine ⟨fun j d3 => ?_, fun d3 => by rw [update_entry_offsets_dirBuf]; exact h.2 d3⟩
  rw [update_entry_offsets_entries]
  split_ifs with hf
  · by_cases hd3 : d3 = d2
    · rw [hd3, buf_setBuf_same]
      exact ⟨(QWF_updateEntryBufOffsets len _).1 (h.1 j d2).1,
             (QWF_updateEntryBufOffsets len _).2 (h.1 j d2).2⟩
    · rw [buf_setBuf_other _ d2 d3 _ (fun h2 => hd3 h2.symm)]
      exact h.1 j d3
  · exact h.1 j d3

theorem updateEntryBufOffsets_facts (len : Nat) (b : CfeBuf) :
    (updateEntryBufOffsets len b).cfe_ctl_q.q_start = b.cfe_ctl_q.q_start + len ∧
    (updateEntryBufOffsets len b).cfe_ctl_q.q_end = b.cfe_ctl_q.q_end + len ∧
    (updateEntryBufOffsets len b).cfe_pending_q.q_start =
      b.cfe_pending_q.q_start + len ∧
    (updateEntryBufOffsets len b).cfe_pending_q.q_end =
      b.cfe_pending_q.q_end + len ∧
    b.cfe_ctl_q.q_start + len ≤ (updateEntryBufOffsets len b).cfe_pass_offset := by
  unfold updateEntryBufOffsets
  dsimp only
  refine ⟨rfl, rfl, rfl, rfl, ?_⟩
  split_ifs <;> omega

/-- The fast-path per-entry bookkeeping preserves both directions' chain
invariants: every attached entry's cursors advance in lockstep and its
pass offset is ratcheted up to at least the new control-queue start. -/
theorem chainInv_update_entry_offsets (cfg : Config) (s : CfilState) (d2 : Bool)
    (len : Nat) (d : Bool) (h : chainInv cfg d s) :
    chainInv cfg d (cfil_update_entry_offsets s d2 len) := by
  obtain ⟨hF, hQ, hA, hB, hI, hC⟩ := h
  by_cases hd : d = d2
  · subst hd
    have hatt : ∀ j, j ∈ cfg.ordered → (s.cfi_entries j).cfe_filter = true := by
      intro j hj
      rw [hF j]
      simp [hj]
    have hbufm : ∀ j, j ∈ cfg.ordered →
        ((cfil_update_entry_offsets s d len).cfi_entries j).buf d =
          updateEntryBufOffsets len ((s.cfi_entries j).buf d) := by
      intro j hj
      rw [update_entry_offsets_entries, if_pos (hatt j hj), buf_setBuf_same]
    refine ⟨fun j => ?_, QWFAll_update_entry_offsets s d len ⟨hQ.1, hQ.2⟩,
      fun j hj => ?_, ?_, fun e he => ?_, fun j hj => ?_⟩
    · rw [update_entry_offsets_entries]
      split_ifs
      · rw [setBuf_filter]
        exact hF j
      · exact hF j
    · rw [hbufm j hj]
      have hfx := updateEntryBufOffsets_facts len ((s.cfi_entries j).buf d)
      have h3 := hA j hj
      omega
    · refine chain'_imp_mem cfg.ordered hB ?_
      intro a b ha hb hab
      rw [hbufm b hb, hbufm a ha]
      have hfb := updateEntryBufOffsets_facts len ((s.cfi_entries b).buf d)
      have hfa := updateEntryBufOffsets_facts len ((s.cfi_entries a).buf d)
      omega
    · have heL : e ∈ cfg.ordered := getLast?_mem_list he
      rw [update_entry_offsets_dirBuf, hbufm e heL]
      have hfx := updateEntryBufOffsets_facts len ((s.cfi_entries e).buf d)
      have h3 := hI e he
      omega
    · rw [hbufm j hj]
      have hfx := updateEntryBufOffsets_facts len ((s.cfi_entries j).buf d)
      have h3 := hA j hj
      have h4 := (hQ.1 j d).2.1
      omega
  · refine chainInv_pass_raise (fun j => ?_) (fun j => ?_) (fun j => ?_)
      (fun hq2 => QWFAll_update_entry_offsets s d2 len hq2)
      (by rw [update_entry_offsets_dirBuf]) (fun j => ?_) ⟨hF, hQ, hA, hB, hI, hC⟩
    · rw [update_entry_offsets_entries]
      split_ifs
      · rw [setBuf_filter]
      · rfl
    · rw [update_entry_offsets_entries]
      split_ifs
      · rw [buf_setBuf_other _ d2 d _ (fun h2 => hd h2.symm)]
      · rfl
    · rw [update_entry_offsets_entries]
      split_ifs
      · rw [buf_setBuf_other _ d2 d _ (fun h2 => hd h2.symm)]
      · rfl
    · rw [update_entry_offsets_entries]
      split_ifs
      · exact le_of_eq (congrArg CfeBuf.cfe_pass_offset
          (buf_setBuf_other _ d2 d _ (fun h2 => hd h2.symm))).symm
      · exact le_refl _

/-- With datagram tracking off, a submit chain whose head is attached
stops there: the head claims the span. -/
theorem submitChainLoop_attached (cfg : Config)
    (hdg : cfg.needDgramTracking = false) (s : CfilState) (j : Fin 8)
    (rest : List (Fin 8)) (d2 : Bool) (data : Span) (chained : Bool)
    (hatt : (s.cfi_entries j).cfe_filter = true) :
    submitChainLoop cfg s (j :: rest) d2 data chained =
      (EJUSTRETURN, (cfil_data_filter cfg s j rest d2 data).2) := by
  rw [submitChainLoop]
  rw [if_pos hatt, if_neg (by simp [hdg])]
  rcases hflt : cfil_data_filter cfg s j rest d2 data with ⟨er, s4⟩
  have hfst : er = EJUSTRETURN := by
    have h := dataFilter_fst_attached cfg s j rest d2 data hatt
    rw [hflt] at h
    exact h
  simp only [hflt]
  rw [hfst]
  rw [if_pos (by decide : EJUSTRETURN ≠ 0)]

/-- A submit walk over the whole configured order preserves both
directions' chain invariants. -/
theorem chainInv_submitChainLoop (cfg : Config)
    (hdg : cfg.needDgramTracking = false) (hnd : cfg.ordered.Nodup)
    (s : CfilState) (d2 : Bool) (data : Span)
    (h : ∀ d3, chainInv cfg d3 s) (d : Bool) :
    chainInv cfg d (submitChainLoop cfg s cfg.ordered d2 data false).2 := by
  rcases hL : cfg.ordered with _ | ⟨j, rest⟩
  · rw [submitChainLoop]
    exact h d
  · have hjL : j ∈ cfg.ordered := by
      rw [hL]
      exact List.mem_cons_self j rest
    have hatt : (s.cfi_entries j).cfe_filter = true := by
      rw [(h d2).1 j]
      simp [hjL]
    rw [submitChainLoop_attached cfg hdg s j rest d2 data false hatt]
    have hL0 : cfg.ordered = [] ++ j :: rest := by
      rw [hL]
      rfl
    have hinv2 : chainInv cfg d2 (cfil_data_filter cfg s j rest d2 data).2 :=
      (inv_master cfg d2 hnd rest.length).2.2.2.2.2 s j rest [] data rfl hL0
        (fun p hp => absurd hp (by simp)) (h d2)
    by_cases hd : d = d2
    · rw [hd]
      exact hinv2
    · rcases dataFilter_cases cfg s j rest d2 data with hc | hc
      · rw [(Prod.ext_iff.mp hc).2]
        exact h d
      · exact chainInv_other_of_cascade hc.2
          (fun k => ((hinv2.1 k).trans ((h d2).1 k).symm)) cfg d hd (h d)

/-- Bumping a direction buffer's aggregate counters is invisible to the
chain invariant as long as the inject queue is untouched. -/
theorem QFrame_dir_bump (s : CfilState) (d2 : Bool)
    (f : CfiBuf → CfiBuf) (hf : ∀ cb, (f cb).cfi_inject_q = cb.cfi_inject_q) :
    QFrame s (s.modifyDirBuf d2 f) :=
  ⟨fun j => by rw [entries_modifyDirBuf],
   fun j dx => by rw [entries_modifyDirBuf]; exact ⟨rfl, rfl, rfl⟩,
   fun dx => by
     by_cases hdx : dx = d2
     · rw [hdx, dirBuf_modifyDirBuf_same]
       exact hf _
     · rw [dirBuf_modifyDirBuf_other s d2 dx f (fun h2 => hdx h2.symm)]⟩

/-- `cfil_data_common` preserves both directions' chain invariants (for a
non-datagram flow). -/
theorem chainInv_data_common (cfg : Config) (hdg : cfg.needDgramTracking = false)
    (hnd : cfg.ordered.Nodup) (s : CfilState) (d2 : Bool) (data : Span)
    (h : ∀ d3, chainInv cfg d3 s) (d : Bool) :
    chainInv cfg d (cfil_data_common cfg s d2 data).2 := by
  unfold cfil_data_common
  by_cases hdrop : s.cfi_drop = true
  · rw [if_pos hdrop]
    exact h d
  · rw [if_neg hdrop]
    by_cases hlen : data.len = 0
    · rw [if_pos hlen]
      exact h d
    · rw [if_neg hlen]
      dsimp only
      generalize hS1 : (if d2 = true then
          { s with cfi_byte_outbound_count := s.cfi_byte_outbound_count + data.len }
        else
          { s with cfi_byte_inbound_count := s.cfi_byte_inbound_count + data.len } :
          CfilState) = s1
      have h1 : ∀ d3, chainInv cfg d3 s1 := by
        intro d3
        rw [← hS1]
        split_ifs <;>
          exact chainInv_of_QFrame
            (QFrame_of_frames rfl (fun dx => by cases dx <;> rfl)) cfg d3 (h d3)
      generalize hS2 : s1.modifyDirBuf d2 (fun cb =>
        { cb with
          cfi_pending_last := cb.cfi_pending_last + data.len
          cfi_pending_mbcnt := cb.cfi_pending_mbcnt + data.mbcnt
          cfi_pending_mbnum := cb.cfi_pending_mbnum + data.mbnum }) = s2
      have h2 : ∀ d3, chainInv cfg d3 s2 := by
        intro d3
        rw [← hS2]
        exact chainInv_of_QFrame
          (QFrame_dir_bump s1 d2 (fun cb =>
            { cb with
              cfi_pending_last := cb.cfi_pending_last + data.len
              cfi_pending_mbcnt := cb.cfi_pending_mbcnt + data.mbcnt
              cfi_pending_mbnum := cb.cfi_pending_mbnum + data.mbnum })
            (fun cb => rfl)) cfg d3 (h1 d3)
      rw [if_neg (show ¬ (cfg.needDgramTracking = true ∧
          ((s2.dirBuf d2).cfi_pending_mbnum > cfg.gc_mbuf_num_max ∨
           (s2.dirBuf d2).cfi_pending_mbcnt > cfg.gc_mbuf_cnt_max)) by simp [hdg])]
      by_cases hfast : (s2.dirBuf d2).cfi_pending_last ≤ (s2.dirBuf d2).cfi_pass_offset
      · rw [if_pos hfast]
        dsimp only
        exact chainInv_of_QFrame
          (QFrame_dir_bump (cfil_update_entry_offsets s2 d2 data.len) d2 (fun cb =>
            { cb with
              cfi_pending_first := cb.cfi_pending_first + data.len
              cfi_pending_mbcnt := cb.cfi_pending_mbcnt - data.mbcnt
              cfi_pending_mbnum := cb.cfi_pending_mbnum - data.mbnum })
            (fun cb => rfl)) cfg d
          (chainInv_update_entry_offsets cfg s2 d2 data.len d (h2 d))
      · rw [if_neg hfast]
        rcases hch : submitChainLoop cfg s2 cfg.ordered d2 data false with ⟨er, s3⟩
        have h3 : ∀ d3, chainInv cfg d3 s3 := by
          intro d3
          have := chainInv_submitChainLoop cfg hdg hnd s2 d2 data h2 d3
          rw [hch] at this
          exact this
        simp only [hch]
        by_cases he : er = 0
        · rw [if_pos he]
          dsimp only
          exact chainInv_of_QFrame (QFrame_dir_bump s3 d2 (fun cb =>
            { cb with
              cfi_pending_first := cb.cfi_pending_first + data.len
              cfi_pending_mbcnt := cb.cfi_pending_mbcnt - data.mbcnt
              cfi_pending_mbnum := cb.cfi_pending_mbnum - data.mbnum })
            (fun cb => rfl)) cfg d (h3 d)
        · rw [if_neg he]
          exact h3 d

/-- The `done` block of a verdict application is invisible to the chain
invariant. -/
theorem QFrame_updateDataOffsetsDone (s : CfilState) (i : Fin 8) (e : Int) :
    QFrame s (updateDataOffsetsDone s i e).2 := by
  unfold updateDataOffsetsDone
  split_ifs
  · dsimp only
    exact (QFrame_setEntry s i { s.cfi_entries i with cfe_detached := true }
        rfl rfl rfl).transQ (QFrame_wakeup _)
  · exact QFrame.reflQ s

/-- `cfil_update_data_offsets` preserves both directions' chain
invariants, for a verdict aimed at an attached entry. -/
theorem chainInv_update_data_offsets (cfg : Config) (hnd : cfg.ordered.Nodup)
    (s : CfilState) (i : Fin 8) (d2 : Bool) (po pk : Nat)
    (hatt : (s.cfi_entries i).cfe_filter = true)
    (h : ∀ d3, chainInv cfg d3 s) (d : Bool) :
    chainInv cfg d (cfil_update_data_offsets cfg s i d2 po pk).2 := by
  unfold cfil_update_data_offsets
  by_cases hdrop : s.cfi_drop = true
  · rw [if_pos hdrop]
    exact h d
  · rw [if_neg hdrop]
    dsimp only
    rcases hvo : applyVerdictOffsets ((s.cfi_entries i).buf d2) po pk with ⟨eb, upd⟩
    simp only [hvo]
    have hm : ∀ d3, chainInv cfg d3 (s.modifyEntryBuf i d2 (fun _ => eb)) := by
      intro d3
      have := chainInv_set_verdict_buf cfg s i d2 po pk d3 (h d3)
      rw [hvo] at this
      exact this
    have hattm : ((s.modifyEntryBuf i d2 (fun _ => eb)).cfi_entries i).cfe_filter =
        true := by
      rw [entries_modifyEntryBuf_same, setBuf_filter]
      exact hatt
    have hiL : i ∈ cfg.ordered := by
      have h2 := (h d2).1 i
      rw [hatt] at h2
      exact of_decide_eq_true h2.symm
    obtain ⟨pre, hpre⟩ := chainAfter_suffix hiL
    by_cases hupd : upd = true
    · rw [if_neg (by simp [hupd])]
      rcases hsq : cfil_data_service_ctl_q cfg (s.modifyEntryBuf i d2 (fun _ => eb))
          i (chainAfter cfg.ordered i) d2 with ⟨er, sq⟩
      have hq2 : chainInv cfg d2 sq := by
        have := (inv_master cfg d2 hnd (chainAfter cfg.ordered i).length).1
          (s.modifyEntryBuf i d2 (fun _ => eb)) i (chainAfter cfg.ordered i) pre
          rfl hpre (hm d2)
        rw [hsq] at this
        exact this
      have hqd : chainInv cfg d sq := by
        by_cases hd : d = d2
        · rw [hd]
          exact hq2
        · have hco := cascadeOut_service_ctl_q cfg
            (s.modifyEntryBuf i d2 (fun _ => eb)) i (chainAfter cfg.ordered i) d2
          rw [hsq] at hco
          exact chainInv_other_of_cascade hco
            (fun k => ((hq2.1 k).trans ((hm d2).1 k).symm)) cfg d hd (hm d)
      simp only [hsq]
      split_ifs <;>
        exact chainInv_of_QFrame (QFrame_updateDataOffsetsDone _ i _) cfg d hqd
    · rw [if_pos (by simp [hupd])]
      exact chainInv_of_QFrame (QFrame_updateDataOffsetsDone _ i _) cfg d (hm d)

/-- `cfil_action_data_pass` preserves both directions' chain invariants. -/
theorem chainInv_action_data_pass (cfg : Config) (hnd : cfg.ordered.Nodup)
    (s : CfilState) (i : Fin 8) (d2 : Bool) (po pk : Nat)
    (hatt : (s.cfi_entries i).cfe_filter = true)
    (h : ∀ d3, chainInv cfg d3 s) (d : Bool) :
    chainInv cfg d (cfil_action_data_pass cfg s i d2 po pk).2 := by
  unfold cfil_action_data_pass
  rcases hup : cfil_update_data_offsets cfg s i d2 po pk with ⟨er, s1⟩
  have h1 : ∀ d3, chainInv cfg d3 s1 := by
    intro d3
    have := chainInv_update_data_offsets cfg hnd s i d2 po pk hatt h d3
    rw [hup] at this
    exact this
  exact chainInv_of_QFrame (QFrame_set_socket_pass _ d2) cfg d
    (chainInv_service_inject cfg s1 d2 d (h1 d))

/-- `cfil_action_drop` preserves both directions' chain invariants (it
drains everything). -/
theorem chainInv_action_drop (cfg : Config) (s : CfilState) (i : Fin 8)
    (h : ∀ d3, chainInv cfg d3 s) (d : Bool) :
    chainInv cfg d (cfil_action_drop cfg s i).2 := by
  unfold cfil_action_drop
  have hFpre : ∀ st2 : CfilState, st2.cfi_entries = s.cfi_entries →
      ∀ j : Fin 8, ((st2.setEntry i
        { st2.cfi_entries i with cfe_detached := true }).cfi_entries j).cfe_filter =
        decide (j ∈ cfg.ordered) := by
    intro st2 hst2 j
    by_cases hj : j = i
    · rw [hj, entries_setEntry_same]
      show (st2.cfi_entries i).cfe_filter = decide (i ∈ cfg.ordered)
      rw [hst2]
      exact (h d).1 i
    · rw [entries_setEntry_other _ i j _ hj, hst2]
      exact (h d).1 j
  by_cases h1 : (s.cfi_entries i).cfe_filter = true
  · rw [if_neg (by simp [h1])]
    dsimp only
    by_cases h2 : cfg.needDgramTracking = true
    · rw [if_neg (not_not_intro h2)]
      dsimp only
      exact chainInv_of_QFrame (QFrame_wakeup _) cfg d
        (chainInv_flush cfg _ d (hFpre { s with cfi_drop := true } rfl))
    · rw [if_pos h2]
      dsimp only
      rcases hpo : popOracle { s with cfi_drop := true } with ⟨e1, s2⟩
      have hent2 : s2.cfi_entries = s.cfi_entries := by
        have := (popOracle_frame { s with cfi_drop := true }).1
        rw [hpo] at this
        exact this
      simp only [hpo]
      split_ifs <;>
        first
          | exact chainInv_of_QFrame (QFrame_wakeup _) cfg d
              (chainInv_flush cfg _ d (hFpre { s2 with so_defunct := true } hent2))
          | exact chainInv_of_QFrame (QFrame_wakeup _) cfg d
              (chainInv_flush cfg _ d (hFpre s2 hent2))
  · rw [if_pos (by simp [h1])]
    exact h d

/-- A resume notification preserves both directions' chain invariants. -/
theorem chainInv_ctl_rcvd (cfg : Config) (s : CfilState) (i : Fin 8)
    (h : ∀ d3, chainInv cfg d3 s) (d : Bool) :
    chainInv cfg d (cfil_ctl_rcvd cfg s i) := by
  unfold cfil_ctl_rcvd
  dsimp only
  split_ifs <;> rw [ctlRcvdFindLoop_eq_none] <;>
    first
      | exact h d
      | exact chainInv_of_QFrame (QFrame_setCfFC s i false) cfg d (h d)

/-- Every step of the transition system preserves both directions' chain
invariants (for a non-datagram flow with a duplicate-free configured
order). -/
theorem applyStep_chainInv (cfg : Config) (hdg : cfg.needDgramTracking = false)
    (hnd : cfg.ordered.Nodup) (s : CfilState) (st : CfilStep)
    (h : ∀ d3, chainInv cfg d3 s) (d : Bool) :
    chainInv cfg d (applyStep cfg s st) := by
  cases st with
  | submit d2 data =>
    exact chainInv_data_common cfg hdg hnd s d2 data h d
  | dataPass i d2 po pk =>
    show chainInv cfg d (match verdictPrelude s i with
      | none => s
      | some t => (cfil_action_data_pass cfg t i d2 po pk).2)
    rcases hvp : verdictPrelude s i with _ | t
    · exact h d
    · unfold verdictPrelude at hvp
      split_ifs at hvp with hv1 hv2 hv3
      have ht := Option.some_inj.mp hvp
      have hT : ∀ d3, chainInv cfg d3 t := by
        intro d3
        rw [← ht]
        exact chainInv_of_QFrame (QFrame_setEntry s i
          { s.cfi_entries i with cfe_data_start := true } rfl rfl rfl) cfg d3 (h d3)
      have hattT : (t.cfi_entries i).cfe_filter = true := by
        rw [← ht, entries_setEntry_same]
        show (s.cfi_entries i).cfe_filter = true
        simpa using hv2
      exact chainInv_action_data_pass cfg hnd t i d2 po pk hattT hT d
  | serviceCtl i d2 =>
    show chainInv cfg d (if (s.cfi_entries i).cfe_filter then
        (cfil_data_service_ctl_q cfg s i (chainAfter cfg.ordered i) d2).2
      else s)
    split_ifs with hatt
    · have hiL : i ∈ cfg.ordered := by
        have h2 := (h d2).1 i
        rw [(by simpa using hatt : (s.cfi_entries i).cfe_filter = true)] at h2
        exact of_decide_eq_true h2.symm
      obtain ⟨pre, hpre⟩ := chainAfter_suffix hiL
      have hq2 : chainInv cfg d2
          (cfil_data_service_ctl_q cfg s i (chainAfter cfg.ordered i) d2).2 :=
        (inv_master cfg d2 hnd (chainAfter cfg.ordered i).length).1 s i
          (chainAfter cfg.ordered i) pre rfl hpre (h d2)
      by_cases hd : d = d2
      · rw [hd]
        exact hq2
      · exact chainInv_other_of_cascade
          (cascadeOut_service_ctl_q cfg s i (chainAfter cfg.ordered i) d2)
          (fun k => ((hq2.1 k).trans ((h d2).1 k).symm)) cfg d hd (h d)
    · exact h d
  | drop i =>
    show chainInv cfg d (match verdictPrelude s i with
      | none => s
      | some t => (cfil_action_drop cfg t i).2)
    rcases hvp : verdictPrelude s i with _ | t
    · exact h d
    · unfold verdictPrelude at hvp
      split_ifs at hvp with hv1 hv2 hv3
      have ht := Option.some_inj.mp hvp
      have hT : ∀ d3, chainInv cfg d3 t := by
        intro d3
        rw [← ht]
        exact chainInv_of_QFrame (QFrame_setEntry s i
          { s.cfi_entries i with cfe_data_start := true } rfl rfl rfl) cfg d3 (h d3)
      exact chainInv_action_drop cfg t i hT d
  | ctlRcvd i =>
    exact chainInv_ctl_rcvd cfg s i h d

/-- The chain invariant holds along every trace. -/
theorem runSteps_chainInv (cfg : Config) (hdg : cfg.needDgramTracking = false)
    (hnd : cfg.ordered.Nodup) :
    ∀ (steps : List CfilStep) (s : CfilState), (∀ d3, chainInv cfg d3 s) →
      ∀ d, chainInv cfg d (runSteps cfg s steps) := by
  intro steps
  induction steps with
  | nil =>
    intro s h d
    exact h d
  | cons st rest ih =>
    intro s h d
    exact ih (applyStep cfg s st)
      (fun d3 => applyStep_chainInv cfg hdg hnd s st h d3) d

/-- The chain invariant holds at the freshly attached flow. -/
theorem chainInv_init (cfg : Config) (oracle : List Int) (d : Bool) :
    chainInv cfg d (initState cfg oracle) := by
  have hbuf : ∀ (j : Fin 8) (d3 : Bool),
      (((initState cfg oracle).cfi_entries j).buf d3) = CfeBuf.init := by
    intro j d3
    cases d3 <;> rfl
  have hdir : ∀ d3 : Bool, (initState cfg oracle).dirBuf d3 = CfiBuf.init := by
    intro d3
    cases d3 <;> rfl
  refine ⟨fun j => rfl, ⟨fun j d3 => ?_, fun d3 => ?_⟩, fun j hj => ?_, ?_,
    fun e he => ?_, fun j hj => ?_⟩
  · rw [hbuf j d3]
    exact ⟨⟨Nat.le_refl 0, rfl⟩, ⟨Nat.le_refl 0, rfl⟩⟩
  · rw [hdir d3]
    exact ⟨Nat.le_refl 0, rfl⟩
  · rw [hbuf j d]
    rfl
  · refine chain'_of_all ?_ cfg.ordered
    intro a b
    rw [hbuf a d, hbuf b d]
    exact Nat.le_refl 0
  · rw [hdir d, hbuf e d]
    exact Nat.le_refl 0
  · rw [hbuf j d]
    exact Nat.le_refl 0

/-- **C3** (confirmed).  Chaining order: on a non-datagram flow whose
configured entry order has no duplicates, at every reachable state and for
every entry of the configured order, the direction's inject queue ends at
or before that entry's pass offset — both span by span (each buffered
span's end offset is bounded) and in aggregate (`q_end`).  Since a span
enters the inject queue only by being appended at `q_end`
(`cfil_queue_enqueue` in `cfil_service_pending_queue`), a byte range is
re-injected only after every attached entry has advanced its
`pass_offset` past the range's end. -/
theorem C3_inject_behind_pass (cfg : Config) (oracle : List Int)
    (steps : List CfilStep) (d : Bool) (j : Fin 8)
    (hdg : cfg.needDgramTracking = false)
    (hnd : cfg.ordered.Nodup)
    (hj : j ∈ cfg.ordered) :
    (∀ k : Nat,
      ((runSteps cfg (initState cfg oracle) steps).dirBuf d).cfi_inject_q.q_start +
        (((((runSteps cfg (initState cfg oracle)
            steps).dirBuf d).cfi_inject_q.q_mq.take (k + 1)).map Span.len)).sum ≤
      (((runSteps cfg (initState cfg oracle) steps).cfi_entries j).buf
        d).cfe_pass_offset) ∧
    ((runSteps cfg (initState cfg oracle) steps).dirBuf d).cfi_inject_q.q_end ≤
      (((runSteps cfg (initState cfg oracle) steps).cfi_entries j).buf
        d).cfe_pass_offset := by
  have hinv : chainInv cfg d (runSteps cfg (initState cfg oracle) steps) :=
    runSteps_chainInv cfg hdg hnd steps (initState cfg oracle)
      (fun d3 => chainInv_init cfg oracle d3) d
  obtain ⟨hF, hQ, hA, hB, hI, hC⟩ := hinv
  have hne : cfg.ordered ≠ [] := fun hn => by
    rw [hn] at hj
    exact absurd hj (List.not_mem_nil j)
  have hlast : cfg.ordered.getLast? = some (cfg.ordered.getLast hne) :=
    List.getLast?_eq_getLast cfg.ordered hne
  have hchain : cfg.ordered.Chain' (fun a b =>
      (((runSteps cfg (initState cfg oracle) steps).cfi_entries b).buf
        d).cfe_pending_q.q_start ≤
      (((runSteps cfg (initState cfg oracle) steps).cfi_entries a).buf
        d).cfe_pending_q.q_start) := by
    refine chain'_imp_mem cfg.ordered hB ?_
    intro a b ha hb hab
    have h1 := (hQ.1 b d).2.1
    have h2 := hA b hb
    have h3 := (hQ.1 b d).1.1
    omega
  have hanti := chain_last_le (fun x =>
      (((runSteps cfg (initState cfg oracle) steps).cfi_entries x).buf
        d).cfe_pending_q.q_start)
    cfg.ordered hchain (cfg.ordered.getLast hne) hlast j hj
  have hanti2 : (((runSteps cfg (initState cfg oracle)
      steps).cfi_entries (cfg.ordered.getLast hne)).buf
        d).cfe_pending_q.q_start ≤
      (((runSteps cfg (initState cfg oracle) steps).cfi_entries j).buf
        d).cfe_pending_q.q_start := hanti
  have hqe : ((runSteps cfg (initState cfg oracle)
      steps).dirBuf d).cfi_inject_q.q_end ≤
      (((runSteps cfg (initState cfg oracle) steps).cfi_entries j).buf
        d).cfe_pass_offset := by
    have h1 := hI (cfg.ordered.getLast hne) hlast
    have h2 := hC j hj
    omega
  refine ⟨fun k => ?_, hqe⟩
  have hqwf := hQ.2 d
  have hmt : ((((runSteps cfg (initState cfg oracle)
      steps).dirBuf d).cfi_inject_q.q_mq.take (k + 1)).map Span.len) =
      ((((runSteps cfg (initState cfg oracle)
        steps).dirBuf d).cfi_inject_q.q_mq.map Span.len).take (k + 1)) :=
    List.map_take ..
  have hsplit : ((((runSteps cfg (initState cfg oracle)
      steps).dirBuf d).cfi_inject_q.q_mq.map Span.len).take (k + 1)).sum +
      ((((runSteps cfg (initState cfg oracle)
        steps).dirBuf d).cfi_inject_q.q_mq.map Span.len).drop (k + 1)).sum =
      qBytes ((runSteps cfg (initState cfg oracle)
        steps).dirBuf d).cfi_inject_q := by
    rw [← List.sum_append, List.take_append_drop]
    rfl
  rw [hmt]
  obtain ⟨w1, w2⟩ := hqwf
  omega

/-- Witness for C3: a two-filter flow accepting a 7-byte span on the
outgoing side keeps the inject queue's end offset at or below the first
entry's pass offset. -/
theorem C3_inject_behind_pass_witness :
    ((runSteps
        { needDgramTracking := false, gc_mbuf_num_max := 0, gc_mbuf_cnt_max := 0,
          ordered := [0, 1] }
        (initState
          { needDgramTracking := false, gc_mbuf_num_max := 0, gc_mbuf_cnt_max := 0,
            ordered := [0, 1] } [])
        [CfilStep.submit true ⟨7, 1, 1⟩]).dirBuf true).cfi_inject_q.q_end ≤
      (((runSteps
        { needDgramTracking := false, gc_mbuf_num_max := 0, gc_mbuf_cnt_max := 0,
          ordered := [0, 1] }
        (initState
          { needDgramTracking := false, gc_mbuf_num_max := 0, gc_mbuf_cnt_max := 0,
            ordered := [0, 1] } [])
        [CfilStep.submit true ⟨7, 1, 1⟩]).cfi_entries 0).buf
          true).cfe_pass_offset :=
  (C3_inject_behind_pass
    { needDgramTracking := false, gc_mbuf_num_max := 0, gc_mbuf_cnt_max := 0,
      ordered := [0, 1] } [] [CfilStep.submit true ⟨7, 1, 1⟩] true 0 rfl
    (by decide) (by decide)).2
end Cfil
